import Mathlib

/-!
# Scatter-gather list manager of the AXI DMA user library (src/src/axidma.c)

Shallow embedding of the list manager and of the functions it is built from.

Conventions of the embedding.

* C `unsigned` values are natural numbers below `2 ^ 32`; every addition and
  subtraction the source performs on them is written with an explicit
  reduction modulo `2 ^ 32`.  `uint64_t` and `unsigned long` values are
  reduced modulo `2 ^ 64`.
* A `struct pinner_physlist` is the list of its first `num_entries` entries.
* The circular doubly linked chain hanging off `lst->sentinel` is the list of
  its records read forward from `sentinel.next`; the sentinel node itself is
  kept apart, with the payload fields that `axidma_list_new` leaves
  uninitialised.
* The descriptor memory behind `sg_buf` is a byte map indexed by the offset
  from `sg_buf`; 32-bit words are little endian and bit-fields are allocated
  from the least significant bit, as on the AArch64 Linux target.
* `malloc` is given a budget: the number of `sg_entry` allocations it can still
  satisfy during the call.
-/

namespace Axidma

/-! ## Constants and plain data -/

/-- Value of the macro `AXIDMA_NOT_FOUND` (include/axidma.h, line 17). -/
def AXIDMA_NOT_FOUND : Nat := 0xFFFFFFFF

/-- Bytes taken by the members of `sg_descriptor` in declaration order
(include/axidma.h, lines 25-54): four 32-bit words, one unnamed 64-bit
`unsigned long` bit-field, the 32-bit `control` and `status` structs and five
32-bit application words. -/
def sg_descriptor_members : List Nat := [4, 4, 4, 4, 8, 4, 4, 4, 4, 4, 4, 4]

/-- Alignment of `sg_descriptor`: that of its widest container type,
`unsigned long`, which on AArch64 counts even for an unnamed bit-field. -/
def sg_descriptor_align : Nat := 8

/-- The value of `sizeof(sg_descriptor)`: the members occupy 52 bytes, padded
to the alignment of the struct, which gives 56. -/
def sizeof_sg_descriptor : Nat :=
  (sg_descriptor_members.sum + sg_descriptor_align - 1) / sg_descriptor_align
    * sg_descriptor_align

/-- One entry of a physlist, `struct pinner_physlist_entry`
(modules/axidma/pinner.h): a physically contiguous span. -/
structure pinner_physlist_entry where
  addr : Nat
  len : Nat
deriving DecidableEq, Repr

/-- The entries `entries[0 .. num_entries)` of a `struct pinner_physlist`. -/
abbrev physlist := List pinner_physlist_entry

/-- Codes returned by `axidma_add_entry` (include/axidma.h, lines 133-138). -/
inductive add_entry_code where
  | ADD_ENTRY_SUCCESS
  | ADD_ENTRY_SG_OOM
  | ADD_ENTRY_BUF_OOM
  | ADD_ENTRY_ERROR
deriving DecidableEq, Repr

/-- Codes of a dequeued buffer (include/axidma.h, lines 106-110). -/
inductive buf_code where
  | TRANSFER_SUCCESS
  | TRANSFER_FAILED
  | END_OF_LIST
deriving DecidableEq, Repr

/-- Result of `axidma_dequeue_s2mm_buf`; `base` is an address, 0 for NULL. -/
structure s2mm_buf where
  base : Nat
  len : Nat
  code : buf_code
deriving DecidableEq, Repr

/-- Payload fields of a `struct _sg_entry`; the links `prev` and `next` are
given by the position of the record in the chain. -/
structure sg_entry where
  sg_offset : Nat
  data_offset : Nat
  buf_phys : Nat
  len : Nat
  is_SOF : Bool
  is_EOF : Bool
deriving DecidableEq, Repr

/-- Values of the pointer `to_vist`: NULL, the address of the sentinel, or the
address of the record at a position of the chain. -/
inductive cursor where
  | null
  | sentinel
  | entry (i : Nat)
deriving DecidableEq, Repr

/-- The struct `sg_list`.  `sentinel` holds the payload fields of the sentinel
node, which `axidma_list_new` never writes; `chain` is the list of records
from `sentinel.next` to `sentinel.prev`. -/
structure sg_list where
  sentinel : sg_entry
  chain : List sg_entry
  to_vist : cursor
  sg_buf : Nat
  sg_offset : Nat
  sg_plist : physlist
  data_buf : Nat
  data_offset : Nat
  data_plist : physlist
deriving DecidableEq, Repr

/-! ## Physlist helpers (axidma.c, lines 163-237) -/

/-- Loop of `get_entry_index` with the loop counter `i` made explicit: the
list holds the entries from index `i` on. -/
def get_entry_index_from : Nat → List pinner_physlist_entry → Nat → Option (Nat × Nat)
  | _, [], _ => none
  | i, e :: rest, offset =>
    if offset ≥ e.len then get_entry_index_from (i + 1) rest (offset - e.len)
    else some (i, offset)

/-- The function `get_entry_index`: `some (index, offset_in_entry)` when found,
`none` for the return value -1 (the output parameter is then not written). -/
def get_entry_index (plist : physlist) (offset : Nat) : Option (Nat × Nat) :=
  get_entry_index_from 0 plist offset

/-- The function `virt_to_phys`: physical address of the byte at `offset`, 0
(NULL) when the offset is not in the physlist. -/
def virt_to_phys : physlist → Nat → Nat
  | [], _ => 0
  | e :: rest, offset =>
    if offset ≥ e.len then virt_to_phys rest (offset - e.len)
    else (e.addr + offset) % 2 ^ 64

/-- The `while (ind < plist->num_entries)` loop of
`find_contiguous_aligned_after`; the list holds `entries[ind ..]`. -/
def find_contiguous_loop : List pinner_physlist_entry → Nat → Nat → Nat → Nat
  | [], _, _, _ => AXIDMA_NOT_FOUND
  | e :: rest, offset, offset_in_entry, sz =>
    -- (unsigned)((addr + offset_in_entry) & 0x3F)
    let alignment := (e.addr + offset_in_entry) % 2 ^ 64 % 64
    let adjustment := if alignment ≠ 0 then 64 - alignment else 0
    let offset := (offset + adjustment) % 2 ^ 32
    let offset_in_entry := (offset_in_entry + adjustment) % 2 ^ 32
    -- unsigned subtraction
    let space_left := (e.len + 2 ^ 32 - offset_in_entry) % 2 ^ 32
    if sz ≤ space_left then offset
    else find_contiguous_loop rest ((offset + space_left) % 2 ^ 32) 0 sz

/-- The function `find_contiguous_aligned_after`. -/
def find_contiguous_aligned_after (plist : physlist) (offset sz : Nat) : Nat :=
  match get_entry_index plist offset with
  | none => AXIDMA_NOT_FOUND
  | some (ind, offset_in_entry) =>
    find_contiguous_loop (plist.drop ind) offset offset_in_entry sz

/-! ## Building the chain (axidma.c, lines 116-137 and 246-344) -/

/-- The function `axidma_list_new`; `garbage` is what `malloc` left in the
payload fields of the sentinel. -/
def axidma_list_new (garbage : sg_entry) (sg_buf : Nat) (sg_plist : physlist)
    (data_buf : Nat) (data_plist : physlist) : sg_list :=
  { sentinel := garbage, chain := [], to_vist := cursor.null,
    sg_buf := sg_buf, sg_plist := sg_plist, sg_offset := 0,
    data_buf := data_buf, data_plist := data_plist, data_offset := 0 }

/-- What the staging loop of `axidma_add_entry` hands over: an error code, or
the staged records with the prospective descriptor and data cursors. -/
inductive staging where
  | error (code : add_entry_code)
  | staged (entries : List sg_entry) (sg_offset data_offset : Nat)
deriving DecidableEq, Repr

/-- The `while (sz != 0)` loop of `axidma_add_entry` (lines 279-326).  `cur` is
`data_plist->entries[ind]`, `rest` the entries after it, `heap` the number of
`malloc` calls that can still succeed and `acc` the temporary list. -/
def add_entry_loop (sg_plist data_plist : physlist) :
    List pinner_physlist_entry → pinner_physlist_entry → Nat → Nat → Nat → Nat → Nat →
      List sg_entry → staging
  | rest, cur, heap, offset_in_entry, sz, sg_offset, data_offset, acc =>
    if sz = 0 then staging.staged acc sg_offset data_offset
    else
      let space := (cur.len + 2 ^ 32 - offset_in_entry) % 2 ^ 32
      let sg_offset := find_contiguous_aligned_after sg_plist sg_offset sizeof_sg_descriptor
      if sg_offset = AXIDMA_NOT_FOUND then staging.error add_entry_code.ADD_ENTRY_SG_OOM
      else
        match heap with
        | 0 => staging.error add_entry_code.ADD_ENTRY_ERROR
        | heap + 1 =>
          let e : sg_entry :=
            { sg_offset := sg_offset, data_offset := data_offset,
              buf_phys := virt_to_phys data_plist data_offset,
              len := 0, is_SOF := false, is_EOF := false }
          let sg_offset := (sg_offset + sizeof_sg_descriptor) % 2 ^ 32
          if space < sz then
            match rest with
            | [] => staging.error add_entry_code.ADD_ENTRY_BUF_OOM
            | next :: rest =>
              add_entry_loop sg_plist data_plist rest next heap 0 (sz - space) sg_offset
                ((data_offset + space) % 2 ^ 32) (acc ++ [{ e with len := space }])
          else
            staging.staged (acc ++ [{ e with len := sz }]) sg_offset
              ((data_offset + sz) % 2 ^ 32)

/-- The assignment `sentinel.next->is_SOF = 1` on the temporary list. -/
def set_first_SOF : List sg_entry → List sg_entry
  | [] => []
  | e :: rest => { e with is_SOF := true } :: rest

/-- The assignment `sentinel.prev->is_EOF = 1` on the temporary list. -/
def set_last_EOF : List sg_entry → List sg_entry
  | [] => []
  | [e] => [{ e with is_EOF := true }]
  | e :: e2 :: rest => e :: set_last_EOF (e2 :: rest)

/-- The function `axidma_add_entry` on a non-null list: the code returned and
the list after the call.  `heap` is the number of `sg_entry` allocations that
`malloc` can satisfy during the call. -/
def axidma_add_entry (heap : Nat) (lst : sg_list) (sz : Nat) : add_entry_code × sg_list :=
  if sz = 0 then (add_entry_code.ADD_ENTRY_ERROR, lst)
  else
    match get_entry_index lst.data_plist lst.data_offset with
    | none => (add_entry_code.ADD_ENTRY_BUF_OOM, lst)
    | some (ind, offset_in_entry) =>
      match lst.data_plist.drop ind with
      | [] => (add_entry_code.ADD_ENTRY_BUF_OOM, lst) -- not reached: ind < num_entries
      | cur :: rest =>
        match add_entry_loop lst.sg_plist lst.data_plist rest cur heap offset_in_entry sz
            lst.sg_offset lst.data_offset [] with
        | staging.error code => (code, lst)
        | staging.staged entries sg_offset data_offset =>
          (add_entry_code.ADD_ENTRY_SUCCESS,
            { lst with
              chain := lst.chain ++ set_last_EOF (set_first_SOF entries),
              sg_offset := sg_offset,
              data_offset := data_offset })

/-! ## Descriptor memory (include/axidma.h, lines 25-54) -/

/-- Bytes of the buffer behind `sg_buf`, indexed by the offset from `sg_buf`.
The model gives the buffer no end: a store at any offset is recorded, also at
an offset past the `plist_total sg_plist` bytes of the buffer, where the C
program stores out of bounds.  What is stated about the memory after
`axidma_write_sg_list` is therefore stated for lists all of whose slots lie
inside the buffer. -/
structure Mem where
  byte : Nat → Nat

/-- The byte stored at offset `a`. -/
def read8 (m : Mem) (a : Nat) : Nat := m.byte a % 256

/-- Little-endian 32-bit load at offset `a`. -/
def read32 (m : Mem) (a : Nat) : Nat :=
  read8 m a + 256 * read8 m (a + 1) + 65536 * read8 m (a + 2) + 16777216 * read8 m (a + 3)

/-- Little-endian 32-bit store of `v` at offset `a`. -/
def write32 (m : Mem) (a v : Nat) : Mem :=
  { byte := fun x =>
      if x = a then v % 256
      else if x = a + 1 then v / 256 % 256
      else if x = a + 2 then v / 65536 % 256
      else if x = a + 3 then v / 16777216 % 256
      else m.byte x }

/-- Read of a bit-field of width `w` starting at bit `lo` of the 32-bit unit at
offset `a`. -/
def load_bits (m : Mem) (a lo w : Nat) : Nat := read32 m a / 2 ^ lo % 2 ^ w

/-- The 32-bit unit `x` with the bit-field of width `w` starting at bit `lo`
replaced by `v` truncated to `w` bits. -/
def set_field (x lo w v : Nat) : Nat :=
  (x % 2 ^ lo + v % 2 ^ w * 2 ^ lo + x / 2 ^ (lo + w) * 2 ^ (lo + w)) % 2 ^ 32

/-- Assignment to a bit-field of width `w` starting at bit `lo` of the 32-bit
unit at offset `a`: the unit is read, the field replaced and the unit written
back. -/
def store_bits (m : Mem) (a lo w v : Nat) : Mem :=
  write32 m a (set_field (read32 m a) lo w v)

/-- Value of an `int` flag assigned to a one-bit field. -/
def flag (b : Bool) : Nat := if b then 1 else 0

/-- Field `next_desc_lsb` of the descriptor at offset `d`. -/
def next_desc_lsb (m : Mem) (d : Nat) : Nat := read32 m d
/-- Field `next_desc_msb` of the descriptor at offset `d`. -/
def next_desc_msb (m : Mem) (d : Nat) : Nat := read32 m (d + 4)
/-- Field `buffer_lsb` of the descriptor at offset `d`. -/
def buffer_lsb (m : Mem) (d : Nat) : Nat := read32 m (d + 8)
/-- Field `buffer_msb` of the descriptor at offset `d`. -/
def buffer_msb (m : Mem) (d : Nat) : Nat := read32 m (d + 12)
/-- Field `control.len` (26 bits) of the descriptor at offset `d`. -/
def control_len (m : Mem) (d : Nat) : Nat := load_bits m (d + 24) 0 26
/-- Field `control.eof` of the descriptor at offset `d`. -/
def control_eof (m : Mem) (d : Nat) : Nat := load_bits m (d + 24) 26 1
/-- Field `control.sof` of the descriptor at offset `d`. -/
def control_sof (m : Mem) (d : Nat) : Nat := load_bits m (d + 24) 27 1
/-- Field `status.len` (26 bits) of the descriptor at offset `d`. -/
def status_len (m : Mem) (d : Nat) : Nat := load_bits m (d + 28) 0 26
/-- Field `status.eof` of the descriptor at offset `d`. -/
def status_eof (m : Mem) (d : Nat) : Nat := load_bits m (d + 28) 26 1
/-- Field `status.sof` of the descriptor at offset `d`. -/
def status_sof (m : Mem) (d : Nat) : Nat := load_bits m (d + 28) 27 1
/-- Field `status.int_err` of the descriptor at offset `d`. -/
def status_int_err (m : Mem) (d : Nat) : Nat := load_bits m (d + 28) 28 1
/-- Field `status.slave_err` of the descriptor at offset `d`. -/
def status_slave_err (m : Mem) (d : Nat) : Nat := load_bits m (d + 28) 29 1
/-- Field `status.decode_err` of the descriptor at offset `d`. -/
def status_decode_err (m : Mem) (d : Nat) : Nat := load_bits m (d + 28) 30 1
/-- Field `status.complete` of the descriptor at offset `d`. -/
def status_complete (m : Mem) (d : Nat) : Nat := load_bits m (d + 28) 31 1

/-! ## Writing the chain to memory (axidma.c, lines 347-404) -/

/-- The function `s2mm_write_sg_entry`; `next` is the node `e->next`. -/
def s2mm_write_sg_entry (m : Mem) (sg_plist : physlist) (e next : sg_entry) : Mem :=
  let desc := e.sg_offset
  let m := store_bits m (desc + 24) 27 1 (flag e.is_SOF)
  let m := store_bits m (desc + 24) 26 1 (flag e.is_EOF)
  let m := store_bits m (desc + 24) 0 26 e.len
  let m := store_bits m (desc + 28) 31 1 0
  let m := store_bits m (desc + 28) 30 1 0
  let m := store_bits m (desc + 28) 26 1 0
  let m := store_bits m (desc + 28) 28 1 0
  let m := store_bits m (desc + 28) 0 26 0
  let m := store_bits m (desc + 28) 29 1 0
  let m := store_bits m (desc + 28) 27 1 0
  let m := write32 m (desc + 8) (e.buf_phys % 2 ^ 32)
  let m := write32 m (desc + 12) (e.buf_phys / 2 ^ 32 % 2 ^ 32)
  let nextdesc_phys := virt_to_phys sg_plist next.sg_offset
  let m := write32 m desc (nextdesc_phys % 2 ^ 32)
  write32 m (desc + 4) (nextdesc_phys / 2 ^ 32 % 2 ^ 32)

/-- The `for` loop of `axidma_write_sg_list` (lines 398-400) over the records
from `e` on; the node after the last record is the sentinel. -/
def write_sg_entries (sg_plist : physlist) (sentinel : sg_entry) : List sg_entry → Mem → Mem
  | [], m => m
  | [e], m => s2mm_write_sg_entry m sg_plist e sentinel
  | e :: next :: rest, m =>
    write_sg_entries sg_plist sentinel (next :: rest) (s2mm_write_sg_entry m sg_plist e next)

/-- The part of `axidma_ctx` the list manager touches: `lst` tells whether
`ctx->lst` points at the list (it is NULL after `axidma_open`). -/
structure axidma_ctx where
  lst : Bool
deriving DecidableEq, Repr

/-- The function `axidma_write_sg_list`; `none` stands for a NULL pointer.  The
cache flush that ends it is a call to the pinner driver and changes neither
the list nor the bytes of the descriptor memory. -/
def axidma_write_sg_list (ctx : Option axidma_ctx) (lst : Option sg_list) (m : Mem) :
    Option axidma_ctx × Option sg_list × Mem :=
  match ctx, lst with
  | none, _ => (ctx, lst, m)
  | some _, none => (ctx, lst, m)
  | some c, some l =>
    match l.chain with
    | [] => (ctx, lst, m)
    | _ :: _ =>
      (some { c with lst := true }, some { l with to_vist := cursor.entry 0 },
        write_sg_entries l.sg_plist l.sentinel l.chain m)

/-! ## Reading completed buffers back (axidma.c, lines 479-553) -/

/-- The `do ... while` loop of `axidma_dequeue_s2mm_buf` (lines 506-539), `e`
being the record at position `i` of the chain and `rest` the records after
it.  Returns the accumulated length, the code and the position of the last
record visited. -/
def dequeue_walk (m : Mem) : sg_entry → List sg_entry → Nat → Nat → buf_code →
    Nat × buf_code × Nat
  | e, rest, i, len, code =>
    let desc := e.sg_offset
    let len := (len + status_len m desc) % 2 ^ 32
    let code :=
      if status_complete m desc = 0 ∨ status_decode_err m desc ≠ 0 ∨ status_int_err m desc ≠ 0
          ∨ status_slave_err m desc ≠ 0 then buf_code.TRANSFER_FAILED
      else code
    match rest with
    | [] => (len, code, i)
    | next :: rest =>
      if status_eof m desc = 0 then dequeue_walk m next rest (i + 1) len code
      else (len, code, i)

/-- The function `axidma_dequeue_s2mm_buf` on a non-null list, reading the
descriptor memory `m`: the buffer returned and the list after the call. -/
def axidma_dequeue_s2mm_buf (lst : sg_list) (m : Mem) : s2mm_buf × sg_list :=
  match lst.to_vist with
  | cursor.null => ({ base := 0, len := 0, code := buf_code.END_OF_LIST }, lst)
  | cursor.sentinel =>
    ({ base := 0, len := 0, code := buf_code.END_OF_LIST }, { lst with to_vist := cursor.null })
  | cursor.entry i =>
    match lst.chain.drop i with
    | [] => ({ base := 0, len := 0, code := buf_code.END_OF_LIST }, lst) -- not a node of the chain
    | e :: rest =>
      let r := dequeue_walk m e rest i 0 buf_code.TRANSFER_SUCCESS
      ({ base := lst.data_buf + e.data_offset, len := r.1, code := r.2.1 },
        { lst with
          to_vist := if r.2.2 + 1 < lst.chain.length then cursor.entry (r.2.2 + 1)
                     else cursor.sentinel })

/-- The function `axidma_reset_lst_traversal`: `to_vist = sentinel.next`, which
is the sentinel itself when the chain has no record. -/
def axidma_reset_lst_traversal (lst : sg_list) : sg_list :=
  { lst with to_vist := match lst.chain with
                        | [] => cursor.sentinel
                        | _ :: _ => cursor.entry 0 }

/-! ## Callers (example.c, lines 52-87) -/

/-- A sequence of `axidma_add_entry` calls, each given as (heap budget, size),
that all return `ADD_ENTRY_SUCCESS`; `none` as soon as one does not. -/
def add_entries : sg_list → List (Nat × Nat) → Option sg_list
  | lst, [] => some lst
  | lst, (heap, sz) :: calls =>
    if (axidma_add_entry heap lst sz).1 = add_entry_code.ADD_ENTRY_SUCCESS then
      add_entries (axidma_add_entry heap lst sz).2 calls
    else none

/-- The results of `n` successive calls of `axidma_dequeue_s2mm_buf` on
unchanged descriptor memory, and the list after them. -/
def dequeue_n (m : Mem) : Nat → sg_list → List s2mm_buf × sg_list
  | 0, lst => ([], lst)
  | n + 1, lst =>
    let r := axidma_dequeue_s2mm_buf lst m
    let rs := dequeue_n m n r.2
    (r.1 :: rs.1, rs.2)

/-- The drain loop of the example: dequeue until `END_OF_LIST` comes back,
making at most `fuel` calls; the results (the final `END_OF_LIST` included)
and the list after them, `none` when `fuel` calls were not enough. -/
def drain (m : Mem) : Nat → sg_list → Option (List s2mm_buf × sg_list)
  | 0, _ => none
  | fuel + 1, lst =>
    let r := axidma_dequeue_s2mm_buf lst m
    if r.1.code = buf_code.END_OF_LIST then some ([r.1], r.2)
    else
      match drain m fuel r.2 with
      | none => none
      | some rs => some (r.1 :: rs.1, rs.2)

/-! ## Starting the transfer (axidma.c, lines 412-474) -/

/-- The S2MM registers of `axidma_regs` that the library writes. -/
inductive axidma_reg where
  | S2MM_DMACR
  | S2MM_curdesc_lsb
  | S2MM_curdesc_msb
  | S2MM_taildesc_lsb
  | S2MM_taildesc_msb
deriving DecidableEq, Repr

/-- What can be observed of a call of `axidma_s2mm_transfer`: the volatile
register stores in program order, each with the 32-bit value stored; whether
the call went on to block in `read` on the UIO file; and the list that
`ctx->lst` points at, after the call. -/
structure transfer_effect where
  writes : List (axidma_reg × Nat)
  waited : Bool
  lst : sg_list

/-- The counting loop of `axidma_s2mm_transfer` (lines 426-431), `cnt` being
the count so far (an `int`; a chain of fewer than `2 ^ 31` records does not
overflow it). -/
def count_EOF : Nat → List sg_entry → Nat
  | cnt, [] => cnt
  | cnt, e :: rest => count_EOF (if e.is_EOF then cnt + 1 else cnt) rest

/-- The value stored to `S2MM_DMACR` (line 454): the timeout byte, the low 8
bits of the count shifted to bit 16, and the interrupt-enable and run bits. -/
def dmacr_value (enable_timeout : Bool) (cnt : Nat) : Nat :=
  ((if enable_timeout then 200 * 2 ^ 24 else 0) ||| cnt % 256 * 2 ^ 16 ||| 0x7001) % 2 ^ 32

/-- The function `axidma_s2mm_transfer`.  `none` stands for a NULL context and
`lst` is the list that `ctx->lst` points at when it is not NULL; the nodes
`sentinel.next` and `sentinel.prev` are the first and last record, or the
sentinel itself when the chain has no record. -/
def axidma_s2mm_transfer (ctx : Option axidma_ctx) (lst : sg_list)
    (wait_irq enable_timeout : Bool) : transfer_effect :=
  match ctx with
  | none => { writes := [], waited := false, lst := lst }
  | some c =>
    if c.lst = false then { writes := [], waited := false, lst := lst }
    else
      let cnt := count_EOF 0 lst.chain
      if cnt = 0 then { writes := [], waited := false, lst := lst }
      else
        let curdesc_phys := virt_to_phys lst.sg_plist (lst.chain.headD lst.sentinel).sg_offset
        let taildesc_phys := virt_to_phys lst.sg_plist (lst.chain.getLastD lst.sentinel).sg_offset
        { writes :=
            [(axidma_reg.S2MM_curdesc_lsb, curdesc_phys % 2 ^ 32),
             (axidma_reg.S2MM_curdesc_msb, curdesc_phys / 2 ^ 32 % 2 ^ 32),
             (axidma_reg.S2MM_DMACR, dmacr_value enable_timeout cnt),
             (axidma_reg.S2MM_taildesc_lsb, taildesc_phys % 2 ^ 32),
             (axidma_reg.S2MM_taildesc_msb, taildesc_phys / 2 ^ 32 % 2 ^ 32)],
          waited := wait_irq,
          lst := lst }

/-! ## Sequences of calls on one list -/

/-- One call of the library on a list: `axidma_add_entry` with a malloc budget
and a size, `axidma_write_sg_list` with a context (`none` for NULL) and the
descriptor memory it writes to, `axidma_dequeue_s2mm_buf` reading the
descriptor memory as the hardware left it, or `axidma_reset_lst_traversal`. -/
inductive list_op where
  | add (heap sz : Nat)
  | write (ctx : Option axidma_ctx) (m : Mem)
  | dequeue (m : Mem)
  | reset

/-- A list together with two facts about the calls made on it since
`axidma_list_new`: whether a call has stored a non-NULL cursor
(`axidma_write_sg_list` with a context on a chain with a record, line 392, or
`axidma_reset_lst_traversal`), and
whether an `axidma_dequeue_s2mm_buf` has found the cursor on the sentinel and
returned `END_OF_LIST`. -/
structure traced_list where
  lst : sg_list
  positioned : Bool
  consumed : Bool

/-- The effect of one call on a traced list. -/
def traced_step (s : traced_list) : list_op → traced_list
  | list_op.add heap sz => { s with lst := (axidma_add_entry heap s.lst sz).2 }
  | list_op.write ctx m =>
    { s with
      lst := ((axidma_write_sg_list ctx (some s.lst) m).2.1).getD s.lst,
      positioned := s.positioned || (ctx.isSome && !s.lst.chain.isEmpty) }
  | list_op.dequeue m =>
    { s with
      lst := (axidma_dequeue_s2mm_buf s.lst m).2,
      consumed := s.consumed || decide (s.lst.to_vist = cursor.sentinel) }
  | list_op.reset => { s with lst := axidma_reset_lst_traversal s.lst, positioned := true }

/-- The effect of a sequence of calls. -/
def traced_run : traced_list → List list_op → traced_list
  | s, [] => s
  | s, op :: ops => traced_run (traced_step s op) ops

/-- A sequence of `axidma_add_entry` calls, each given as (heap budget, size),
whatever code each of them returns: the list after the last call. -/
def add_calls : sg_list → List (Nat × Nat) → sg_list
  | lst, [] => lst
  | lst, (heap, sz) :: calls => add_calls (axidma_add_entry heap lst sz).2 calls

/-- The number of calls of the sequence that return `ADD_ENTRY_SUCCESS`. -/
def add_calls_successes : sg_list → List (Nat × Nat) → Nat
  | _, [] => 0
  | lst, (heap, sz) :: calls =>
    (if (axidma_add_entry heap lst sz).1 = add_entry_code.ADD_ENTRY_SUCCESS then 1 else 0) +
      add_calls_successes (axidma_add_entry heap lst sz).2 calls

/-! ## Pinning a user buffer (modules/pinner/pinner.c, lines 134-211) -/

/-- The constant `PINNER_MAX_PAGES` (modules/axidma/pinner.h, line 5). -/
def PINNER_MAX_PAGES : Nat := 1024

/-- The constant `PAGE_SHIFT` of the kernel the module is built for: pages of
4 KiB. -/
def PAGE_SHIFT : Nat := 12

/-- The constant `PAGE_SIZE`. -/
def PAGE_SIZE : Nat := 2 ^ PAGE_SHIFT

/-- The errno `EINVAL`. -/
def EINVAL : Nat := 22

/-- The function `pinner_alloc_and_fill_sglist` for `num_pages > 0`, the
allocation of the scatterlist succeeding: the `len` and `offset` passed to
`sg_set_page` for each entry, in order.  The lengths are computed in
`unsigned long` and converted to the `unsigned int` parameter. -/
def pinner_alloc_and_fill_sglist (num_pages first_page_offset total_sz : Nat) :
    List (Nat × Nat) :=
  let room := (PAGE_SIZE + 2 ^ 64 - first_page_offset) % 2 ^ 64
  let first_page_sz := if total_sz < room then total_sz else room % 2 ^ 32
  let first := [(first_page_sz, first_page_offset % 2 ^ 32)]
  let middle := List.replicate (num_pages - 2) (PAGE_SIZE, 0)
  let last :=
    if num_pages > 1 then
      [((total_sz + 2 * 2 ^ 64 - room - (num_pages - 2) * PAGE_SIZE % 2 ^ 64) % 2 ^ 64 % 2 ^ 32, 0)]
    else []
  first ++ middle ++ last

/-- The function `pinner_do_pin` as far as the physlist goes: the errno
returned, or the entries that `pinner_send_physlist` copies to the user
(`addr = dma_address + offset`, `len = length` of each scatterlist entry).
`page_phys i` is `page_to_phys` of the page number `i` of the buffer, and
`env` is the errno of the first kernel service that fails (`kmalloc`,
`get_user_pages_fast`, `kzalloc`, `dma_map_sg`, `copy_to_user`), if any. -/
def pinner_do_pin (page_phys : Nat → Nat) (env : Option Nat) (usr_buf usr_buf_sz : Nat) :
    Except Nat physlist :=
  let page_sz := 2 ^ PAGE_SHIFT
  let page_mask := page_sz - 1
  let start := (usr_buf ||| page_mask) - page_mask
  let first_pg_offset := usr_buf - start
  let num_pages := (first_pg_offset + usr_buf_sz + page_mask) / page_sz
  if num_pages > PINNER_MAX_PAGES then Except.error EINVAL
  else if num_pages ≤ 0 then Except.error EINVAL
  else
    match env with
    | some errno => Except.error errno
    | none =>
      Except.ok
        (((pinner_alloc_and_fill_sglist num_pages first_pg_offset usr_buf_sz).enum).map
          (fun p => { addr := (page_phys p.1 + p.2.2) % 2 ^ 64, len := p.2.1 }))

/-! ## The chain as linked nodes (axidma.c, lines 86-113, 293-336 and 479-546) -/

/-- The `sg_entry` nodes in memory, by address: the link fields `next` and
`prev` of the node at an address, and its payload fields. -/
structure node_heap where
  next : Nat → Nat
  prev : Nat → Nat
  payload : Nat → sg_entry

/-- The assignment `a->next = v`. -/
def set_next (H : node_heap) (a v : Nat) : node_heap :=
  { H with next := fun x => if x = a then v else H.next x }

/-- The assignment `a->prev = v`. -/
def set_prev (H : node_heap) (a v : Nat) : node_heap :=
  { H with prev := fun x => if x = a then v else H.prev x }

/-- Assignment of the payload fields of the node at `a`. -/
def set_payload (H : node_heap) (a : Nat) (r : sg_entry) : node_heap :=
  { H with payload := fun x => if x = a then r else H.payload x }

/-- The function `sg_entry_init`. -/
def sg_entry_init (H : node_heap) (node : Nat) : node_heap :=
  set_prev (set_next H node node) node node

/-- The function `sg_entry_add_before`. -/
def sg_entry_add_before (H : node_heap) (head new : Nat) : node_heap :=
  let oldtail := H.prev head
  let H := set_next H oldtail new
  let H := set_prev H new oldtail
  let H := set_next H new head
  set_prev H head new

/-- The function `sg_entry_add_list_before`; each statement reads the links as
the statements before it left them. -/
def sg_entry_add_list_before (H : node_heap) (head sentinel : Nat) : node_heap :=
  let oldtail := H.prev head
  let H := set_next H oldtail (H.next sentinel)
  let H := set_prev H (H.next sentinel) oldtail
  let H := set_prev H head (H.prev sentinel)
  set_next H (H.prev sentinel) head

/-- What one iteration of the loop of `axidma_add_entry` does to the nodes
(lines 293-317): `malloc` returned the address `a`, the payload fields of the
new node are assigned (`r` holds their values, the flags being 0) and the
node is added before the temporary sentinel `s`. -/
def stage_record (H : node_heap) (s a : Nat) (r : sg_entry) : node_heap :=
  sg_entry_add_before (set_payload H a r) s a

/-- The node operations of the successive iterations, for the records given
with the addresses `malloc` returned for them. -/
def stage_records (H : node_heap) (s : Nat) : List (Nat × sg_entry) → node_heap
  | [] => H
  | (a, r) :: rest => stage_records (stage_record H s a r) s rest

/-- Lines 329-334 of `axidma_add_entry`: the flags are set on
`sentinel.next` and `sentinel.prev` of the temporary list, which is then
added before the sentinel `head` of the list. -/
def commit_staged (H : node_heap) (head s : Nat) : node_heap :=
  let first := H.next s
  let H := set_payload H first { H.payload first with is_SOF := true }
  let last := H.prev s
  let H := set_payload H last { H.payload last with is_EOF := true }
  sg_entry_add_list_before H head s

/-- The records on the temporary list when the loop of `axidma_add_entry` is
left at line 326, in the order they were created and before the flags are
set; no record when the call fails. -/
def staged_records (heap : Nat) (lst : sg_list) (sz : Nat) : List sg_entry :=
  if sz = 0 then []
  else
    match get_entry_index lst.data_plist lst.data_offset with
    | none => []
    | some (ind, offset_in_entry) =>
      match lst.data_plist.drop ind with
      | [] => []
      | cur :: rest =>
        match add_entry_loop lst.sg_plist lst.data_plist rest cur heap offset_in_entry sz
            lst.sg_offset lst.data_offset [] with
        | staging.error _ => []
        | staging.staged entries _ _ => entries

/-- What a successful `axidma_add_entry` does to the nodes: the temporary
sentinel at address `s` is initialised, the staged records are created at the
addresses `fresh` in turn, the flags are set and the temporary list is added
before the sentinel `head` of the list. -/
def axidma_add_entry_nodes (H : node_heap) (head s : Nat) (fresh : List Nat) (heap : Nat)
    (lst : sg_list) (sz : Nat) : node_heap :=
  commit_staged
    (stage_records (sg_entry_init H s) s (fresh.zip (staged_records heap lst sz))) head s

/-- The nodes met from `cur` on by following `next` until the sentinel `head`
is reached; `none` if it is not reached within `fuel` steps. -/
def read_forward (H : node_heap) (head : Nat) : Nat → Nat → Option (List Nat)
  | 0, _ => none
  | fuel + 1, cur =>
    if cur = head then some []
    else (read_forward H head fuel (H.next cur)).map (fun l => cur :: l)

/-- The nodes met from `cur` on by following `prev` until the sentinel `head`
is reached; `none` if it is not reached within `fuel` steps. -/
def read_backward (H : node_heap) (head : Nat) : Nat → Nat → Option (List Nat)
  | 0, _ => none
  | fuel + 1, cur =>
    if cur = head then some []
    else (read_backward H head fuel (H.prev cur)).map (fun l => cur :: l)

/-- The `do ... while` loop of `axidma_dequeue_s2mm_buf` (lines 506-539) on the
nodes, entered with `e` already advanced to the node to visit: the accumulated
length, the code, the last node visited and the nodes visited in order;
`none` if the loop has not ended within `fuel` iterations. -/
def dequeue_walk_nodes (H : node_heap) (m : Mem) (head : Nat) :
    Nat → Nat → Nat → buf_code → Option (Nat × buf_code × Nat × List Nat)
  | 0, _, _, _ => none
  | fuel + 1, e, len, code =>
    let desc := (H.payload e).sg_offset
    let len := (len + status_len m desc) % 2 ^ 32
    let code :=
      if status_complete m desc = 0 ∨ status_decode_err m desc ≠ 0 ∨ status_int_err m desc ≠ 0
          ∨ status_slave_err m desc ≠ 0 then buf_code.TRANSFER_FAILED
      else code
    if e = H.prev head then some (len, code, e, [e])
    else if status_eof m desc = 0 then
      (dequeue_walk_nodes H m head fuel (H.next e) len code).map
        (fun r => (r.1, r.2.1, r.2.2.1, e :: r.2.2.2))
    else some (len, code, e, [e])

/-- The function `axidma_dequeue_s2mm_buf` on the nodes, for a cursor `e` that
is neither NULL nor the sentinel: the buffer returned, the new cursor
(`e->next` of the last node visited) and the nodes visited.  The walk starts
at `e->prev->next` (lines 504 and 507). -/
def axidma_dequeue_nodes (H : node_heap) (m : Mem) (head data_buf fuel e : Nat) :
    Option (s2mm_buf × Nat × List Nat) :=
  (dequeue_walk_nodes H m head fuel (H.next (H.prev e)) 0 buf_code.TRANSFER_SUCCESS).map
    (fun r =>
      ({ base := data_buf + (H.payload e).data_offset, len := r.1, code := r.2.1 },
        H.next r.2.2.1, r.2.2.2))

/-! ## Vocabulary of the properties -/

/-- Sum of the span lengths of a physlist: the size of the buffer it describes. -/
def plist_total (plist : List pinner_physlist_entry) : Nat := (plist.map (fun e => e.len)).sum

/-- The descriptor offsets of staged records: each is what the search returned
from the cursor left by the record before it. -/
def slots_from (P : physlist) : Nat → List Nat → Nat → Prop
  | sg, [], sg2 => sg2 = sg
  | sg, o :: os, sg2 =>
    o = find_contiguous_aligned_after P sg sizeof_sg_descriptor ∧
      o ≠ AXIDMA_NOT_FOUND ∧
      slots_from P ((o + sizeof_sg_descriptor) % 2 ^ 32) os sg2

/-- The records of one logical buffer of `sz` bytes starting at data offset
`d`: only the last record carries the end-of-frame flag, the lengths add up to
`sz` and the first record starts at `d`. -/
def is_group (d sz : Nat) (grp : List sg_entry) : Prop :=
  ∃ body last, grp = body ++ [last] ∧ (∀ e ∈ body, e.is_EOF = false) ∧ last.is_EOF = true ∧
    (grp.map (fun e => e.len)).sum = sz ∧
    (grp.map (fun e => e.data_offset)).head? = some d

/-- The chain is the concatenation of one group per requested size, the data
cursor standing at `acc` modulo `2 ^ 32` before the first of them. -/
def chain_groups : Nat → List Nat → List sg_entry → Prop
  | _, [], chain => chain = []
  | acc, sz :: szs, chain =>
    ∃ grp rest, chain = grp ++ rest ∧ is_group (acc % 2 ^ 32) sz grp ∧
      chain_groups (acc + sz) szs rest

/-- The records of the list have pairwise disjoint descriptor slots, in
increasing order, all below the descriptor cursor, and 64-bit physical
addresses. -/
def chain_slots (lst : sg_list) : Prop :=
  (lst.chain.map (fun e => e.sg_offset)).Pairwise (fun a b => a + sizeof_sg_descriptor ≤ b) ∧
    ∀ r ∈ lst.chain, r.sg_offset + sizeof_sg_descriptor ≤ lst.sg_offset ∧ r.buf_phys < 2 ^ 64

/-- The hardware reports success on every descriptor of the chain: in the
memory `m` the status word of each record has `complete` set and no error bit,
`status.len` equal to the control length programmed for the record (the 26
low bits of `e->len`, line 361) and `status.eof` equal to the programmed
control eof (`e->is_EOF`, line 360). -/
def hw_reports_success (m : Mem) (chain : List sg_entry) : Prop :=
  ∀ e ∈ chain,
    status_complete m e.sg_offset = 1 ∧ status_decode_err m e.sg_offset = 0 ∧
      status_int_err m e.sg_offset = 0 ∧ status_slave_err m e.sg_offset = 0 ∧
      status_len m e.sg_offset = e.len % 2 ^ 26 ∧ status_eof m e.sg_offset = flag e.is_EOF

/-- Decision procedure for `hw_reports_success`, by inspection of each record. -/
instance hw_reports_success_decidable (m : Mem) (chain : List sg_entry) :
    Decidable (hw_reports_success m chain) := by
  unfold hw_reports_success
  infer_instance

/-- The buffers a caller expects back for requests of the given sizes, `acc`
being the sum of the sizes requested before: each has the requested length,
code `TRANSFER_SUCCESS` and starts where the data cursor (an `unsigned`) stood. -/
def expected_bufs (data_buf : Nat) : Nat → List Nat → List s2mm_buf
  | _, [] => []
  | acc, sz :: szs =>
    { base := data_buf + acc % 2 ^ 32, len := sz, code := buf_code.TRANSFER_SUCCESS } ::
      expected_bufs data_buf (acc + sz) szs

/-- The descriptor at `r.sg_offset` in memory `m` holds the values of record
`r`: the buffer address (`buffer_msb:buffer_lsb`) is `r.buf_phys`, the control
flags are `r.is_SOF` and `r.is_EOF`, the control length is `r.len` truncated
to the 26 bits of the field, and every status sub-field is zero. -/
def slot_holds (m : Mem) (r : sg_entry) : Prop :=
  buffer_lsb m r.sg_offset + 2 ^ 32 * buffer_msb m r.sg_offset = r.buf_phys ∧
    control_sof m r.sg_offset = flag r.is_SOF ∧ control_eof m r.sg_offset = flag r.is_EOF ∧
    control_len m r.sg_offset = r.len % 2 ^ 26 ∧
    status_complete m r.sg_offset = 0 ∧ status_decode_err m r.sg_offset = 0 ∧
    status_int_err m r.sg_offset = 0 ∧ status_slave_err m r.sg_offset = 0 ∧
    status_sof m r.sg_offset = 0 ∧ status_eof m r.sg_offset = 0 ∧
    status_len m r.sg_offset = 0

/-- Position in the chain of the first record at or after position `i` that
satisfies `p`, or of the last record of the chain when there is none. -/
def group_end (p : sg_entry → Bool) (chain : List sg_entry) (i : Nat) : Nat :=
  i + min ((chain.drop i).findIdx p) ((chain.drop i).length - 1)

/-- The status word of the descriptor of record `r` in memory `m` reports a
failure: `complete` is 0, or one of `decode_err`, `int_err`, `slave_err` is
set. -/
def status_failed (m : Mem) (r : sg_entry) : Bool :=
  decide (status_complete m r.sg_offset = 0 ∨ status_decode_err m r.sg_offset ≠ 0 ∨
    status_int_err m r.sg_offset ≠ 0 ∨ status_slave_err m r.sg_offset ≠ 0)

/-- The records from position `i` of the chain up to the first whose
descriptor in memory `m` has `status.eof` set, or up to the last record of
the chain if there is none. -/
def walked_group (m : Mem) (chain : List sg_entry) (i : Nat) : List sg_entry :=
  (chain.drop i).take
    (group_end (fun e => decide (status_eof m e.sg_offset ≠ 0)) chain i + 1 - i)

/-- The result `{NULL, 0, END_OF_LIST}`. -/
def end_of_list_buf : s2mm_buf := { base := 0, len := 0, code := buf_code.END_OF_LIST }

/-- The decomposition, span by span, of the byte range `[c, c + sz)` of a
buffer whose spans are listed from buffer offset `start` on: for every span
that the range overlaps, in order, the buffer offset at which the overlap
starts, the number of bytes of the overlap, and the physical address of its
first byte (the address of the span plus the offset within the span). -/
def span_overlaps : List pinner_physlist_entry → Nat → Nat → Nat → List (Nat × Nat × Nat)
  | [], _, _, _ => []
  | s :: rest, start, c, sz =>
    (if max start c < min (start + s.len) (c + sz) then
      [(max start c, min (start + s.len) (c + sz) - max start c, s.addr + (max start c - start))]
    else []) ++ span_overlaps rest (start + s.len) c sz

/-- The records of one logical buffer as `axidma_add_entry` marks them: the
start-of-frame flag on the first record and on no other, the end-of-frame
flag on the last record and on no other. -/
def frame_group (g : List sg_entry) : Prop :=
  ∃ first others body last, g = first :: others ∧ g = body ++ [last] ∧
    first.is_SOF = true ∧ (∀ e ∈ others, e.is_SOF = false) ∧
    last.is_EOF = true ∧ (∀ e ∈ body, e.is_EOF = false)

/-- An offset `O` into the buffer of a physlist is a place for `sz` bytes: it
lies in a span, the physical address it resolves to is a multiple of 64, and
`sz` bytes remain in that span from `O` on. -/
def suitable (plist : physlist) (sz O : Nat) : Bool :=
  match get_entry_index plist O with
  | none => false
  | some (i, r) =>
    match plist.drop i with
    | [] => false
    | e :: _ => decide ((e.addr + r) % 64 = 0 ∧ r + sz ≤ e.len)

/-- Following `next` from the node `a` leads through the nodes `xs`, in
order, to the node `b`. -/
def fwd (next : Nat → Nat) : Nat → List Nat → Nat → Prop
  | a, [], b => next a = b
  | a, x :: xs, b => next a = x ∧ fwd next x xs b

/-- The `prev` links of the nodes `xs` and of `b` lead back, node by node, to
`a`: each points at the node before it in the sequence `a, xs, b`. -/
def bwd (prev : Nat → Nat) : Nat → List Nat → Nat → Prop
  | a, [], b => prev b = a
  | a, x :: xs, b => prev x = a ∧ bwd prev x xs b

/-- The nodes `nodes` form, with the sentinel at `head`, a well-formed circular
doubly linked list: `next` leads from the sentinel through the nodes back to
the sentinel, `prev` leads the same way back, and the addresses are pairwise
distinct. -/
def ring (H : node_heap) (head : Nat) (nodes : List Nat) : Prop :=
  fwd H.next head nodes head ∧ bwd H.prev head nodes head ∧ (head :: nodes).Nodup

/-- Decision procedure for `fwd`, link by link. -/
instance fwd_decidable (n : Nat → Nat) : (a : Nat) → (xs : List Nat) → (b : Nat) →
    Decidable (fwd n a xs b)
  | a, [], b => inferInstanceAs (Decidable (n a = b))
  | a, x :: xs, b =>
    @instDecidableAnd (n a = x) (fwd n x xs b) inferInstance (fwd_decidable n x xs b)

/-- Decision procedure for `bwd`, link by link. -/
instance bwd_decidable (p : Nat → Nat) : (a : Nat) → (xs : List Nat) → (b : Nat) →
    Decidable (bwd p a xs b)
  | a, [], b => inferInstanceAs (Decidable (p b = a))
  | a, x :: xs, b =>
    @instDecidableAnd (p x = a) (bwd p x xs b) inferInstance (bwd_decidable p x xs b)

/-- Decision procedure for `ring`. -/
instance ring_decidable (H : node_heap) (head : Nat) (nodes : List Nat) :
    Decidable (ring H head nodes) := by
  unfold ring
  infer_instance

/-- A physlist has the shape of a pinned buffer: every span but the last ends
on a 64-byte boundary of physical address, and every span but the first
starts on one.  The pinner cuts a buffer at page boundaries, so every physlist
it returns has this shape. -/
def pinned_shape : physlist → Bool
  | [] => true
  | [_] => true
  | e :: f :: rest =>
    decide ((e.addr + e.len) % 64 = 0) && decide (f.addr % 64 = 0) && pinned_shape (f :: rest)

/-! ## Concrete lists and memories used as inputs -/

/-- Payload of a sentinel as a zeroed allocation leaves it. -/
def zero_entry : sg_entry :=
  { sg_offset := 0, data_offset := 0, buf_phys := 0, len := 0, is_SOF := false, is_EOF := false }

/-- Physlist of a 4140-byte buffer that starts 16 bytes into a page: the rest
of the first page, then 60 bytes of a second page. -/
def plist_4140 : physlist := [{ addr := 0x10010, len := 4080 }, { addr := 0x23000, len := 60 }]

/-- Physlist with three short spans, the first of them ending off a 64-byte
boundary. -/
def plist_short : physlist :=
  [{ addr := 0x10, len := 40 }, { addr := 0x2000, len := 30 }, { addr := 0x5004, len := 4096 }]

/-- Physlist of a 1600-byte data buffer in two spans. -/
def plist_data_1600 : physlist := [{ addr := 0x40000, len := 1000 }, { addr := 0x90000, len := 600 }]

/-- A fresh list over a one-page descriptor arena and the 1600-byte data
arena. -/
def lst_fresh : sg_list :=
  axidma_list_new zero_entry 0x7f0000 [{ addr := 0x20000, len := 4096 }] 0x7e0000 plist_data_1600

/-- The list left by a 1200-byte request on the fresh list: the data cursor
lies 200 bytes into the second, and last, data span. -/
def lst_tail : sg_list := (axidma_add_entry 4 lst_fresh 1200).2

/-- Memory with every byte zero. -/
def mem_zero : Mem := { byte := fun _ => 0 }

/-- The list left by the 1600-byte request of the example scenario on the
fresh list: two records, at descriptor offsets 0 and 64. -/
def lst_1600 : sg_list := (axidma_add_entry 2 lst_fresh 1600).2

/-- A memory in which the hardware has written back, for every record of the
chain, a status word with `complete` set, no error bit, the programmed control
eof and the programmed 26-bit control length. -/
def hw_write_status : List sg_entry → Mem → Mem
  | [], m => m
  | e :: rest, m =>
    hw_write_status rest
      (write32 m (e.sg_offset + 28) (2 ^ 31 + flag e.is_EOF * 2 ^ 26 + e.len % 2 ^ 26))

/-- The list after requests of 1200 and 400 bytes on the fresh list: three
records in two groups. -/
def lst_two : sg_list := (axidma_add_entry 4 (axidma_add_entry 4 lst_fresh 1200).2 400).2

/-- The descriptor memory of `lst_two` after `axidma_write_sg_list` and a
successful run of the hardware. -/
def mem_two : Mem :=
  hw_write_status lst_two.chain
    (axidma_write_sg_list (some { lst := false }) (some lst_two) mem_zero).2.2

/-- A fresh list over a data arena of two spans of 4 GiB - 1 bytes each. -/
def lst_huge_fresh : sg_list :=
  axidma_list_new zero_entry 0x7f0000 [{ addr := 0x20000, len := 4096 }] 0x10000000
    [{ addr := 0x100000000, len := 4294967295 }, { addr := 0x200000000, len := 4294967295 }]

/-- The list after requests of 4294967295, 2 and 1 bytes on `lst_huge_fresh`. -/
def lst_huge : sg_list :=
  (axidma_add_entry 1 (axidma_add_entry 1 (axidma_add_entry 1 lst_huge_fresh 4294967295).2 2).2
    1).2

/-- The descriptor memory of `lst_huge` after `axidma_write_sg_list` and a
successful run of the hardware. -/
def mem_huge : Mem :=
  hw_write_status lst_huge.chain
    (axidma_write_sg_list (some { lst := false }) (some lst_huge) mem_zero).2.2

/-- Physlist of a 5000-byte descriptor buffer that starts 16 bytes into a page
(the size `example.c` allocates). -/
def plist_5000 : physlist := [{ addr := 0x10010, len := 4080 }, { addr := 0x23000, len := 920 }]

/-- The list after one 1600-byte request on a fresh list over the 5000-byte
descriptor buffer, the sentinel holding `garbage`; its two records lie at
descriptor offsets 48 and 112. -/
def lst_link (garbage : sg_entry) : sg_list :=
  (axidma_add_entry 2 (axidma_list_new garbage 0x7f0010 plist_5000 0x7e0000 plist_data_1600)
    1600).2

/-- The descriptor memory after `axidma_write_sg_list` on `lst_link garbage`,
starting from zeroed memory. -/
def mem_link (garbage : sg_entry) : Mem :=
  (axidma_write_sg_list (some { lst := false }) (some (lst_link garbage)) mem_zero).2.2

/-- A sentinel payload whose `sg_offset` field holds 4200. -/
def stale_entry : sg_entry :=
  { sg_offset := 4200, data_offset := 0, buf_phys := 0, len := 0, is_SOF := false, is_EOF := false }

/-- A fresh list whose data arena is one span of 64 MiB. -/
def lst_64m_fresh : sg_list :=
  axidma_list_new zero_entry 0x7f0000 [{ addr := 0x20000, len := 4096 }] 0x10000000
    [{ addr := 0x40000000, len := 67108864 }]

/-- The list after one request of 64 MiB on `lst_64m_fresh`. -/
def lst_64m : sg_list := (axidma_add_entry 1 lst_64m_fresh 67108864).2

/-- Physlist of a descriptor buffer of 4 GiB - 1 bytes in one span. -/
def plist_sg_4g : physlist := [{ addr := 0x100000000, len := 4294967295 }]

/-- Physlist of a data buffer of 4 GiB - 1 bytes in one span. -/
def plist_data_4g : physlist := [{ addr := 0x200000000, len := 4294967295 }]

/-- A fresh list over the two 4 GiB arenas. -/
def lst_wrap_fresh : sg_list :=
  axidma_list_new zero_entry 0x1000000000 plist_sg_4g 0x2000000000 plist_data_4g

/-- The record that the request number `i` (counted from 0) of one byte adds to
`lst_wrap_fresh`. -/
def wrap_record (i : Nat) : sg_entry :=
  { sg_offset := 64 * i, data_offset := i, buf_phys := 0x200000000 + i, len := 1,
    is_SOF := true, is_EOF := true }

/-- The list after `k` requests of one byte on `lst_wrap_fresh`, for `k` up to
`2 ^ 26`. -/
def lst_wrap_state (k : Nat) : sg_list :=
  { lst_wrap_fresh with
    chain := (List.range k).map wrap_record,
    sg_offset := if k = 0 then 0 else 64 * k - 8,
    data_offset := k }

/-- The list after `2 ^ 26 + 1` requests of one byte on `lst_wrap_fresh`: the
last record lies at descriptor offset 0 again. -/
def lst_wrapped : sg_list :=
  { lst_wrap_fresh with
    chain := (List.range 67108864).map wrap_record ++
      [{ sg_offset := 0, data_offset := 67108864, buf_phys := 0x200000000 + 67108864, len := 1,
         is_SOF := true, is_EOF := true }],
    sg_offset := 56,
    data_offset := 67108865 }

/-- A descriptor memory in which every status word reads: complete, no error,
no end of frame, length `2 ^ 26 - 1`. -/
def mem_full_len : Mem := { byte := fun x => if x % 4 = 3 then 131 else 255 }

/-- A fresh list over a one-page descriptor arena and a data arena of three
spans, of 4 GiB - 1, 5 and 10 bytes. -/
def lst_straddle_fresh : sg_list :=
  axidma_list_new zero_entry 0x7f0000 [{ addr := 0x20000, len := 4096 }] 0x10000000
    [{ addr := 0x100000000, len := 4294967295 }, { addr := 0x200000000, len := 5 },
     { addr := 0x300000000, len := 10 }]

/-- The list after a request of 4294967295 bytes on `lst_straddle_fresh`: the
data cursor stands at the start of the second span. -/
def lst_straddle : sg_list := (axidma_add_entry 1 lst_straddle_fresh 4294967295).2

/-- Physlist of a descriptor buffer in two spans, of 4 GiB - 32 bytes and of
one page. -/
def plist_sg_edge : physlist :=
  [{ addr := 0x100000000, len := 4294967264 }, { addr := 0x300000000, len := 4096 }]

/-- A fresh list over the two-span descriptor arena and the 4 GiB data
arena. -/
def lst_edge_fresh : sg_list :=
  axidma_list_new zero_entry 0x1000000000 plist_sg_edge 0x2000000000 plist_data_4g

/-- The list after `k` requests of one byte on `lst_edge_fresh`, for `k` up to
`2 ^ 26 - 1`. -/
def lst_edge_state (k : Nat) : sg_list :=
  { lst_edge_fresh with
    chain := (List.range k).map wrap_record,
    sg_offset := if k = 0 then 0 else 64 * k - 8,
    data_offset := k }

/-- Physlist of a 172-byte buffer that starts 112 bytes before a page
boundary. -/
def plist_sg_172 : physlist := [{ addr := 0x10F90, len := 112 }, { addr := 0x11000, len := 60 }]

/-- A fresh list whose descriptor arena is the 172-byte buffer. -/
def lst_172_fresh : sg_list :=
  axidma_list_new zero_entry 0x7f0f90 plist_sg_172 0x7e0000 plist_data_1600

/-- Physlist with a first span of 40 bytes that starts 16 bytes past a 64-byte
boundary, followed by a page. -/
def plist_40_page : physlist := [{ addr := 0x10, len := 40 }, { addr := 0x2000, len := 4096 }]

/-- A heap in which no node has been set up: every link and payload is zero. -/
def heap_zero : node_heap :=
  { next := fun _ => 0, prev := fun _ => 0, payload := fun _ => zero_entry }

/-- The nodes of `lst_tail`: the sentinel of the list at address 1000, set up
by `axidma_list_new`, then the 1200-byte request on the fresh list, with the
temporary sentinel at address 900 and `malloc` returning 2000 and 2100. -/
def heap_tail : node_heap :=
  axidma_add_entry_nodes (sg_entry_init heap_zero 1000) 1000 900 [2000, 2100] 4 lst_fresh 1200

/-- The nodes after a further request of 400 bytes, `malloc` returning 3000. -/
def heap_two : node_heap := axidma_add_entry_nodes heap_tail 1000 900 [3000] 4 lst_tail 400

/-! ## Auxiliary lemmas -/


theorem sizeof_sg_descriptor_eq : sizeof_sg_descriptor = 56 := by decide

theorem get_entry_index_from_spec :
    ∀ (plist : List pinner_physlist_entry) (i offset j r : Nat),
      get_entry_index_from i plist offset = some (j, r) →
      ∃ cur rest, plist.drop (j - i) = cur :: rest ∧ i ≤ j ∧ r < cur.len ∧
        offset = plist_total (plist.take (j - i)) + r := by
  intro plist
  induction plist with
  | nil => intro i offset j r h; simp [get_entry_index_from] at h
  | cons e rest ih =>
    intro i offset j r h
    unfold get_entry_index_from at h
    by_cases hge : offset ≥ e.len
    · rw [if_pos hge] at h
      obtain ⟨cur, rest2, hd, hij, hr, hoff⟩ := ih (i + 1) (offset - e.len) j r h
      have hji : j - i = (j - (i + 1)) + 1 := by omega
      refine ⟨cur, rest2, ?_, by omega, hr, ?_⟩
      · rw [hji]; simpa using hd
      · rw [hji]
        simp only [List.take_succ_cons, plist_total, List.map_cons, List.sum_cons] at hoff ⊢
        omega
    · rw [if_neg hge] at h
      simp only [Option.some.injEq, Prod.mk.injEq] at h
      obtain ⟨rfl, rfl⟩ := h
      refine ⟨e, rest, by simp, le_refl _, by omega, by simp [plist_total]⟩

theorem get_entry_index_spec (plist : physlist) (offset ind r : Nat)
    (h : get_entry_index plist offset = some (ind, r)) :
    ∃ cur rest, plist.drop ind = cur :: rest ∧ r < cur.len ∧
      offset = plist_total (plist.take ind) + r := by
  obtain ⟨cur, rest, hd, _, hr, hoff⟩ := get_entry_index_from_spec plist 0 offset ind r h
  exact ⟨cur, rest, by simpa using hd, hr, by simpa using hoff⟩

theorem virt_to_phys_lt : ∀ (plist : List pinner_physlist_entry) (offset : Nat),
    virt_to_phys plist offset < 2 ^ 64 := by
  intro plist
  induction plist with
  | nil => intro offset; simp [virt_to_phys]
  | cons e rest ih =>
    intro offset
    unfold virt_to_phys
    split
    · exact ih _
    · exact Nat.mod_lt _ (by norm_num)

theorem add_entry_loop_spec (P D : physlist) :
    ∀ (rest : List pinner_physlist_entry) (cur : pinner_physlist_entry)
      (heap oie sz sg d : Nat) (acc es : List sg_entry) (sg2 d2 : Nat),
      sz ≠ 0 →
      add_entry_loop P D rest cur heap oie sz sg d acc = staging.staged es sg2 d2 →
      ∃ e0 tail, es = acc ++ e0 :: tail ∧
        ((e0 :: tail).map (fun e => e.len)).sum = sz ∧
        d2 = (d + sz) % 2 ^ 32 ∧
        e0.data_offset = d ∧
        (∀ e ∈ e0 :: tail, e.is_EOF = false ∧ e.is_SOF = false ∧ e.len ≤ sz ∧
          e.buf_phys = virt_to_phys D e.data_offset) ∧
        slots_from P sg ((e0 :: tail).map (fun e => e.sg_offset)) sg2 := by
  intro rest
  induction rest with
  | nil =>
    intro cur heap oie sz sg d acc es sg2 d2 hsz h
    unfold add_entry_loop at h
    rw [if_neg hsz] at h
    dsimp only at h
    by_cases hf : find_contiguous_aligned_after P sg sizeof_sg_descriptor = AXIDMA_NOT_FOUND
    · rw [if_pos hf] at h; exact absurd h (by simp)
    · rw [if_neg hf] at h
      cases heap with
      | zero => exact absurd h (by simp)
      | succ heap =>
        dsimp only at h
        by_cases hsp : (cur.len + 2 ^ 32 - oie) % 2 ^ 32 < sz
        · rw [if_pos hsp] at h; exact absurd h (by simp)
        · rw [if_neg hsp] at h
          simp only [staging.staged.injEq] at h
          obtain ⟨rfl, rfl, rfl⟩ := h
          exact ⟨_, [], rfl, by simp, rfl, rfl, by simp, ⟨rfl, hf, rfl⟩⟩
  | cons next rest ih =>
    intro cur heap oie sz sg d acc es sg2 d2 hsz h
    unfold add_entry_loop at h
    rw [if_neg hsz] at h
    dsimp only at h
    by_cases hf : find_contiguous_aligned_after P sg sizeof_sg_descriptor = AXIDMA_NOT_FOUND
    · rw [if_pos hf] at h; exact absurd h (by simp)
    · rw [if_neg hf] at h
      cases heap with
      | zero => exact absurd h (by simp)
      | succ heap =>
        dsimp only at h
        by_cases hsp : (cur.len + 2 ^ 32 - oie) % 2 ^ 32 < sz
        · rw [if_pos hsp] at h
          obtain ⟨e1, tail, hes, hsum, hd2, hd1, hall, hslots⟩ :=
            ih next heap 0 (sz - (cur.len + 2 ^ 32 - oie) % 2 ^ 32) _ _ _ es sg2 d2
              (by omega) h
          refine ⟨{ sg_offset := find_contiguous_aligned_after P sg sizeof_sg_descriptor,
                    data_offset := d, buf_phys := virt_to_phys D d,
                    len := (cur.len + 2 ^ 32 - oie) % 2 ^ 32, is_SOF := false, is_EOF := false },
            e1 :: tail, ?_, ?_, ?_, rfl, ?_, ⟨rfl, hf, hslots⟩⟩
          · rw [hes]; simp
          · simp only [List.map_cons, List.sum_cons] at hsum ⊢
            omega
          · rw [hd2]; omega
          · intro e he
            rcases List.mem_cons.1 he with rfl | he
            · exact ⟨rfl, rfl, by simp only; omega, rfl⟩
            · obtain ⟨h1, h2, h3, h4⟩ := hall e he
              exact ⟨h1, h2, by omega, h4⟩
        · rw [if_neg hsp] at h
          simp only [staging.staged.injEq] at h
          obtain ⟨rfl, rfl, rfl⟩ := h
          exact ⟨_, [], rfl, by simp, rfl, rfl, by simp, ⟨rfl, hf, rfl⟩⟩

theorem set_first_SOF_fields (l : List sg_entry) :
    (set_first_SOF l).map (fun e => e.sg_offset) = l.map (fun e => e.sg_offset) ∧
      (set_first_SOF l).map (fun e => e.data_offset) = l.map (fun e => e.data_offset) ∧
      (set_first_SOF l).map (fun e => e.len) = l.map (fun e => e.len) ∧
      (set_first_SOF l).map (fun e => e.is_EOF) = l.map (fun e => e.is_EOF) ∧
      (set_first_SOF l).map (fun e => e.buf_phys) = l.map (fun e => e.buf_phys) := by
  cases l <;> simp [set_first_SOF]

theorem set_last_EOF_fields (l : List sg_entry) :
    (set_last_EOF l).map (fun e => e.sg_offset) = l.map (fun e => e.sg_offset) ∧
      (set_last_EOF l).map (fun e => e.data_offset) = l.map (fun e => e.data_offset) ∧
      (set_last_EOF l).map (fun e => e.len) = l.map (fun e => e.len) ∧
      (set_last_EOF l).map (fun e => e.buf_phys) = l.map (fun e => e.buf_phys) := by
  induction l with
  | nil => simp [set_last_EOF]
  | cons e l ih =>
    cases l with
    | nil => simp [set_last_EOF]
    | cons e2 l =>
      obtain ⟨h1, h2, h3, h4⟩ := ih
      simp only [set_last_EOF, List.map_cons, List.cons.injEq, true_and]
      exact ⟨by simpa using h1, by simpa using h2, by simpa using h3, by simpa using h4⟩

theorem set_last_EOF_split (l : List sg_entry) (hl : l ≠ [])
    (hno : ∀ e ∈ l, e.is_EOF = false) :
    ∃ body last, set_last_EOF l = body ++ [last] ∧ (∀ e ∈ body, e.is_EOF = false) ∧
      last.is_EOF = true := by
  induction l with
  | nil => exact absurd rfl hl
  | cons e l ih =>
    cases l with
    | nil => exact ⟨[], _, rfl, by simp, rfl⟩
    | cons e2 l =>
      obtain ⟨body, last, hb, hbody, hlast⟩ :=
        ih (by simp) (fun x hx => hno x (List.mem_cons_of_mem _ hx))
      refine ⟨e :: body, last, ?_, ?_, hlast⟩
      · simp only [set_last_EOF, List.cons_append, List.cons.injEq, true_and]
        exact hb
      · intro x hx
        rcases List.mem_cons.1 hx with rfl | hx
        · exact hno _ (List.mem_cons_self _ _)
        · exact hbody x hx

theorem add_entry_loop_error (P D : physlist) :
    ∀ (rest : List pinner_physlist_entry) (cur : pinner_physlist_entry)
      (heap oie sz sg d : Nat) (acc : List sg_entry) (c : add_entry_code),
      add_entry_loop P D rest cur heap oie sz sg d acc = staging.error c →
      c ≠ add_entry_code.ADD_ENTRY_SUCCESS := by
  intro rest
  induction rest with
  | nil =>
    intro cur heap oie sz sg d acc c h
    unfold add_entry_loop at h
    by_cases hsz : sz = 0
    · rw [if_pos hsz] at h; exact absurd h (by simp)
    rw [if_neg hsz] at h
    dsimp only at h
    by_cases hf : find_contiguous_aligned_after P sg sizeof_sg_descriptor = AXIDMA_NOT_FOUND
    · rw [if_pos hf] at h; cases h; simp
    · rw [if_neg hf] at h
      cases heap with
      | zero => cases h; simp
      | succ heap =>
        dsimp only at h
        by_cases hsp : (cur.len + 2 ^ 32 - oie) % 2 ^ 32 < sz
        · rw [if_pos hsp] at h; cases h; simp
        · rw [if_neg hsp] at h; exact absurd h (by simp)
  | cons next rest ih =>
    intro cur heap oie sz sg d acc c h
    unfold add_entry_loop at h
    by_cases hsz : sz = 0
    · rw [if_pos hsz] at h; exact absurd h (by simp)
    rw [if_neg hsz] at h
    dsimp only at h
    by_cases hf : find_contiguous_aligned_after P sg sizeof_sg_descriptor = AXIDMA_NOT_FOUND
    · rw [if_pos hf] at h; cases h; simp
    · rw [if_neg hf] at h
      cases heap with
      | zero => cases h; simp
      | succ heap =>
        dsimp only at h
        by_cases hsp : (cur.len + 2 ^ 32 - oie) % 2 ^ 32 < sz
        · rw [if_pos hsp] at h; exact ih _ _ _ _ _ _ _ _ h
        · rw [if_neg hsp] at h; exact absurd h (by simp)

theorem add_entry_success_spec (heap : Nat) (lst : sg_list) (sz : Nat)
    (h : (axidma_add_entry heap lst sz).1 = add_entry_code.ADD_ENTRY_SUCCESS) :
    ∃ grp sg2,
      (axidma_add_entry heap lst sz).2 =
          { lst with chain := lst.chain ++ grp, sg_offset := sg2,
                     data_offset := (lst.data_offset + sz) % 2 ^ 32 } ∧
        is_group lst.data_offset sz grp ∧
        slots_from lst.sg_plist lst.sg_offset (grp.map (fun e => e.sg_offset)) sg2 ∧
        ∀ e ∈ grp, e.buf_phys < 2 ^ 64 := by
  unfold axidma_add_entry at h ⊢
  by_cases hsz : sz = 0
  · simp [hsz] at h
  · cases hg : get_entry_index lst.data_plist lst.data_offset with
    | none => simp [hsz, hg] at h
    | some p =>
      obtain ⟨ind, oie⟩ := p
      cases hd : lst.data_plist.drop ind with
      | nil => simp [hsz, hg, hd] at h
      | cons cur rest =>
        cases hl : add_entry_loop lst.sg_plist lst.data_plist rest cur heap oie sz
            lst.sg_offset lst.data_offset [] with
        | error c =>
          simp only [hsz, hg, hd, hl, if_false] at h
          exact absurd h (add_entry_loop_error _ _ _ _ _ _ _ _ _ _ _ hl)
        | staged es s d =>
          obtain ⟨e0, tail, hes, hsum, hd2, hd1, hall, hslots⟩ :=
            add_entry_loop_spec _ _ _ _ _ _ _ _ _ _ _ _ _ hsz hl
          simp only [List.nil_append] at hes
          subst hes
          obtain ⟨f1, f2, f3, f4, f5⟩ := set_first_SOF_fields (e0 :: tail)
          obtain ⟨g1, g2, g3, g5⟩ := set_last_EOF_fields (set_first_SOF (e0 :: tail))
          have hne : set_first_SOF (e0 :: tail) ≠ [] := by simp [set_first_SOF]
          have hno : ∀ e ∈ set_first_SOF (e0 :: tail), e.is_EOF = false := by
            intro e he
            have : e.is_EOF ∈ (set_first_SOF (e0 :: tail)).map (fun e => e.is_EOF) :=
              List.mem_map_of_mem _ he
            rw [f4] at this
            obtain ⟨x, hx, hxe⟩ := List.mem_map.1 this
            rw [← hxe]; exact (hall x hx).1
          obtain ⟨body, last, hb, hbody, hlast⟩ := set_last_EOF_split _ hne hno
          refine ⟨set_last_EOF (set_first_SOF (e0 :: tail)), s, ?_, ?_, ?_, ?_⟩
          · simp [hsz, hg, hd, hl, hd2]
          · refine ⟨body, last, hb, hbody, hlast, ?_, ?_⟩
            · rw [g3, f3]; exact hsum
            · rw [g2, f2]; simp [hd1]
          · rw [g1, f1]; exact hslots
          · intro e he
            have : e.buf_phys ∈ (set_last_EOF (set_first_SOF (e0 :: tail))).map
                (fun e => e.buf_phys) := List.mem_map_of_mem _ he
            rw [g5, f5] at this
            obtain ⟨x, hx, hxe⟩ := List.mem_map.1 this
            rw [← hxe, (hall x hx).2.2.2]
            exact virt_to_phys_lt _ _

theorem find_fresh_first (sa : Nat) (hsa : sa % 64 = 0) :
    find_contiguous_aligned_after [{ addr := sa, len := 4096 }] 0 56 = 0 := by
  have hidx : get_entry_index [{ addr := sa, len := 4096 }] 0 = some (0, 0) := rfl
  have hal : (sa + 0) % 2 ^ 64 % 64 = 0 := by omega
  unfold find_contiguous_aligned_after
  rw [hidx]
  simp only [List.drop]
  unfold find_contiguous_loop
  simp only [hal]
  rfl

theorem find_fresh_second (sa : Nat) (hsa : sa % 64 = 0) :
    find_contiguous_aligned_after [{ addr := sa, len := 4096 }] 56 56 = 64 := by
  have hidx : get_entry_index [{ addr := sa, len := 4096 }] 56 = some (0, 56) := rfl
  have hal : (sa + 56) % 2 ^ 64 % 64 = 56 := by omega
  unfold find_contiguous_aligned_after
  rw [hidx]
  simp only [List.drop]
  unfold find_contiguous_loop
  simp only [hal]
  rfl

theorem find_fresh_third (sa : Nat) (hsa : sa % 64 = 0) :
    find_contiguous_aligned_after [{ addr := sa, len := 4096 }] 120 56 = 128 := by
  have hidx : get_entry_index [{ addr := sa, len := 4096 }] 120 = some (0, 120) := rfl
  have hal : (sa + 120) % 2 ^ 64 % 64 = 56 := by omega
  unfold find_contiguous_aligned_after
  rw [hidx]
  simp only [List.drop]
  unfold find_contiguous_loop
  simp only [hal]
  rfl

theorem scenario_add (g : sg_entry) (sg_buf data_buf heap a0 a1 sa : Nat) (hheap : 2 ≤ heap)
    (hsa : sa % 64 = 0) :
    axidma_add_entry heap
        (axidma_list_new g sg_buf [{ addr := sa, len := 4096 }] data_buf
          [{ addr := a0, len := 1000 }, { addr := a1, len := 600 }]) 1600 =
      (add_entry_code.ADD_ENTRY_SUCCESS,
        { sentinel := g,
          chain := [{ sg_offset := 0, data_offset := 0, buf_phys := a0 % 2 ^ 64, len := 1000,
                      is_SOF := true, is_EOF := false },
                    { sg_offset := 64, data_offset := 1000, buf_phys := a1 % 2 ^ 64, len := 600,
                      is_SOF := false, is_EOF := true }],
          to_vist := cursor.null, sg_buf := sg_buf,
          sg_offset := 120,
          sg_plist := [{ addr := sa, len := 4096 }], data_buf := data_buf, data_offset := 1600,
          data_plist := [{ addr := a0, len := 1000 }, { addr := a1, len := 600 }] }) := by
  obtain ⟨h, rfl⟩ : ∃ h, heap = h + 2 := ⟨heap - 2, by omega⟩
  have hidx : get_entry_index [({ addr := a0, len := 1000 } : pinner_physlist_entry),
      { addr := a1, len := 600 }] 0 = some (0, 0) := rfl
  unfold axidma_add_entry axidma_list_new
  simp only [hidx, List.drop]
  unfold add_entry_loop
  simp only [sizeof_sg_descriptor_eq, find_fresh_first sa hsa]
  unfold add_entry_loop
  have e56 : (0 + 56) % 2 ^ 32 = 56 := rfl
  simp only [sizeof_sg_descriptor_eq, e56, find_fresh_second sa hsa]
  have v0 : virt_to_phys [({ addr := a0, len := 1000 } : pinner_physlist_entry),
      { addr := a1, len := 600 }] 0 = a0 % 2 ^ 64 := rfl
  have v1 : virt_to_phys [({ addr := a0, len := 1000 } : pinner_physlist_entry),
      { addr := a1, len := 600 }] ((0 + (1000 + 2 ^ 32 - 0) % 2 ^ 32) % 2 ^ 32) = a1 % 2 ^ 64 := rfl
  simp only [v0, v1]
  rfl

theorem add_entry_no_span (heap : Nat) (lst : sg_list) (sz : Nat) (hsz : sz ≠ 0)
    (h : get_entry_index lst.data_plist lst.data_offset = none) :
    axidma_add_entry heap lst sz = (add_entry_code.ADD_ENTRY_BUF_OOM, lst) := by
  unfold axidma_add_entry
  rw [if_neg hsz, h]

theorem add_entry_loop_fit (P D : physlist) (rest : List pinner_physlist_entry)
    (cur : pinner_physlist_entry) (heap oie sz sg d : Nat) (acc : List sg_entry)
    (hsz : sz ≠ 0)
    (hf : find_contiguous_aligned_after P sg sizeof_sg_descriptor ≠ AXIDMA_NOT_FOUND)
    (hsp : ¬ (cur.len + 2 ^ 32 - oie) % 2 ^ 32 < sz) :
    add_entry_loop P D rest cur (heap + 1) oie sz sg d acc =
      staging.staged
        (acc ++ [{ sg_offset := find_contiguous_aligned_after P sg sizeof_sg_descriptor,
                   data_offset := d, buf_phys := virt_to_phys D d, len := sz,
                   is_SOF := false, is_EOF := false }])
        ((find_contiguous_aligned_after P sg sizeof_sg_descriptor + sizeof_sg_descriptor)
          % 2 ^ 32)
        ((d + sz) % 2 ^ 32) := by
  cases rest with
  | nil =>
    unfold add_entry_loop
    rw [if_neg hsz]
    dsimp only
    rw [if_neg hf, if_neg hsp]
  | cons next rest =>
    unfold add_entry_loop
    rw [if_neg hsz]
    dsimp only
    rw [if_neg hf, if_neg hsp]

theorem add_entry_loop_last_over (P D : physlist) (cur : pinner_physlist_entry)
    (heap oie sz sg d : Nat) (acc : List sg_entry) (hsz : sz ≠ 0)
    (hf : find_contiguous_aligned_after P sg sizeof_sg_descriptor ≠ AXIDMA_NOT_FOUND)
    (hsp : (cur.len + 2 ^ 32 - oie) % 2 ^ 32 < sz) :
    add_entry_loop P D [] cur (heap + 1) oie sz sg d acc =
      staging.error add_entry_code.ADD_ENTRY_BUF_OOM := by
  unfold add_entry_loop
  rw [if_neg hsz]
  dsimp only
  rw [if_neg hf, if_pos hsp]

theorem dequeue_walk_bounds (m : Mem) :
    ∀ (rest : List sg_entry) (e : sg_entry) (i len : Nat) (code : buf_code),
      i ≤ (dequeue_walk m e rest i len code).2.2 ∧
        (dequeue_walk m e rest i len code).2.2 ≤ i + rest.length ∧
        (code ≠ buf_code.END_OF_LIST →
          (dequeue_walk m e rest i len code).2.1 ≠ buf_code.END_OF_LIST) := by
  intro rest
  induction rest with
  | nil =>
    intro e i len code
    unfold dequeue_walk
    refine ⟨le_refl _, by simp, ?_⟩
    intro hc
    dsimp only
    split_ifs
    · simp
    · exact hc
  | cons next rest ih =>
    intro e i len code
    unfold dequeue_walk
    dsimp only
    by_cases heof : status_eof m e.sg_offset = 0
    · rw [if_pos heof]
      obtain ⟨h1, h2, h3⟩ := ih next (i + 1) ((len + status_len m e.sg_offset) % 2 ^ 32)
        (if status_complete m e.sg_offset = 0 ∨ status_decode_err m e.sg_offset ≠ 0 ∨
            status_int_err m e.sg_offset ≠ 0 ∨ status_slave_err m e.sg_offset ≠ 0
          then buf_code.TRANSFER_FAILED else code)
      refine ⟨by omega, by simp only [List.length_cons]; omega, ?_⟩
      intro hc
      apply h3
      split_ifs
      · simp
      · exact hc
    · rw [if_neg heof]
      refine ⟨le_refl _, by simp, ?_⟩
      intro hc
      dsimp only
      split_ifs
      · simp
      · exact hc

theorem dequeue_at_entry (lst : sg_list) (m : Mem) (i : Nat) (hi : i < lst.chain.length)
    (hc : lst.to_vist = cursor.entry i) :
    (axidma_dequeue_s2mm_buf lst m).1.code ≠ buf_code.END_OF_LIST ∧
      ((axidma_dequeue_s2mm_buf lst m).2 = { lst with to_vist := cursor.sentinel } ∨
        ∃ j, i < j ∧ j < lst.chain.length ∧
          (axidma_dequeue_s2mm_buf lst m).2 = { lst with to_vist := cursor.entry j }) := by
  unfold axidma_dequeue_s2mm_buf
  rw [hc]
  dsimp only
  cases hd : lst.chain.drop i with
  | nil =>
    have := List.drop_eq_nil_iff.1 hd
    omega
  | cons e rest =>
    dsimp only
    obtain ⟨h1, h2, h3⟩ := dequeue_walk_bounds m rest e i 0 buf_code.TRANSFER_SUCCESS
    refine ⟨h3 (by simp), ?_⟩
    by_cases hlt : (dequeue_walk m e rest i 0 buf_code.TRANSFER_SUCCESS).2.2 + 1
        < lst.chain.length
    · rw [if_pos hlt]
      exact Or.inr ⟨_, by omega, hlt, rfl⟩
    · rw [if_neg hlt]
      exact Or.inl rfl

theorem drain_terminates (m : Mem) :
    ∀ (n : Nat) (lst : sg_list) (i : Nat), i < lst.chain.length →
      lst.to_vist = cursor.entry i → lst.chain.length - i < n →
      ∃ rs, drain m n lst = some (rs, { lst with to_vist := cursor.null }) := by
  intro n
  induction n with
  | zero => intro lst i _ _ h; omega
  | succ n ih =>
    intro lst i hi hc hn
    obtain ⟨hcode, hnext⟩ := dequeue_at_entry lst m i hi hc
    unfold drain
    dsimp only
    rw [if_neg hcode]
    rcases hnext with hs | ⟨j, hij, hj, hs⟩
    · rw [hs]
      obtain ⟨k, rfl⟩ : ∃ k, n = k + 1 := ⟨n - 1, by omega⟩
      refine ⟨[(axidma_dequeue_s2mm_buf lst m).1,
        { base := 0, len := 0, code := buf_code.END_OF_LIST }], ?_⟩
      unfold drain
      simp [axidma_dequeue_s2mm_buf]
    · rw [hs]
      obtain ⟨rs, hrs⟩ := ih { lst with to_vist := cursor.entry j } j hj rfl
        (by simp only; omega)
      rw [hrs]
      exact ⟨_, rfl⟩

theorem write_sg_list_cursor (c : axidma_ctx) (lst : sg_list) (m0 : Mem) (hne : lst.chain ≠ []) :
    (axidma_write_sg_list (some c) (some lst) m0).2.1 =
      some { lst with to_vist := cursor.entry 0 } := by
  obtain ⟨e, rest, hch⟩ := List.exists_cons_of_ne_nil hne
  simp [axidma_write_sg_list, hch]

theorem reset_nonempty (lst : sg_list) (hne : lst.chain ≠ []) :
    axidma_reset_lst_traversal lst = { lst with to_vist := cursor.entry 0 } := by
  obtain ⟨e, rest, hch⟩ := List.exists_cons_of_ne_nil hne
  simp [axidma_reset_lst_traversal, hch]

theorem add_entries_groups :
    ∀ (calls : List (Nat × Nat)) (lst l2 : sg_list) (acc : Nat),
      lst.data_offset = acc % 2 ^ 32 →
      add_entries lst calls = some l2 →
      ∃ new, l2 = { lst with chain := lst.chain ++ new, sg_offset := l2.sg_offset,
                             data_offset := l2.data_offset } ∧
        chain_groups acc (calls.map Prod.snd) new := by
  intro calls
  induction calls with
  | nil =>
    intro lst l2 acc _ h
    simp only [add_entries, Option.some.injEq] at h
    subst h
    exact ⟨[], by simp, rfl⟩
  | cons call calls ih =>
    intro lst l2 acc hacc h
    obtain ⟨heap, sz⟩ := call
    unfold add_entries at h
    by_cases hs : (axidma_add_entry heap lst sz).1 = add_entry_code.ADD_ENTRY_SUCCESS
    · rw [if_pos hs] at h
      obtain ⟨grp, sg2, hres, hgrp, _, _⟩ := add_entry_success_spec heap lst sz hs
      rw [hres] at h
      obtain ⟨new, hl2, hnew⟩ := ih _ l2 (acc + sz) (by simp only; omega) h
      refine ⟨grp ++ new, ?_, ?_⟩
      · rw [hl2]; simp
      · exact ⟨grp, new, rfl, hacc ▸ hgrp, hnew⟩
    · rw [if_neg hs] at h
      exact absurd h (by simp)

theorem dequeue_walk_group (m : Mem) :
    ∀ (body : List sg_entry) (last : sg_entry) (rest : List sg_entry) (e : sg_entry)
      (tl : List sg_entry) (i len : Nat),
      body ++ [last] = e :: tl →
      hw_reports_success m (body ++ [last]) →
      (∀ x ∈ body, x.is_EOF = false) → last.is_EOF = true →
      (∀ x ∈ body ++ [last], x.len < 2 ^ 26) →
      dequeue_walk m e (tl ++ rest) i len buf_code.TRANSFER_SUCCESS =
        ((len + ((body ++ [last]).map (fun x => x.len)).sum) % 2 ^ 32,
          buf_code.TRANSFER_SUCCESS, i + body.length) := by
  intro body
  induction body with
  | nil =>
    intro last rest e tl i len heq hhw _ hlast hlen
    simp only [List.nil_append, List.cons.injEq] at heq
    obtain ⟨rfl, rfl⟩ := heq
    obtain ⟨h1, h2, h3, h4, h5, h6⟩ := hhw last (by simp)
    have hl := hlen last (by simp)
    rw [hlast] at h6
    unfold dequeue_walk
    simp only [h1, h2, h3, h4, h5, h6, flag, List.nil_append, List.map_cons, List.map_nil,
      List.sum_cons, List.sum_nil, List.length_nil]
    have hmod : last.len % 2 ^ 26 = last.len := Nat.mod_eq_of_lt hl
    rw [hmod]
    cases rest <;> simp
  | cons b body ih =>
    intro last rest e tl i len heq hhw hbody hlast hlen
    simp only [List.cons_append, List.cons.injEq] at heq
    obtain ⟨rfl, rfl⟩ := heq
    obtain ⟨e2, tl2, htl⟩ : ∃ e2 tl2, body ++ [last] = e2 :: tl2 := by
      cases body with
      | nil => exact ⟨last, [], rfl⟩
      | cons x xs => exact ⟨x, xs ++ [last], rfl⟩
    obtain ⟨h1, h2, h3, h4, h5, h6⟩ := hhw b (by simp)
    have hl := hlen b (by simp)
    rw [hbody b (by simp)] at h6
    have hmod : b.len % 2 ^ 26 = b.len := Nat.mod_eq_of_lt hl
    have hrec := ih last rest e2 tl2 (i + 1) ((len + b.len) % 2 ^ 32) htl
      (fun x hx => hhw x (by simp only [List.cons_append]; exact List.mem_cons_of_mem _ hx))
      (fun x hx => hbody x (List.mem_cons_of_mem _ hx)) hlast
      (fun x hx => hlen x (by simp only [List.cons_append]; exact List.mem_cons_of_mem _ hx))
    rw [htl]
    unfold dequeue_walk
    simp only [h1, h2, h3, h4, h5, h6, flag, hmod, List.cons_append]
    simp only [List.cons_append] at hrec
    simp only [one_ne_zero, ne_eq, not_true_eq_false, or_self, if_false, if_true,
      Bool.false_eq_true]
    rw [hrec]
    simp only [htl, List.map_cons, List.sum_cons, List.length_cons, Prod.mk.injEq, true_and]
    constructor
    · have := congrArg (fun l => (l.map (fun x => x.len)).sum) htl
      simp only [List.map_cons, List.sum_cons] at this
      omega
    · omega

theorem dequeue_group (m : Mem) (lst : sg_list) (pre grp rest : List sg_entry) (d sz : Nat)
    (hchain : lst.chain = pre ++ (grp ++ rest))
    (hcur : lst.to_vist = cursor.entry pre.length)
    (hgrp : is_group d sz grp)
    (hhw : hw_reports_success m grp)
    (hlen : ∀ x ∈ grp, x.len < 2 ^ 26) (hsz : sz < 2 ^ 32) :
    axidma_dequeue_s2mm_buf lst m =
      ({ base := lst.data_buf + d, len := sz, code := buf_code.TRANSFER_SUCCESS },
        { lst with to_vist := if rest = [] then cursor.sentinel
                              else cursor.entry (pre ++ grp).length }) := by
  obtain ⟨body, last, rfl, hbody, hlast, hsum, hhead⟩ := hgrp
  obtain ⟨e, tl, htl⟩ : ∃ e tl, body ++ [last] = e :: tl := by
    cases body with
    | nil => exact ⟨last, [], rfl⟩
    | cons x xs => exact ⟨x, xs ++ [last], rfl⟩
  have hwalk := dequeue_walk_group m body last rest e tl pre.length 0 htl hhw hbody hlast hlen
  have hdrop : lst.chain.drop pre.length = e :: (tl ++ rest) := by
    rw [hchain, List.drop_left, htl]; rfl
  have he : e.data_offset = d := by
    rw [htl] at hhead
    simpa using hhead
  unfold axidma_dequeue_s2mm_buf
  rw [hcur]
  dsimp only
  rw [hdrop]
  dsimp only
  rw [hwalk, hsum, he]
  have hmod : (0 + sz) % 2 ^ 32 = sz := by omega
  rw [hmod]
  have hl : lst.chain.length = pre.length + (body.length + 1 + rest.length) := by
    rw [hchain]; simp only [List.length_append, List.length_cons, List.length_nil]
  have hl2 : (pre ++ (body ++ [last])).length = pre.length + body.length + 1 := by
    simp only [List.length_append, List.length_cons, List.length_nil]; omega
  dsimp only
  congr 2
  by_cases hr : rest = []
  · subst hr
    simp only [List.length_nil] at hl
    rw [if_pos rfl, if_neg (by omega)]
  · have hpos : 0 < rest.length := List.length_pos.2 hr
    rw [if_neg hr, if_pos (by omega), hl2]

theorem dequeue_n_groups (m : Mem) :
    ∀ (szs : List Nat) (acc : Nat) (pre new : List sg_entry) (lst : sg_list),
      lst.chain = pre ++ new → chain_groups acc szs new →
      lst.to_vist = (if new = [] then cursor.sentinel else cursor.entry pre.length) →
      hw_reports_success m new → (∀ e ∈ new, e.len < 2 ^ 26) → (∀ sz ∈ szs, sz < 2 ^ 32) →
      (dequeue_n m (szs.length + 1) lst).1 =
        expected_bufs lst.data_buf acc szs ++
          [{ base := 0, len := 0, code := buf_code.END_OF_LIST }] := by
  intro szs
  induction szs with
  | nil =>
    intro acc pre new lst _ hg hcur _ _ _
    simp only [chain_groups] at hg
    subst hg
    rw [if_pos rfl] at hcur
    simp [dequeue_n, axidma_dequeue_s2mm_buf, hcur, expected_bufs]
  | cons sz szs ih =>
    intro acc pre new lst hchain hg hcur hhw hlen hszs
    obtain ⟨grp, rest, rfl, hgrp, hrest⟩ := hg
    have hne : grp ++ rest ≠ [] := by
      obtain ⟨body, last, rfl, _⟩ := hgrp
      simp
    rw [if_neg hne] at hcur
    have hd := dequeue_group m lst pre grp rest (acc % 2 ^ 32) sz hchain hcur hgrp
      (fun x hx => hhw x (List.mem_append_left _ hx))
      (fun x hx => hlen x (List.mem_append_left _ hx)) (hszs sz (by simp))
    have hrec := ih (acc + sz) (pre ++ grp) rest
      { lst with to_vist := if rest = [] then cursor.sentinel
                            else cursor.entry (pre ++ grp).length }
      (by simp [hchain]) hrest rfl
      (fun x hx => hhw x (List.mem_append_right _ hx))
      (fun x hx => hlen x (List.mem_append_right _ hx))
      (fun s hs => hszs s (List.mem_cons_of_mem _ hs))
    simp only [List.length_cons]
    unfold dequeue_n
    dsimp only
    rw [hd]
    dsimp only
    rw [hrec]
    simp [expected_bufs]

theorem read32_lt (m : Mem) (a : Nat) : read32 m a < 2 ^ 32 := by
  unfold read32 read8
  omega

theorem write32_byte_other (m : Mem) (a v x : Nat) (h : x < a ∨ a + 4 ≤ x) :
    (write32 m a v).byte x = m.byte x := by
  unfold write32
  simp only
  rw [if_neg (by omega), if_neg (by omega), if_neg (by omega), if_neg (by omega)]

theorem write32_bytes (m : Mem) (a v : Nat) :
    (write32 m a v).byte a = v % 256 ∧ (write32 m a v).byte (a + 1) = v / 256 % 256 ∧
      (write32 m a v).byte (a + 2) = v / 65536 % 256 ∧
      (write32 m a v).byte (a + 3) = v / 16777216 % 256 := by
  have h1 : ¬ a + 1 = a := by omega
  have h2 : ¬ a + 2 = a := by omega
  have h3 : ¬ a + 3 = a := by omega
  have h4 : ¬ a + 2 = a + 1 := by omega
  have h5 : ¬ a + 3 = a + 1 := by omega
  have h6 : ¬ a + 3 = a + 2 := by omega
  unfold write32
  simp only [h1, h2, h3, h4, h5, h6, if_true, if_false, and_self]

theorem read32_write32_same (m : Mem) (a v : Nat) : read32 (write32 m a v) a = v % 2 ^ 32 := by
  obtain ⟨h0, h1, h2, h3⟩ := write32_bytes m a v
  unfold read32 read8
  rw [h0, h1, h2, h3]
  omega

theorem read32_write32_other (m : Mem) (a v b : Nat) (h : b + 4 ≤ a ∨ a + 4 ≤ b) :
    read32 (write32 m a v) b = read32 m b := by
  unfold read32 read8
  rw [write32_byte_other m a v b (by omega), write32_byte_other m a v (b + 1) (by omega),
    write32_byte_other m a v (b + 2) (by omega), write32_byte_other m a v (b + 3) (by omega)]

theorem store_bits_byte_other (m : Mem) (a lo w v x : Nat) (h : x < a ∨ a + 4 ≤ x) :
    (store_bits m a lo w v).byte x = m.byte x := by
  unfold store_bits
  exact write32_byte_other _ _ _ _ h

theorem read32_store_bits_same (m : Mem) (a lo w v : Nat) :
    read32 (store_bits m a lo w v) a = set_field (read32 m a) lo w v := by
  unfold store_bits
  rw [read32_write32_same]
  unfold set_field
  exact Nat.mod_mod _ _

theorem read32_store_bits_other (m : Mem) (a lo w v b : Nat) (h : b + 4 ≤ a ∨ a + 4 ≤ b) :
    read32 (store_bits m a lo w v) b = read32 m b := by
  unfold store_bits
  exact read32_write32_other _ _ _ _ h

theorem read32_congr (m m2 : Mem) (a : Nat)
    (h : ∀ x, a ≤ x → x < a + 4 → m.byte x = m2.byte x) : read32 m a = read32 m2 a := by
  unfold read32 read8
  rw [h a (by omega) (by omega), h (a + 1) (by omega) (by omega),
    h (a + 2) (by omega) (by omega), h (a + 3) (by omega) (by omega)]

theorem s2mm_write_byte_other (m : Mem) (P : physlist) (e n : sg_entry) (x : Nat)
    (h : x < e.sg_offset ∨ e.sg_offset + 32 ≤ x) :
    (s2mm_write_sg_entry m P e n).byte x = m.byte x := by
  unfold s2mm_write_sg_entry
  dsimp only
  rw [write32_byte_other _ _ _ _ (by omega), write32_byte_other _ _ _ _ (by omega),
    write32_byte_other _ _ _ _ (by omega), write32_byte_other _ _ _ _ (by omega),
    store_bits_byte_other _ _ _ _ _ _ (by omega), store_bits_byte_other _ _ _ _ _ _ (by omega),
    store_bits_byte_other _ _ _ _ _ _ (by omega), store_bits_byte_other _ _ _ _ _ _ (by omega),
    store_bits_byte_other _ _ _ _ _ _ (by omega), store_bits_byte_other _ _ _ _ _ _ (by omega),
    store_bits_byte_other _ _ _ _ _ _ (by omega), store_bits_byte_other _ _ _ _ _ _ (by omega),
    store_bits_byte_other _ _ _ _ _ _ (by omega), store_bits_byte_other _ _ _ _ _ _ (by omega)]

theorem s2mm_write_next_desc (m : Mem) (P : physlist) (e n : sg_entry) :
    next_desc_lsb (s2mm_write_sg_entry m P e n) e.sg_offset =
        virt_to_phys P n.sg_offset % 2 ^ 32 ∧
      next_desc_msb (s2mm_write_sg_entry m P e n) e.sg_offset =
        virt_to_phys P n.sg_offset / 2 ^ 32 % 2 ^ 32 := by
  unfold next_desc_lsb next_desc_msb s2mm_write_sg_entry
  dsimp only
  rw [read32_write32_other _ _ _ _ (by omega), read32_write32_same, read32_write32_same]
  omega

theorem s2mm_write_buffer (m : Mem) (P : physlist) (e n : sg_entry) :
    buffer_lsb (s2mm_write_sg_entry m P e n) e.sg_offset = e.buf_phys % 2 ^ 32 ∧
      buffer_msb (s2mm_write_sg_entry m P e n) e.sg_offset = e.buf_phys / 2 ^ 32 % 2 ^ 32 := by
  unfold buffer_lsb buffer_msb s2mm_write_sg_entry
  dsimp only
  rw [read32_write32_other _ _ _ _ (by omega), read32_write32_other _ _ _ _ (by omega),
    read32_write32_other _ _ _ _ (by omega), read32_write32_same,
    read32_write32_other _ _ _ _ (by omega), read32_write32_other _ _ _ _ (by omega),
    read32_write32_same]
  omega

theorem word_bits (old : Nat) :
    ∃ L b26 b27 b28 b29 b30 b31 hi,
      old = L + b26 * 2 ^ 26 + b27 * 2 ^ 27 + b28 * 2 ^ 28 + b29 * 2 ^ 29 + b30 * 2 ^ 30 +
          b31 * 2 ^ 31 + hi * 2 ^ 32 ∧
        L < 2 ^ 26 ∧ b26 < 2 ∧ b27 < 2 ∧ b28 < 2 ∧ b29 < 2 ∧ b30 < 2 ∧ b31 < 2 :=
  ⟨old % 2 ^ 26, old / 2 ^ 26 % 2, old / 2 ^ 27 % 2, old / 2 ^ 28 % 2, old / 2 ^ 29 % 2,
    old / 2 ^ 30 % 2, old / 2 ^ 31 % 2, old / 2 ^ 32,
    by omega, by omega, by omega, by omega, by omega, by omega, by omega, by omega⟩

theorem clear_status_fields (old : Nat) :
    set_field (set_field (set_field (set_field (set_field (set_field (set_field old
      31 1 0) 30 1 0) 26 1 0) 28 1 0) 0 26 0) 29 1 0) 27 1 0 = 0 := by
  obtain ⟨L, b26, b27, b28, b29, b30, b31, hi, rfl, hL, h26, h27, h28, h29, h30, h31⟩ :=
    word_bits old
  have h1 : set_field (L + b26 * 2 ^ 26 + b27 * 2 ^ 27 + b28 * 2 ^ 28 + b29 * 2 ^ 29
      + b30 * 2 ^ 30 + b31 * 2 ^ 31 + hi * 2 ^ 32) 31 1 0 =
      L + b26 * 2 ^ 26 + b27 * 2 ^ 27 + b28 * 2 ^ 28 + b29 * 2 ^ 29 + b30 * 2 ^ 30 := by
    unfold set_field; omega
  have h2 : set_field (L + b26 * 2 ^ 26 + b27 * 2 ^ 27 + b28 * 2 ^ 28 + b29 * 2 ^ 29
      + b30 * 2 ^ 30) 30 1 0 =
      L + b26 * 2 ^ 26 + b27 * 2 ^ 27 + b28 * 2 ^ 28 + b29 * 2 ^ 29 := by
    unfold set_field; omega
  have h3 : set_field (L + b26 * 2 ^ 26 + b27 * 2 ^ 27 + b28 * 2 ^ 28 + b29 * 2 ^ 29) 26 1 0 =
      L + b27 * 2 ^ 27 + b28 * 2 ^ 28 + b29 * 2 ^ 29 := by
    unfold set_field; omega
  have h4 : set_field (L + b27 * 2 ^ 27 + b28 * 2 ^ 28 + b29 * 2 ^ 29) 28 1 0 =
      L + b27 * 2 ^ 27 + b29 * 2 ^ 29 := by
    unfold set_field; omega
  have h5 : set_field (L + b27 * 2 ^ 27 + b29 * 2 ^ 29) 0 26 0 = b27 * 2 ^ 27 + b29 * 2 ^ 29 := by
    unfold set_field; omega
  have h6 : set_field (b27 * 2 ^ 27 + b29 * 2 ^ 29) 29 1 0 = b27 * 2 ^ 27 := by
    unfold set_field; omega
  have h7 : set_field (b27 * 2 ^ 27) 27 1 0 = 0 := by
    unfold set_field; omega
  rw [h1, h2, h3, h4, h5, h6, h7]

theorem s2mm_write_status_word (m : Mem) (P : physlist) (e n : sg_entry) :
    read32 (s2mm_write_sg_entry m P e n) (e.sg_offset + 28) = 0 := by
  unfold s2mm_write_sg_entry
  dsimp only
  rw [read32_write32_other _ _ _ _ (by omega), read32_write32_other _ _ _ _ (by omega),
    read32_write32_other _ _ _ _ (by omega), read32_write32_other _ _ _ _ (by omega),
    read32_store_bits_same, read32_store_bits_same, read32_store_bits_same,
    read32_store_bits_same, read32_store_bits_same, read32_store_bits_same,
    read32_store_bits_same,
    read32_store_bits_other _ _ _ _ _ _ (by omega), read32_store_bits_other _ _ _ _ _ _ (by omega),
    read32_store_bits_other _ _ _ _ _ _ (by omega)]
  exact clear_status_fields _

theorem set_control_fields (old s f l : Nat) (hold : old < 2 ^ 32) (hs : s < 2) (hf : f < 2) :
    set_field (set_field (set_field old 27 1 s) 26 1 f) 0 26 l =
      old / 2 ^ 28 * 2 ^ 28 + s * 2 ^ 27 + f * 2 ^ 26 + l % 2 ^ 26 := by
  obtain ⟨L, b26, b27, H, rfl, hL, h26, h27, hH⟩ :
      ∃ L b26 b27 H, old = L + b26 * 2 ^ 26 + b27 * 2 ^ 27 + H * 2 ^ 28 ∧ L < 2 ^ 26 ∧
        b26 < 2 ∧ b27 < 2 ∧ H < 16 :=
    ⟨old % 2 ^ 26, old / 2 ^ 26 % 2, old / 2 ^ 27 % 2, old / 2 ^ 28,
      by omega, by omega, by omega, by omega, by omega⟩
  have h0 : (L + b26 * 2 ^ 26 + b27 * 2 ^ 27 + H * 2 ^ 28) / 2 ^ 28 = H := by omega
  have h1 : set_field (L + b26 * 2 ^ 26 + b27 * 2 ^ 27 + H * 2 ^ 28) 27 1 s =
      L + b26 * 2 ^ 26 + s * 2 ^ 27 + H * 2 ^ 28 := by
    unfold set_field; omega
  have h2 : set_field (L + b26 * 2 ^ 26 + s * 2 ^ 27 + H * 2 ^ 28) 26 1 f =
      L + f * 2 ^ 26 + s * 2 ^ 27 + H * 2 ^ 28 := by
    unfold set_field; omega
  have h3 : set_field (L + f * 2 ^ 26 + s * 2 ^ 27 + H * 2 ^ 28) 0 26 l =
      l % 2 ^ 26 + f * 2 ^ 26 + s * 2 ^ 27 + H * 2 ^ 28 := by
    unfold set_field; omega
  rw [h0, h1, h2, h3]
  omega

theorem s2mm_write_control_word (m : Mem) (P : physlist) (e n : sg_entry) :
    read32 (s2mm_write_sg_entry m P e n) (e.sg_offset + 24) =
      read32 m (e.sg_offset + 24) / 2 ^ 28 * 2 ^ 28 + flag e.is_SOF * 2 ^ 27 +
        flag e.is_EOF * 2 ^ 26 + e.len % 2 ^ 26 := by
  have hold := read32_lt m (e.sg_offset + 24)
  have hs : flag e.is_SOF < 2 := by unfold flag; split <;> omega
  have he : flag e.is_EOF < 2 := by unfold flag; split <;> omega
  unfold s2mm_write_sg_entry
  dsimp only
  rw [read32_write32_other _ _ _ _ (by omega), read32_write32_other _ _ _ _ (by omega),
    read32_write32_other _ _ _ _ (by omega), read32_write32_other _ _ _ _ (by omega),
    read32_store_bits_other _ _ _ _ _ _ (by omega), read32_store_bits_other _ _ _ _ _ _ (by omega),
    read32_store_bits_other _ _ _ _ _ _ (by omega), read32_store_bits_other _ _ _ _ _ _ (by omega),
    read32_store_bits_other _ _ _ _ _ _ (by omega), read32_store_bits_other _ _ _ _ _ _ (by omega),
    read32_store_bits_other _ _ _ _ _ _ (by omega),
    read32_store_bits_same, read32_store_bits_same, read32_store_bits_same]
  exact set_control_fields _ _ _ _ hold hs he

theorem plist_total_take_drop (plist : List pinner_physlist_entry) (n : Nat) :
    plist_total (plist.take n) + plist_total (plist.drop n) = plist_total plist := by
  unfold plist_total
  rw [← List.sum_append, ← List.map_append, List.take_append_drop]

theorem find_contiguous_loop_ge (sz B : Nat) (hsz : sz + 63 ≤ 2 ^ 32) (hB : B + 64 ≤ 2 ^ 32) :
    ∀ (ents : List pinner_physlist_entry) (offset oie : Nat),
      oie ≤ offset → offset - oie + plist_total ents ≤ B →
      (∀ e rest, ents = e :: rest → oie ≤ e.len) →
      find_contiguous_loop ents offset oie sz ≠ AXIDMA_NOT_FOUND →
      offset ≤ find_contiguous_loop ents offset oie sz ∧
        find_contiguous_loop ents offset oie sz ≤ B + 63 := by
  intro ents
  induction ents with
  | nil =>
    intro offset oie _ _ _ h
    exact absurd rfl h
  | cons e rest ih =>
    intro offset oie ho hb hhead h
    have hle := hhead e rest rfl
    have htot : plist_total (e :: rest) = e.len + plist_total rest := by
      simp [plist_total]
    rw [htot] at hb
    unfold find_contiguous_loop at h ⊢
    dsimp only at h ⊢
    generalize (e.addr + oie) % 2 ^ 64 % 64 = al at h ⊢
    have hadj : (if al ≠ 0 then 64 - al else 0) ≤ 63 := by split <;> omega
    generalize (if al ≠ 0 then 64 - al else 0) = adj at h hadj ⊢
    have e1 : (offset + adj) % 2 ^ 32 = offset + adj := by omega
    have e2 : (oie + adj) % 2 ^ 32 = oie + adj := by omega
    rw [e1, e2] at h ⊢
    by_cases hfit : sz ≤ (e.len + 2 ^ 32 - (oie + adj)) % 2 ^ 32
    · rw [if_pos hfit]
      omega
    · rw [if_neg hfit] at h ⊢
      have hin : oie + adj ≤ e.len := by
        by_contra hc
        omega
      have e3 : (e.len + 2 ^ 32 - (oie + adj)) % 2 ^ 32 = e.len - (oie + adj) := by omega
      rw [e3] at h ⊢
      have e4 : (offset + adj + (e.len - (oie + adj))) % 2 ^ 32 = offset - oie + e.len := by
        omega
      rw [e4] at h ⊢
      obtain ⟨h1, h2⟩ := ih (offset - oie + e.len) 0 (Nat.zero_le _) (by omega)
        (fun _ _ _ => Nat.zero_le _) h
      exact ⟨by omega, h2⟩

theorem find_contiguous_ge (P : physlist) (offset sz : Nat) (hsz : sz + 63 ≤ 2 ^ 32)
    (hT : plist_total P + 64 ≤ 2 ^ 32)
    (h : find_contiguous_aligned_after P offset sz ≠ AXIDMA_NOT_FOUND) :
    offset ≤ find_contiguous_aligned_after P offset sz ∧
      find_contiguous_aligned_after P offset sz ≤ plist_total P + 63 := by
  unfold find_contiguous_aligned_after at h ⊢
  cases hg : get_entry_index P offset with
  | none => rw [hg] at h; exact absurd rfl h
  | some p =>
    obtain ⟨ind, oie⟩ := p
    rw [hg] at h
    dsimp only at h ⊢
    obtain ⟨cur, rest, hd, hlt, hoff⟩ := get_entry_index_spec P offset ind oie hg
    have htd := plist_total_take_drop P ind
    refine find_contiguous_loop_ge sz (plist_total P) hsz hT _ offset oie (by omega) (by omega)
      ?_ h
    intro e r her
    rw [hd] at her
    simp only [List.cons.injEq] at her
    rw [← her.1]
    omega

theorem slots_sorted (P : physlist) (hT : plist_total P + 120 ≤ 2 ^ 32) :
    ∀ (offs : List Nat) (sg sg2 : Nat), slots_from P sg offs sg2 →
      offs.Pairwise (fun a b => a + sizeof_sg_descriptor ≤ b) ∧
        (∀ o ∈ offs, sg ≤ o ∧ o + sizeof_sg_descriptor ≤ sg2) ∧ sg ≤ sg2 := by
  intro offs
  induction offs with
  | nil =>
    intro sg sg2 h
    simp only [slots_from] at h
    subst h
    exact ⟨List.Pairwise.nil, by simp, le_refl _⟩
  | cons o os ih =>
    intro sg sg2 h
    obtain ⟨ho, hne, hrest⟩ := h
    have hs := sizeof_sg_descriptor_eq
    have hge := find_contiguous_ge P sg sizeof_sg_descriptor (by omega) (by omega) (ho ▸ hne)
    rw [← ho] at hge
    have hmod : (o + sizeof_sg_descriptor) % 2 ^ 32 = o + sizeof_sg_descriptor := by omega
    rw [hmod] at hrest
    obtain ⟨hp, hall, hle⟩ := ih _ _ hrest
    refine ⟨List.Pairwise.cons ?_ hp, ?_, by omega⟩
    · intro b hb
      exact (hall b hb).1
    · intro x hx
      rcases List.mem_cons.1 hx with rfl | hx
      · exact ⟨hge.1, by omega⟩
      · have := hall x hx
        omega

theorem slot_holds_congr (m m2 : Mem) (r : sg_entry)
    (h : ∀ x, r.sg_offset ≤ x → x < r.sg_offset + 32 → m.byte x = m2.byte x)
    (hs : slot_holds m r) : slot_holds m2 r := by
  have w8 : read32 m (r.sg_offset + 8) = read32 m2 (r.sg_offset + 8) :=
    read32_congr _ _ _ (fun x h1 h2 => h x (by omega) (by omega))
  have w12 : read32 m (r.sg_offset + 12) = read32 m2 (r.sg_offset + 12) :=
    read32_congr _ _ _ (fun x h1 h2 => h x (by omega) (by omega))
  have w24 : read32 m (r.sg_offset + 24) = read32 m2 (r.sg_offset + 24) :=
    read32_congr _ _ _ (fun x h1 h2 => h x (by omega) (by omega))
  have w28 : read32 m (r.sg_offset + 28) = read32 m2 (r.sg_offset + 28) :=
    read32_congr _ _ _ (fun x h1 h2 => h x (by omega) (by omega))
  unfold slot_holds buffer_lsb buffer_msb control_sof control_eof control_len status_complete
    status_decode_err status_int_err status_slave_err status_sof status_eof status_len
    load_bits at hs ⊢
  rw [← w8, ← w12, ← w24, ← w28]
  exact hs

theorem s2mm_write_slot_holds (m : Mem) (P : physlist) (e n : sg_entry)
    (hb : e.buf_phys < 2 ^ 64) : slot_holds (s2mm_write_sg_entry m P e n) e := by
  obtain ⟨b1, b2⟩ := s2mm_write_buffer m P e n
  have hc := s2mm_write_control_word m P e n
  have hst := s2mm_write_status_word m P e n
  have hs : flag e.is_SOF < 2 := by unfold flag; split <;> omega
  have he : flag e.is_EOF < 2 := by unfold flag; split <;> omega
  have hold := read32_lt m (e.sg_offset + 24)
  unfold slot_holds control_sof control_eof control_len status_complete
    status_decode_err status_int_err status_slave_err status_sof status_eof status_len
    load_bits
  rw [b1, b2, hc, hst]
  generalize read32 m (e.sg_offset + 24) = old at hold ⊢
  generalize flag e.is_SOF = s at hs ⊢
  generalize flag e.is_EOF = f at he ⊢
  refine ⟨by omega, by omega, by omega, by omega, ?_, ?_, ?_, ?_, ?_, ?_, ?_⟩ <;> simp

theorem write_sg_entries_cons (P : physlist) (s e : sg_entry) (rest : List sg_entry) (m : Mem) :
    write_sg_entries P s (e :: rest) m =
      write_sg_entries P s rest (s2mm_write_sg_entry m P e (rest.headD s)) := by
  cases rest with
  | nil => rfl
  | cons n rest => rfl

theorem write_sg_entries_byte_other (P : physlist) (s : sg_entry) :
    ∀ (chain : List sg_entry) (m : Mem) (x : Nat),
      (∀ r ∈ chain, x < r.sg_offset ∨ r.sg_offset + 32 ≤ x) →
      (write_sg_entries P s chain m).byte x = m.byte x := by
  intro chain
  induction chain with
  | nil => intro m x _; rfl
  | cons e rest ih =>
    intro m x h
    rw [write_sg_entries_cons, ih _ _ (fun r hr => h r (List.mem_cons_of_mem _ hr))]
    exact s2mm_write_byte_other m P e _ x (h e (List.mem_cons_self _ _))

theorem write_sg_entries_holds (P : physlist) (s : sg_entry) :
    ∀ (chain : List sg_entry) (m : Mem),
      (chain.map (fun e => e.sg_offset)).Pairwise (fun a b => a + sizeof_sg_descriptor ≤ b) →
      (∀ r ∈ chain, r.buf_phys < 2 ^ 64) →
      ∀ r ∈ chain, slot_holds (write_sg_entries P s chain m) r := by
  intro chain
  induction chain with
  | nil => intro m _ _ r hr; simp at hr
  | cons e rest ih =>
    intro m hp hb r hr
    have hs := sizeof_sg_descriptor_eq
    simp only [List.map_cons, List.pairwise_cons] at hp
    obtain ⟨hfirst, hrest⟩ := hp
    rw [write_sg_entries_cons]
    rcases List.mem_cons.1 hr with rfl | hr
    · refine slot_holds_congr _ _ _ ?_
        (s2mm_write_slot_holds m P r (rest.headD s) (hb r (List.mem_cons_self _ _)))
      intro x hx1 hx2
      symm
      apply write_sg_entries_byte_other
      intro q hq
      have := hfirst q.sg_offset (List.mem_map_of_mem _ hq)
      omega
    · exact ih _ hrest (fun q hq => hb q (List.mem_cons_of_mem _ hq)) r hr

theorem add_entries_slots :
    ∀ (calls : List (Nat × Nat)) (lst l2 : sg_list),
      plist_total lst.sg_plist + 120 ≤ 2 ^ 32 → chain_slots lst →
      add_entries lst calls = some l2 →
      chain_slots l2 ∧ l2.sg_plist = lst.sg_plist ∧ l2.sentinel = lst.sentinel := by
  intro calls
  induction calls with
  | nil =>
    intro lst l2 _ hinv h
    simp only [add_entries, Option.some.injEq] at h
    subst h
    exact ⟨hinv, rfl, rfl⟩
  | cons call calls ih =>
    intro lst l2 hT hinv h
    obtain ⟨heap, sz⟩ := call
    unfold add_entries at h
    by_cases hs : (axidma_add_entry heap lst sz).1 = add_entry_code.ADD_ENTRY_SUCCESS
    · rw [if_pos hs] at h
      obtain ⟨grp, sg2, hres, _, hslots, hphys⟩ := add_entry_success_spec heap lst sz hs
      rw [hres] at h
      obtain ⟨hp, hall, hle⟩ := slots_sorted lst.sg_plist hT _ _ _ hslots
      obtain ⟨hinv1, hinv2⟩ := hinv
      have hnew : chain_slots
          { lst with chain := lst.chain ++ grp, sg_offset := sg2,
                     data_offset := (lst.data_offset + sz) % 2 ^ 32 } := by
        constructor
        · simp only [List.map_append]
          rw [List.pairwise_append]
          refine ⟨hinv1, hp, ?_⟩
          intro a ha b hb
          obtain ⟨x, hx, rfl⟩ := List.mem_map.1 ha
          have h1 := (hinv2 x hx).1
          have h2 := (hall b hb).1
          omega
        · intro r hr
          simp only at hr ⊢
          rcases List.mem_append.1 hr with hr | hr
          · have := hinv2 r hr
            exact ⟨by omega, this.2⟩
          · have := (hall r.sg_offset (List.mem_map_of_mem _ hr)).2
            exact ⟨this, hphys r hr⟩
      exact ih { lst with chain := lst.chain ++ grp, sg_offset := sg2,
                          data_offset := (lst.data_offset + sz) % 2 ^ 32 } l2 hT hnew h
    · rw [if_neg hs] at h
      exact absurd h (by simp)

theorem find_wrap_state (k : Nat) (hk : k < 2 ^ 26) :
    find_contiguous_aligned_after plist_sg_4g (if k = 0 then 0 else 64 * k - 8)
      sizeof_sg_descriptor = 64 * k := by
  rw [sizeof_sg_descriptor_eq]
  have hlt : (if k = 0 then 0 else 64 * k - 8) < 4294967295 := by split <;> omega
  generalize hoff : (if k = 0 then 0 else 64 * k - 8) = off at hlt
  have hidx : get_entry_index plist_sg_4g off = some (0, off) := by
    unfold get_entry_index plist_sg_4g get_entry_index_from
    rw [if_neg (by simp only; omega)]
  unfold find_contiguous_aligned_after
  rw [hidx]
  dsimp only
  unfold plist_sg_4g
  simp only [List.drop]
  unfold find_contiguous_loop
  dsimp only
  have hadj : off + (if (0x100000000 + off) % 2 ^ 64 % 64 ≠ 0
      then 64 - (0x100000000 + off) % 2 ^ 64 % 64 else 0) = 64 * k := by
    split at hoff <;> split <;> omega
  generalize (if (0x100000000 + off) % 2 ^ 64 % 64 ≠ 0
      then 64 - (0x100000000 + off) % 2 ^ 64 % 64 else 0) = adj at hadj
  have e1 : (off + adj) % 2 ^ 32 = 64 * k := by omega
  rw [e1]
  rw [if_pos (by omega)]

theorem wrap_state_step (k : Nat) (hk : k < 2 ^ 26) :
    axidma_add_entry 1 (lst_wrap_state k) 1 =
      (add_entry_code.ADD_ENTRY_SUCCESS, lst_wrap_state (k + 1)) := by
  have hidx : get_entry_index plist_data_4g k = some (0, k) := by
    unfold get_entry_index plist_data_4g get_entry_index_from
    rw [if_neg (by simp only; omega)]
  have hfind := find_wrap_state k hk
  have hs := sizeof_sg_descriptor_eq
  unfold axidma_add_entry
  rw [if_neg (by omega)]
  have hdp : (lst_wrap_state k).data_plist = plist_data_4g := rfl
  have hdo : (lst_wrap_state k).data_offset = k := rfl
  have hsp : (lst_wrap_state k).sg_plist = plist_sg_4g := rfl
  have hso : (lst_wrap_state k).sg_offset = if k = 0 then 0 else 64 * k - 8 := rfl
  rw [hdp, hdo, hsp, hso, hidx]
  dsimp only
  have hdrop : List.drop 0 plist_data_4g = [{ addr := 0x200000000, len := 4294967295 }] := rfl
  rw [hdrop]
  dsimp only
  rw [add_entry_loop_fit _ _ _ _ _ _ _ _ _ _ (by omega) (by rw [hfind]; unfold AXIDMA_NOT_FOUND; omega)
    (by simp only; omega)]
  dsimp only
  rw [hfind]
  have hv : virt_to_phys plist_data_4g k = 0x200000000 + k := by
    unfold plist_data_4g virt_to_phys
    rw [if_neg (by simp only; omega)]
    simp only
    omega
  rw [hv]
  have hcur : (64 * k + sizeof_sg_descriptor) % 2 ^ 32 =
      if k + 1 = 0 then 0 else 64 * (k + 1) - 8 := by
    rw [if_neg (by omega)]; omega
  have hdat : (k + 1) % 2 ^ 32 = k + 1 := by omega
  rw [hcur, hdat]
  unfold lst_wrap_state
  simp only [List.nil_append, set_first_SOF, set_last_EOF, List.range_succ, List.map_append,
    List.map_cons, List.map_nil, wrap_record]
  rfl

theorem wrap_state_reach :
    ∀ (n k : Nat), k + n ≤ 2 ^ 26 →
      add_entries (lst_wrap_state k) (List.replicate n (1, 1)) = some (lst_wrap_state (k + n)) := by
  intro n
  induction n with
  | zero => intro k _; rfl
  | succ n ih =>
    intro k hk
    rw [List.replicate_succ]
    unfold add_entries
    rw [wrap_state_step k (by omega)]
    dsimp only
    rw [if_pos rfl, ih (k + 1) (by omega)]
    congr 2
    omega

theorem wrap_last_step (k : Nat) (hk : k = 67108864) :
    axidma_add_entry 1 (lst_wrap_state k) 1 =
      (add_entry_code.ADD_ENTRY_SUCCESS,
        { lst_wrap_fresh with
          chain := (List.range k).map wrap_record ++
            [{ sg_offset := 0, data_offset := k, buf_phys := 0x200000000 + k, len := 1,
               is_SOF := true, is_EOF := true }],
          sg_offset := 56,
          data_offset := k + 1 }) := by
  have hidx : get_entry_index plist_data_4g k = some (0, k) := by
    unfold get_entry_index plist_data_4g get_entry_index_from
    rw [if_neg (by simp only; omega)]
  have hfind : find_contiguous_aligned_after plist_sg_4g (if k = 0 then 0 else 64 * k - 8)
      sizeof_sg_descriptor = 0 := by
    rw [if_neg (by omega)]
    have : 64 * k - 8 = 4294967288 := by omega
    rw [this]
    decide
  have hs := sizeof_sg_descriptor_eq
  unfold axidma_add_entry
  rw [if_neg (by omega)]
  have hdp : (lst_wrap_state k).data_plist = plist_data_4g := rfl
  have hdo : (lst_wrap_state k).data_offset = k := rfl
  have hsp : (lst_wrap_state k).sg_plist = plist_sg_4g := rfl
  have hso : (lst_wrap_state k).sg_offset = if k = 0 then 0 else 64 * k - 8 := rfl
  rw [hdp, hdo, hsp, hso, hidx]
  dsimp only
  have hdrop : List.drop 0 plist_data_4g = [{ addr := 0x200000000, len := 4294967295 }] := rfl
  rw [hdrop]
  dsimp only
  rw [add_entry_loop_fit _ _ _ _ _ _ _ _ _ _ (by omega) (by rw [hfind]; unfold AXIDMA_NOT_FOUND; omega)
    (by simp only; omega)]
  dsimp only
  rw [hfind]
  have hv : virt_to_phys plist_data_4g k = 0x200000000 + k := by
    unfold plist_data_4g virt_to_phys
    rw [if_neg (by simp only; omega)]
    simp only
    omega
  rw [hv]
  have hcur : (0 + sizeof_sg_descriptor) % 2 ^ 32 = 56 := by omega
  have hdat : (k + 1) % 2 ^ 32 = k + 1 := by omega
  rw [hcur, hdat]
  unfold lst_wrap_state
  simp only [List.nil_append, set_first_SOF, set_last_EOF]
  rfl

theorem add_entries_append :
    ∀ (a b : List (Nat × Nat)) (lst l1 : sg_list), add_entries lst a = some l1 →
      add_entries lst (a ++ b) = add_entries l1 b := by
  intro a
  induction a with
  | nil =>
    intro b lst l1 h
    simp only [add_entries, Option.some.injEq] at h
    subst h
    rfl
  | cons call a ih =>
    intro b lst l1 h
    obtain ⟨heap, sz⟩ := call
    simp only [List.cons_append, add_entries] at h ⊢
    by_cases hs : (axidma_add_entry heap lst sz).1 = add_entry_code.ADD_ENTRY_SUCCESS
    · rw [if_pos hs] at h ⊢
      exact ih b _ l1 h
    · rw [if_neg hs] at h
      exact absurd h (by simp)

theorem wrap_reach :
    add_entries lst_wrap_fresh (List.replicate 67108864 (1, 1) ++ [(1, 1)]) = some lst_wrapped := by
  have h0 : lst_wrap_fresh = lst_wrap_state 0 := rfl
  have h1 := wrap_state_reach 67108864 0 (by norm_num)
  rw [← h0] at h1
  rw [add_entries_append _ _ _ _ h1]
  unfold add_entries
  have h2 := wrap_last_step (0 + 67108864) (by norm_num)
  rw [h2]
  dsimp only
  rw [if_pos rfl]
  unfold add_entries lst_wrapped
  rfl

theorem write_sg_entries_append_last (P : physlist) (s : sg_entry) :
    ∀ (l : List sg_entry) (e : sg_entry) (m : Mem),
      write_sg_entries P s (l ++ [e]) m =
        s2mm_write_sg_entry (write_sg_entries P e l m) P e s := by
  intro l
  induction l with
  | nil => intro e m; rfl
  | cons x l ih =>
    intro e m
    simp only [List.cons_append]
    rw [write_sg_entries_cons, write_sg_entries_cons, ih]
    have hh : (l ++ [e]).headD s = l.headD e := by cases l <;> rfl
    rw [hh]

theorem write_sg_list_mem (c : axidma_ctx) (lst : sg_list) (m : Mem) (hne : lst.chain ≠ []) :
    (axidma_write_sg_list (some c) (some lst) m).2.2 =
      write_sg_entries lst.sg_plist lst.sentinel lst.chain m := by
  obtain ⟨e, rest, hch⟩ := List.exists_cons_of_ne_nil hne
  simp [axidma_write_sg_list, hch]

theorem wrap_overwrites (c : axidma_ctx) (m0 : Mem) :
    wrap_record 0 ∈ lst_wrapped.chain ∧
      ¬ slot_holds (axidma_write_sg_list (some c) (some lst_wrapped) m0).2.2 (wrap_record 0) := by
  constructor
  · unfold lst_wrapped
    simp only [List.mem_append, List.mem_map, List.mem_range]
    exact Or.inl ⟨0, by norm_num, rfl⟩
  · rw [write_sg_list_mem c lst_wrapped m0 (by unfold lst_wrapped; simp)]
    have hch : lst_wrapped.chain = (List.range 67108864).map wrap_record ++
        [{ sg_offset := 0, data_offset := 67108864, buf_phys := 0x200000000 + 67108864, len := 1,
           is_SOF := true, is_EOF := true }] := rfl
    rw [hch, write_sg_entries_append_last]
    intro h
    obtain ⟨hb, _⟩ := h
    obtain ⟨b1, b2⟩ := s2mm_write_buffer
      (write_sg_entries lst_wrapped.sg_plist
        { sg_offset := 0, data_offset := 67108864, buf_phys := 0x200000000 + 67108864, len := 1,
          is_SOF := true, is_EOF := true }
        ((List.range 67108864).map wrap_record) m0)
      lst_wrapped.sg_plist
      { sg_offset := 0, data_offset := 67108864, buf_phys := 0x200000000 + 67108864, len := 1,
        is_SOF := true, is_EOF := true }
      lst_wrapped.sentinel
    have hz : (wrap_record 0).sg_offset = 0 := rfl
    have hp : (wrap_record 0).buf_phys = 0x200000000 := rfl
    rw [hz, hp] at hb
    simp only at b1 b2
    rw [b1, b2] at hb
    norm_num at hb

theorem dequeue_walk_end (m : Mem) :
    ∀ (rest : List sg_entry) (e : sg_entry) (i len : Nat) (code : buf_code),
      (dequeue_walk m e rest i len code).2.2 =
        i + min ((e :: rest).findIdx (fun e => decide (status_eof m e.sg_offset ≠ 0)))
          rest.length := by
  intro rest
  induction rest with
  | nil => intro e i len code; simp [dequeue_walk]
  | cons next rest ih =>
    intro e i len code
    unfold dequeue_walk
    dsimp only
    by_cases h0 : status_eof m e.sg_offset = 0
    · rw [if_pos h0, ih]
      rw [List.findIdx_cons (p := fun e => decide (status_eof m e.sg_offset ≠ 0)) (b := e)]
      simp only [h0, ne_eq, not_true_eq_false, decide_False, cond_false, List.length_cons]
      omega
    · rw [if_neg h0]
      rw [List.findIdx_cons (p := fun e => decide (status_eof m e.sg_offset ≠ 0)) (b := e)]
      simp [h0]

theorem dequeue_walk_result (m : Mem) :
    ∀ (rest : List sg_entry) (e : sg_entry) (i len : Nat) (code : buf_code),
      (dequeue_walk m e rest i len code).1 =
          (len + (((e :: rest).take
            (min ((e :: rest).findIdx (fun e => decide (status_eof m e.sg_offset ≠ 0)))
              rest.length + 1)).map (fun r => status_len m r.sg_offset)).sum) % 2 ^ 32 ∧
        (dequeue_walk m e rest i len code).2.1 =
          if ((e :: rest).take
            (min ((e :: rest).findIdx (fun e => decide (status_eof m e.sg_offset ≠ 0)))
              rest.length + 1)).any (status_failed m)
          then buf_code.TRANSFER_FAILED else code := by
  intro rest
  induction rest with
  | nil =>
    intro e i len code
    unfold dequeue_walk
    simp only [List.length_nil, Nat.min_zero, Nat.zero_add, List.take_succ_cons, List.take_zero,
      List.map_cons, List.map_nil, List.sum_cons, List.sum_nil, Nat.add_zero, List.any_cons,
      List.any_nil, Bool.or_false, status_failed, decide_eq_true_eq, true_and]
  | cons next rest ih =>
    intro e i len code
    unfold dequeue_walk
    dsimp only
    rw [List.findIdx_cons (p := fun e => decide (status_eof m e.sg_offset ≠ 0)) (b := e)]
    by_cases h0 : status_eof m e.sg_offset = 0
    · rw [if_pos h0]
      obtain ⟨h1, h2⟩ := ih next (i + 1) ((len + status_len m e.sg_offset) % 2 ^ 32)
        (if status_complete m e.sg_offset = 0 ∨ status_decode_err m e.sg_offset ≠ 0 ∨
          status_int_err m e.sg_offset ≠ 0 ∨ status_slave_err m e.sg_offset ≠ 0
         then buf_code.TRANSFER_FAILED else code)
      rw [h1, h2]
      simp only [h0, ne_eq, not_true_eq_false, decide_False, cond_false, List.length_cons,
        Nat.add_min_add_right, List.take_succ_cons, List.map_cons, List.sum_cons, List.any_cons]
      constructor
      · omega
      · by_cases hf : status_complete m e.sg_offset = 0 ∨ status_decode_err m e.sg_offset ≠ 0 ∨
            status_int_err m e.sg_offset ≠ 0 ∨ status_slave_err m e.sg_offset ≠ 0
        · have : status_failed m e = true := by simp only [status_failed, decide_eq_true_eq]; exact hf
          rw [if_pos hf, this]; simp
        · have : status_failed m e = false := by simp only [status_failed, decide_eq_false_iff_not]; exact hf
          rw [if_neg hf, this]; simp
    · rw [if_neg h0]
      simp only [h0, ne_eq, not_false_eq_true, decide_True, cond_true, Nat.zero_min, Nat.zero_add,
        List.take_succ_cons, List.take_zero, List.map_cons, List.map_nil, List.sum_cons,
        List.sum_nil, Nat.add_zero, List.any_cons, List.any_nil, Bool.or_false, status_failed,
        decide_eq_true_eq, true_and]

theorem dequeue_n_null (m : Mem) (lst : sg_list) :
    ∀ n, dequeue_n m n { lst with to_vist := cursor.null } =
      (List.replicate n end_of_list_buf, { lst with to_vist := cursor.null }) := by
  intro n
  induction n with
  | zero => rfl
  | succ n ih =>
    unfold dequeue_n
    have h : axidma_dequeue_s2mm_buf { lst with to_vist := cursor.null } m =
        (end_of_list_buf, { lst with to_vist := cursor.null }) := rfl
    rw [h]
    dsimp only
    rw [ih]
    rfl

theorem add_entry_to_vist (heap : Nat) (lst : sg_list) (sz : Nat) :
    (axidma_add_entry heap lst sz).2.to_vist = lst.to_vist := by
  unfold axidma_add_entry
  split
  · rfl
  · split
    · rfl
    · split
      · rfl
      · split <;> rfl

theorem dequeue_to_vist_null (lst : sg_list) (m : Mem)
    (h : (axidma_dequeue_s2mm_buf lst m).2.to_vist = cursor.null) :
    lst.to_vist = cursor.null ∨ lst.to_vist = cursor.sentinel := by
  unfold axidma_dequeue_s2mm_buf at h
  cases hc : lst.to_vist with
  | null => exact Or.inl rfl
  | sentinel => exact Or.inr rfl
  | entry i =>
    rw [hc] at h
    dsimp only at h
    cases hd : lst.chain.drop i with
    | nil => rw [hd] at h; dsimp only at h; rw [hc] at h; exact absurd h (by simp)
    | cons e rest =>
      rw [hd] at h
      dsimp only at h
      split at h <;> exact absurd h (by simp)

theorem traced_step_inv (s : traced_list) (op : list_op)
    (hs : s.lst.to_vist = cursor.null → s.positioned = false ∨ s.consumed = true) :
    (traced_step s op).lst.to_vist = cursor.null →
      (traced_step s op).positioned = false ∨ (traced_step s op).consumed = true := by
  cases op with
  | add heap sz =>
    intro h
    simp only [traced_step] at h ⊢
    rw [add_entry_to_vist] at h
    exact hs h
  | write ctx m =>
    intro h
    simp only [traced_step] at h ⊢
    cases ctx with
    | none =>
      simp only [axidma_write_sg_list, Option.getD_some] at h
      simpa using hs h
    | some c =>
      cases hch : s.lst.chain with
      | nil =>
        simp only [axidma_write_sg_list, hch, Option.getD_some] at h
        simpa using hs h
      | cons e rest =>
        simp only [axidma_write_sg_list, hch, Option.getD_some] at h
        exact absurd h (by simp)
  | dequeue m =>
    intro h
    simp only [traced_step] at h ⊢
    rcases dequeue_to_vist_null _ _ h with h0 | h0
    · rcases hs h0 with h1 | h1
      · exact Or.inl h1
      · right; simp [h1]
    · right; simp [h0]
  | reset =>
    intro h
    simp only [traced_step, axidma_reset_lst_traversal] at h
    split at h <;> exact absurd h (by simp)

theorem traced_run_inv :
    ∀ (ops : List list_op) (s : traced_list),
      (s.lst.to_vist = cursor.null → s.positioned = false ∨ s.consumed = true) →
      (traced_run s ops).lst.to_vist = cursor.null →
        (traced_run s ops).positioned = false ∨ (traced_run s ops).consumed = true := by
  intro ops
  induction ops with
  | nil => intro s hs; exact hs
  | cons op ops ih =>
    intro s hs
    unfold traced_run
    exact ih _ (traced_step_inv s op hs)

theorem count_EOF_eq : ∀ (chain : List sg_entry) (cnt : Nat),
    count_EOF cnt chain = cnt + chain.countP (fun e => e.is_EOF) := by
  intro chain
  induction chain with
  | nil => intro cnt; rfl
  | cons e rest ih =>
    intro cnt
    unfold count_EOF
    rw [ih, List.countP_cons]
    cases e.is_EOF <;> simp
    omega

theorem dmacr_value_mod (t : Bool) (cnt : Nat) : dmacr_value t cnt = dmacr_value t (cnt % 256) := by
  unfold dmacr_value
  rw [Nat.mod_mod]

set_option maxRecDepth 100000 in

theorem dmacr_value_field_small :
    ∀ x, x < 256 → ∀ t : Bool, dmacr_value t x / 2 ^ 16 % 256 = x ∧
      dmacr_value t x % 2 ^ 16 = 0x7001 ∧ dmacr_value t x / 2 ^ 24 = (if t then 200 else 0) := by
  decide

theorem dmacr_value_field (t : Bool) (cnt : Nat) :
    dmacr_value t cnt / 2 ^ 16 % 256 = cnt % 256 := by
  rw [dmacr_value_mod]
  exact (dmacr_value_field_small (cnt % 256) (Nat.mod_lt _ (by norm_num)) t).1

theorem transfer_started (c : axidma_ctx) (lst : sg_list) (w t : Bool) (hc : c.lst = true)
    (hcnt : lst.chain.countP (fun e => e.is_EOF) ≠ 0) :
    axidma_s2mm_transfer (some c) lst w t =
      { writes :=
          [(axidma_reg.S2MM_curdesc_lsb,
              virt_to_phys lst.sg_plist (lst.chain.headD lst.sentinel).sg_offset % 2 ^ 32),
           (axidma_reg.S2MM_curdesc_msb,
              virt_to_phys lst.sg_plist (lst.chain.headD lst.sentinel).sg_offset / 2 ^ 32
                % 2 ^ 32),
           (axidma_reg.S2MM_DMACR, dmacr_value t (lst.chain.countP (fun e => e.is_EOF))),
           (axidma_reg.S2MM_taildesc_lsb,
              virt_to_phys lst.sg_plist (lst.chain.getLastD lst.sentinel).sg_offset % 2 ^ 32),
           (axidma_reg.S2MM_taildesc_msb,
              virt_to_phys lst.sg_plist (lst.chain.getLastD lst.sentinel).sg_offset / 2 ^ 32
                % 2 ^ 32)],
        waited := w,
        lst := lst } := by
  unfold axidma_s2mm_transfer
  have h1 : count_EOF 0 lst.chain = lst.chain.countP (fun e => e.is_EOF) := by
    rw [count_EOF_eq, Nat.zero_add]
  simp only [hc, h1, Bool.true_eq_false, if_false, hcnt]

theorem add_entries_last_EOF :
    ∀ (calls : List (Nat × Nat)) (lst l2 : sg_list),
      (∀ e, lst.chain.getLast? = some e → e.is_EOF = true) →
      add_entries lst calls = some l2 →
      ∀ e, l2.chain.getLast? = some e → e.is_EOF = true := by
  intro calls
  induction calls with
  | nil =>
    intro lst l2 h0 h
    simp only [add_entries, Option.some.injEq] at h
    subst h
    exact h0
  | cons call calls ih =>
    intro lst l2 h0 h
    obtain ⟨heap, sz⟩ := call
    unfold add_entries at h
    by_cases hs : (axidma_add_entry heap lst sz).1 = add_entry_code.ADD_ENTRY_SUCCESS
    · rw [if_pos hs] at h
      obtain ⟨grp, sg2, hres, ⟨body, last, hgrp, _, hlast, _, _⟩, _, _⟩ :=
        add_entry_success_spec heap lst sz hs
      refine ih _ l2 ?_ h
      intro e he
      rw [hres, hgrp] at he
      simp only [← List.append_assoc, List.getLast?_append, List.getLast?_singleton,
        Option.or, Option.some.injEq] at he
      rw [← he]
      exact hlast
    · rw [if_neg hs] at h
      exact absurd h (by simp)

theorem add_entry_success_staged (heap : Nat) (lst : sg_list) (sz : Nat)
    (h : (axidma_add_entry heap lst sz).1 = add_entry_code.ADD_ENTRY_SUCCESS) :
    ∃ ind oie cur rest es sg2 d2,
      sz ≠ 0 ∧ get_entry_index lst.data_plist lst.data_offset = some (ind, oie) ∧
      lst.data_plist.drop ind = cur :: rest ∧
      add_entry_loop lst.sg_plist lst.data_plist rest cur heap oie sz lst.sg_offset
        lst.data_offset [] = staging.staged es sg2 d2 ∧
      (axidma_add_entry heap lst sz).2 =
        { lst with chain := lst.chain ++ set_last_EOF (set_first_SOF es), sg_offset := sg2,
                   data_offset := d2 } := by
  unfold axidma_add_entry at h ⊢
  by_cases hsz : sz = 0
  · simp [hsz] at h
  · cases hg : get_entry_index lst.data_plist lst.data_offset with
    | none => simp [hsz, hg] at h
    | some p =>
      obtain ⟨ind, oie⟩ := p
      cases hd : lst.data_plist.drop ind with
      | nil => simp [hsz, hg, hd] at h
      | cons cur rest =>
        cases hl : add_entry_loop lst.sg_plist lst.data_plist rest cur heap oie sz
            lst.sg_offset lst.data_offset [] with
        | error c =>
          simp only [hsz, hg, hd, hl, if_false] at h
          exact absurd h (add_entry_loop_error _ _ _ _ _ _ _ _ _ _ _ hl)
        | staged es s d =>
          refine ⟨ind, oie, cur, rest, es, s, d, hsz, rfl, hd, hl, ?_⟩
          simp [hsz, hg, hd, hl]

theorem set_last_EOF_SOF (l : List sg_entry) :
    (set_last_EOF l).map (fun e => e.is_SOF) = l.map (fun e => e.is_SOF) := by
  induction l with
  | nil => simp [set_last_EOF]
  | cons e l ih =>
    cases l with
    | nil => simp [set_last_EOF]
    | cons e2 l =>
      simp only [set_last_EOF, List.map_cons, List.cons.injEq, true_and]
      simpa using ih

theorem find_edge_state (k : Nat) (hk : k < 2 ^ 26 - 1) :
    find_contiguous_aligned_after plist_sg_edge (if k = 0 then 0 else 64 * k - 8)
      sizeof_sg_descriptor = 64 * k := by
  rw [sizeof_sg_descriptor_eq]
  have hlt : (if k = 0 then 0 else 64 * k - 8) < 4294967264 - 64 := by split <;> omega
  generalize hoff : (if k = 0 then 0 else 64 * k - 8) = off at hlt
  have hidx : get_entry_index plist_sg_edge off = some (0, off) := by
    unfold get_entry_index plist_sg_edge get_entry_index_from
    rw [if_neg (by simp only; omega)]
  unfold find_contiguous_aligned_after
  rw [hidx]
  dsimp only
  unfold plist_sg_edge
  simp only [List.drop]
  unfold find_contiguous_loop
  dsimp only
  have hadj : off + (if (0x100000000 + off) % 2 ^ 64 % 64 ≠ 0
      then 64 - (0x100000000 + off) % 2 ^ 64 % 64 else 0) = 64 * k := by
    split at hoff <;> split <;> omega
  generalize (if (0x100000000 + off) % 2 ^ 64 % 64 ≠ 0
      then 64 - (0x100000000 + off) % 2 ^ 64 % 64 else 0) = adj at hadj
  have e1 : (off + adj) % 2 ^ 32 = 64 * k := by omega
  rw [e1]
  rw [if_pos (by omega)]

theorem edge_state_step (k : Nat) (hk : k < 2 ^ 26 - 1) :
    axidma_add_entry 1 (lst_edge_state k) 1 =
      (add_entry_code.ADD_ENTRY_SUCCESS, lst_edge_state (k + 1)) := by
  have hidx : get_entry_index plist_data_4g k = some (0, k) := by
    unfold get_entry_index plist_data_4g get_entry_index_from
    rw [if_neg (by simp only; omega)]
  have hfind := find_edge_state k hk
  have hs := sizeof_sg_descriptor_eq
  unfold axidma_add_entry
  rw [if_neg (by omega)]
  have hdp : (lst_edge_state k).data_plist = plist_data_4g := rfl
  have hdo : (lst_edge_state k).data_offset = k := rfl
  have hsp : (lst_edge_state k).sg_plist = plist_sg_edge := rfl
  have hso : (lst_edge_state k).sg_offset = if k = 0 then 0 else 64 * k - 8 := rfl
  rw [hdp, hdo, hsp, hso, hidx]
  dsimp only
  have hdrop : List.drop 0 plist_data_4g = [{ addr := 0x200000000, len := 4294967295 }] := rfl
  rw [hdrop]
  dsimp only
  rw [add_entry_loop_fit _ _ _ _ _ _ _ _ _ _ (by omega) (by rw [hfind]; unfold AXIDMA_NOT_FOUND; omega)
    (by simp only; omega)]
  dsimp only
  rw [hfind]
  have hv : virt_to_phys plist_data_4g k = 0x200000000 + k := by
    unfold plist_data_4g virt_to_phys
    rw [if_neg (by simp only; omega)]
    simp only
    omega
  rw [hv]
  have hcur : (64 * k + sizeof_sg_descriptor) % 2 ^ 32 =
      if k + 1 = 0 then 0 else 64 * (k + 1) - 8 := by
    rw [if_neg (by omega)]; omega
  have hdat : (k + 1) % 2 ^ 32 = k + 1 := by omega
  rw [hcur, hdat]
  unfold lst_edge_state
  simp only [List.nil_append, set_first_SOF, set_last_EOF, List.range_succ, List.map_append,
    List.map_cons, List.map_nil, wrap_record]
  rfl

theorem edge_state_reach :
    ∀ (n k : Nat), k + n ≤ 2 ^ 26 - 1 →
      add_entries (lst_edge_state k) (List.replicate n (1, 1)) = some (lst_edge_state (k + n)) := by
  intro n
  induction n with
  | zero => intro k _; rfl
  | succ n ih =>
    intro k hk
    rw [List.replicate_succ]
    unfold add_entries
    rw [edge_state_step k (by omega)]
    dsimp only
    rw [if_pos rfl, ih (k + 1) (by omega)]
    congr 2
    omega

theorem edge_last_step (k : Nat) (hk : k = 67108863) :
    axidma_add_entry 1 (lst_edge_state k) 1 =
      (add_entry_code.ADD_ENTRY_SUCCESS,
        { lst_edge_fresh with
          chain := (List.range k).map wrap_record ++
            [{ sg_offset := 4294967264, data_offset := k, buf_phys := 0x200000000 + k, len := 1,
               is_SOF := true, is_EOF := true }],
          sg_offset := 24,
          data_offset := k + 1 }) := by
  have hidx : get_entry_index plist_data_4g k = some (0, k) := by
    unfold get_entry_index plist_data_4g get_entry_index_from
    rw [if_neg (by simp only; omega)]
  have hfind : find_contiguous_aligned_after plist_sg_edge (if k = 0 then 0 else 64 * k - 8)
      sizeof_sg_descriptor = 4294967264 := by
    rw [if_neg (by omega)]
    have : 64 * k - 8 = 4294967224 := by omega
    rw [this]
    decide
  have hs := sizeof_sg_descriptor_eq
  unfold axidma_add_entry
  rw [if_neg (by omega)]
  have hdp : (lst_edge_state k).data_plist = plist_data_4g := rfl
  have hdo : (lst_edge_state k).data_offset = k := rfl
  have hsp : (lst_edge_state k).sg_plist = plist_sg_edge := rfl
  have hso : (lst_edge_state k).sg_offset = if k = 0 then 0 else 64 * k - 8 := rfl
  rw [hdp, hdo, hsp, hso, hidx]
  dsimp only
  have hdrop : List.drop 0 plist_data_4g = [{ addr := 0x200000000, len := 4294967295 }] := rfl
  rw [hdrop]
  dsimp only
  rw [add_entry_loop_fit _ _ _ _ _ _ _ _ _ _ (by omega) (by rw [hfind]; unfold AXIDMA_NOT_FOUND; omega)
    (by simp only; omega)]
  dsimp only
  rw [hfind]
  have hv : virt_to_phys plist_data_4g k = 0x200000000 + k := by
    unfold plist_data_4g virt_to_phys
    rw [if_neg (by simp only; omega)]
    simp only
    omega
  rw [hv]
  have hcur : (4294967264 + sizeof_sg_descriptor) % 2 ^ 32 = 24 := by omega
  have hdat : (k + 1) % 2 ^ 32 = k + 1 := by omega
  rw [hcur, hdat]
  unfold lst_edge_state
  simp only [List.nil_append, set_first_SOF, set_last_EOF]
  rfl

theorem slots_from_last (P : physlist) :
    ∀ (offs : List Nat) (sg sg2 o : Nat), slots_from P sg offs sg2 →
      offs.getLast? = some o → sg2 = (o + sizeof_sg_descriptor) % 2 ^ 32 := by
  intro offs
  induction offs with
  | nil => intro sg sg2 o _ h; simp at h
  | cons a os ih =>
    intro sg sg2 o hs ho
    obtain ⟨_, _, hrest⟩ := hs
    cases os with
    | nil =>
      simp only [List.getLast?_singleton, Option.some.injEq] at ho
      simp only [slots_from] at hrest
      rw [hrest, ho]
    | cons b os =>
      rw [List.getLast?_cons_cons] at ho
      exact ih _ _ _ hrest ho

theorem span_overlaps_past :
    ∀ (l : List pinner_physlist_entry) (start c sz : Nat), c + sz ≤ start →
      span_overlaps l start c sz = [] := by
  intro l
  induction l with
  | nil => intro start c sz _; rfl
  | cons s rest ih =>
    intro start c sz h
    unfold span_overlaps
    rw [if_neg (by omega), ih _ _ _ (by omega)]
    rfl

theorem span_overlaps_shift :
    ∀ (l : List pinner_physlist_entry) (start c sz c2 sz2 : Nat), c ≤ start → c2 ≤ start →
      c + sz = c2 + sz2 → span_overlaps l start c sz = span_overlaps l start c2 sz2 := by
  intro l
  induction l with
  | nil => intro start c sz c2 sz2 _ _ _; rfl
  | cons s rest ih =>
    intro start c sz c2 sz2 h1 h2 h3
    unfold span_overlaps
    rw [ih (start + s.len) c sz c2 sz2 (by omega) (by omega) h3]
    have e1 : max start c = start := by omega
    have e2 : max start c2 = start := by omega
    rw [e1, e2, h3]

theorem span_overlaps_before :
    ∀ (pre l : List pinner_physlist_entry) (start c sz : Nat), start + plist_total pre ≤ c →
      span_overlaps (pre ++ l) start c sz = span_overlaps l (start + plist_total pre) c sz := by
  intro pre
  induction pre with
  | nil => intro l start c sz _; simp [plist_total]
  | cons s pre ih =>
    intro l start c sz h
    simp only [plist_total, List.map_cons, List.sum_cons] at h
    rw [List.cons_append]
    simp only [span_overlaps]
    rw [if_neg (by omega), ih l (start + s.len) c sz (by unfold plist_total; omega)]
    simp only [plist_total, List.map_cons, List.sum_cons, List.nil_append, Nat.add_assoc]

theorem span_overlaps_cons_fit (s : pinner_physlist_entry) (rest : List pinner_physlist_entry)
    (start d sz : Nat) (h1 : start ≤ d) (h2 : sz ≠ 0) (h3 : d + sz ≤ start + s.len) :
    span_overlaps (s :: rest) start d sz = [(d, sz, s.addr + (d - start))] := by
  simp only [span_overlaps]
  rw [span_overlaps_past rest _ _ _ h3]
  have e1 : max start d = d := by omega
  have e2 : min (start + s.len) (d + sz) = d + sz := by omega
  rw [e1, e2, if_pos (by omega)]
  simp

theorem span_overlaps_cons_more (s : pinner_physlist_entry) (rest : List pinner_physlist_entry)
    (start d sz : Nat) (h1 : start ≤ d) (h2 : d < start + s.len) (h3 : start + s.len < d + sz) :
    span_overlaps (s :: rest) start d sz =
      (d, start + s.len - d, s.addr + (d - start)) ::
        span_overlaps rest (start + s.len) (start + s.len) (d + sz - (start + s.len)) := by
  simp only [span_overlaps]
  rw [span_overlaps_shift rest (start + s.len) d sz (start + s.len) (d + sz - (start + s.len))
    (by omega) (le_refl _) (by omega)]
  have e1 : max start d = d := by omega
  have e2 : min (start + s.len) (d + sz) = start + s.len := by omega
  rw [e1, e2, if_pos h2]
  rfl

theorem virt_to_phys_at :
    ∀ (pre : List pinner_physlist_entry) (cur : pinner_physlist_entry)
      (rest : List pinner_physlist_entry) (oie : Nat), oie < cur.len →
      virt_to_phys (pre ++ cur :: rest) (plist_total pre + oie) = (cur.addr + oie) % 2 ^ 64 := by
  intro pre
  induction pre with
  | nil =>
    intro cur rest oie h
    simp only [List.nil_append, plist_total, List.map_nil, List.sum_nil, Nat.zero_add]
    unfold virt_to_phys
    rw [if_neg (by omega)]
  | cons s pre ih =>
    intro cur rest oie h
    simp only [List.cons_append, plist_total, List.map_cons, List.sum_cons]
    unfold virt_to_phys
    rw [if_pos (by omega)]
    have e : s.len + (pre.map (fun e => e.len)).sum + oie - s.len = plist_total pre + oie := by
      unfold plist_total; omega
    rw [e]
    exact ih cur rest oie h

theorem add_entry_loop_overlaps (P D : physlist)
    (hD : ∀ s ∈ D, 0 < s.len ∧ s.len < 2 ^ 32 ∧ s.addr + s.len ≤ 2 ^ 64) :
    ∀ (rest : List pinner_physlist_entry) (cur : pinner_physlist_entry)
      (pre : List pinner_physlist_entry) (heap oie sz sg d : Nat) (acc es : List sg_entry)
      (sg2 d2 : Nat),
      D = pre ++ cur :: rest → oie < cur.len → d = plist_total pre + oie → d + sz ≤ 2 ^ 32 →
      sz ≠ 0 →
      add_entry_loop P D rest cur heap oie sz sg d acc = staging.staged es sg2 d2 →
      ∃ new, es = acc ++ new ∧
        new.map (fun e => (e.data_offset, e.len, e.buf_phys)) =
          span_overlaps (cur :: rest) (plist_total pre) d sz := by
  intro rest
  induction rest with
  | nil =>
    intro cur pre heap oie sz sg d acc es sg2 d2 hsplit hoie hd hrange hsz h
    obtain ⟨_, hlen, haddr⟩ := hD cur (by rw [hsplit]; simp)
    have hsp : (cur.len + 2 ^ 32 - oie) % 2 ^ 32 = cur.len - oie := by omega
    have hv : virt_to_phys D d = cur.addr + oie := by
      rw [hsplit, hd, virt_to_phys_at pre cur [] oie hoie]
      exact Nat.mod_eq_of_lt (by omega)
    unfold add_entry_loop at h
    rw [if_neg hsz] at h
    dsimp only at h
    by_cases hf : find_contiguous_aligned_after P sg sizeof_sg_descriptor = AXIDMA_NOT_FOUND
    · rw [if_pos hf] at h; exact absurd h (by simp)
    · rw [if_neg hf] at h
      cases heap with
      | zero => exact absurd h (by simp)
      | succ heap =>
        dsimp only at h
        rw [hsp] at h
        by_cases hlt : cur.len - oie < sz
        · rw [if_pos hlt] at h; exact absurd h (by simp)
        · rw [if_neg hlt] at h
          simp only [staging.staged.injEq] at h
          obtain ⟨rfl, rfl, rfl⟩ := h
          refine ⟨_, rfl, ?_⟩
          rw [span_overlaps_cons_fit cur [] (plist_total pre) d sz (by omega) hsz (by omega)]
          simp only [List.map_cons, List.map_nil, hv, List.cons.injEq, Prod.mk.injEq, and_true,
            true_and]
          omega
  | cons next rest ih =>
    intro cur pre heap oie sz sg d acc es sg2 d2 hsplit hoie hd hrange hsz h
    obtain ⟨_, hlen, haddr⟩ := hD cur (by rw [hsplit]; simp)
    obtain ⟨hnext, _, _⟩ := hD next (by rw [hsplit]; simp)
    have hsp : (cur.len + 2 ^ 32 - oie) % 2 ^ 32 = cur.len - oie := by omega
    have hv : virt_to_phys D d = cur.addr + oie := by
      rw [hsplit, hd, virt_to_phys_at pre cur (next :: rest) oie hoie]
      exact Nat.mod_eq_of_lt (by omega)
    unfold add_entry_loop at h
    rw [if_neg hsz] at h
    dsimp only at h
    by_cases hf : find_contiguous_aligned_after P sg sizeof_sg_descriptor = AXIDMA_NOT_FOUND
    · rw [if_pos hf] at h; exact absurd h (by simp)
    · rw [if_neg hf] at h
      cases heap with
      | zero => exact absurd h (by simp)
      | succ heap =>
        dsimp only at h
        rw [hsp] at h
        by_cases hlt : cur.len - oie < sz
        · rw [if_pos hlt] at h
          have htot : plist_total (pre ++ [cur]) = plist_total pre + cur.len := by
            simp [plist_total]
          have hd' : (d + (cur.len - oie)) % 2 ^ 32 = plist_total (pre ++ [cur]) + 0 := by
            rw [htot]; omega
          obtain ⟨new, hes, hnew⟩ :=
            ih next (pre ++ [cur]) heap 0 (sz - (cur.len - oie)) _ _ _ es sg2 d2
              (by rw [hsplit]; simp) hnext hd' (by omega) (by omega) h
          refine ⟨{ sg_offset := find_contiguous_aligned_after P sg sizeof_sg_descriptor,
                    data_offset := d, buf_phys := virt_to_phys D d,
                    len := cur.len - oie, is_SOF := false, is_EOF := false } :: new, ?_, ?_⟩
          · rw [hes]; simp
          · rw [span_overlaps_cons_more cur (next :: rest) (plist_total pre) d sz (by omega)
              (by omega) (by omega)]
            rw [List.map_cons, hnew, hv, htot]
            have e1 : (d + (cur.len - oie)) % 2 ^ 32 = plist_total pre + cur.len := by omega
            have e2 : sz - (cur.len - oie) = d + sz - (plist_total pre + cur.len) := by omega
            have e3 : plist_total pre + cur.len - d = cur.len - oie := by omega
            have e4 : d - plist_total pre = oie := by omega
            rw [e1, e2, e3, e4]
        · rw [if_neg hlt] at h
          simp only [staging.staged.injEq] at h
          obtain ⟨rfl, rfl, rfl⟩ := h
          refine ⟨_, rfl, ?_⟩
          rw [span_overlaps_cons_fit cur (next :: rest) (plist_total pre) d sz (by omega) hsz
            (by omega)]
          simp only [List.map_cons, List.map_nil, hv, List.cons.injEq, Prod.mk.injEq, and_true,
            true_and]
          omega

theorem span_overlaps_mem :
    ∀ (l : List pinner_physlist_entry) (start c sz : Nat) (x : Nat × Nat × Nat),
      x ∈ span_overlaps l start c sz →
      ∃ pre s post, l = pre ++ s :: post ∧
        start + plist_total pre ≤ x.1 ∧ x.1 + x.2.1 ≤ start + plist_total pre + s.len ∧
        c ≤ x.1 ∧ x.1 + x.2.1 ≤ c + sz ∧ 0 < x.2.1 ∧
        x.2.2 = s.addr + (x.1 - (start + plist_total pre)) := by
  intro l
  induction l with
  | nil => intro start c sz x h; simp [span_overlaps] at h
  | cons s rest ih =>
    intro start c sz x h
    simp only [span_overlaps, List.mem_append] at h
    rcases h with h | h
    · by_cases hlt : max start c < min (start + s.len) (c + sz)
      · rw [if_pos hlt] at h
        simp only [List.mem_singleton] at h
        subst h
        have h0 : plist_total [] = 0 := rfl
        refine ⟨[], s, rest, rfl, ?_, ?_, ?_, ?_, ?_, ?_⟩
        · rw [h0]; dsimp only; omega
        · rw [h0]; dsimp only; omega
        · dsimp only; omega
        · dsimp only; omega
        · dsimp only; omega
        · rw [h0]; rfl
      · rw [if_neg hlt] at h
        simp at h
    · obtain ⟨pre, s2, post, hl, h1, h2, h3, h4, h5, h6⟩ := ih _ _ _ x h
      refine ⟨s :: pre, s2, post, by rw [hl]; rfl, ?_⟩
      simp only [plist_total, List.map_cons, List.sum_cons] at h1 h2 h6 ⊢
      refine ⟨by omega, by omega, h3, h4, h5, ?_⟩
      rw [h6]
      congr 2
      omega

theorem set_first_SOF_triple (l : List sg_entry) :
    (set_first_SOF l).map (fun e => (e.data_offset, e.len, e.buf_phys)) =
      l.map (fun e => (e.data_offset, e.len, e.buf_phys)) := by
  cases l <;> simp [set_first_SOF]

theorem set_last_EOF_triple (l : List sg_entry) :
    (set_last_EOF l).map (fun e => (e.data_offset, e.len, e.buf_phys)) =
      l.map (fun e => (e.data_offset, e.len, e.buf_phys)) := by
  induction l with
  | nil => simp [set_last_EOF]
  | cons e l ih =>
    cases l with
    | nil => simp [set_last_EOF]
    | cons e2 l =>
      simp only [set_last_EOF, List.map_cons, List.cons.injEq, true_and]
      simpa using ih

theorem status_len_sum_le (m : Mem) :
    ∀ (l : List sg_entry),
      (l.map (fun r => status_len m r.sg_offset)).sum ≤ l.length * (2 ^ 26 - 1) := by
  intro l
  induction l with
  | nil => simp
  | cons e l ih =>
    have h : status_len m e.sg_offset < 2 ^ 26 := by
      unfold status_len load_bits
      exact Nat.mod_lt _ (by norm_num)
    simp only [List.map_cons, List.sum_cons, List.length_cons]
    omega

theorem get_entry_index_from_none :
    ∀ (plist : List pinner_physlist_entry) (i offset : Nat),
      get_entry_index_from i plist offset = none ↔ plist_total plist ≤ offset := by
  intro plist
  induction plist with
  | nil => intro i offset; simp [get_entry_index_from, plist_total]
  | cons e rest ih =>
    intro i offset
    unfold get_entry_index_from
    simp only [plist_total, List.map_cons, List.sum_cons]
    by_cases hge : offset ≥ e.len
    · rw [if_pos hge, ih]
      unfold plist_total
      omega
    · rw [if_neg hge]
      simp only [reduceCtorEq, false_iff]
      omega

theorem virt_to_phys_past :
    ∀ (plist : List pinner_physlist_entry) (offset : Nat), plist_total plist ≤ offset →
      virt_to_phys plist offset = 0 := by
  intro plist
  induction plist with
  | nil => intro offset _; rfl
  | cons e rest ih =>
    intro offset h
    simp only [plist_total, List.map_cons, List.sum_cons] at h
    unfold virt_to_phys
    rw [if_pos (by omega)]
    exact ih _ (by unfold plist_total; omega)

theorem add_entry_fail_unchanged (heap : Nat) (lst : sg_list) (sz : Nat)
    (h : (axidma_add_entry heap lst sz).1 ≠ add_entry_code.ADD_ENTRY_SUCCESS) :
    (axidma_add_entry heap lst sz).2 = lst := by
  unfold axidma_add_entry at h ⊢
  by_cases hsz : sz = 0
  · simp [hsz]
  · cases hg : get_entry_index lst.data_plist lst.data_offset with
    | none => simp [hsz, hg]
    | some p =>
      obtain ⟨ind, oie⟩ := p
      cases hd : lst.data_plist.drop ind with
      | nil => simp [hsz, hg, hd]
      | cons cur rest =>
        cases hl : add_entry_loop lst.sg_plist lst.data_plist rest cur heap oie sz
            lst.sg_offset lst.data_offset [] with
        | error c => simp [hsz, hg, hd, hl]
        | staged es s d => simp [hsz, hg, hd, hl] at h

theorem add_calls_of_add_entries :
    ∀ (calls : List (Nat × Nat)) (lst l2 : sg_list), add_entries lst calls = some l2 →
      add_calls lst calls = l2 := by
  intro calls
  induction calls with
  | nil =>
    intro lst l2 h
    simp only [add_entries, Option.some.injEq] at h
    exact h
  | cons call calls ih =>
    intro lst l2 h
    obtain ⟨heap, sz⟩ := call
    unfold add_entries at h
    unfold add_calls
    by_cases hs : (axidma_add_entry heap lst sz).1 = add_entry_code.ADD_ENTRY_SUCCESS
    · rw [if_pos hs] at h
      exact ih _ l2 h
    · rw [if_neg hs] at h
      exact absurd h (by simp)

theorem add_calls_slots :
    ∀ (calls : List (Nat × Nat)) (lst : sg_list),
      plist_total lst.sg_plist + 120 ≤ 2 ^ 32 → chain_slots lst →
      chain_slots (add_calls lst calls) := by
  intro calls
  induction calls with
  | nil => intro lst _ hinv; exact hinv
  | cons call calls ih =>
    intro lst hT hinv
    obtain ⟨heap, sz⟩ := call
    unfold add_calls
    by_cases hs : (axidma_add_entry heap lst sz).1 = add_entry_code.ADD_ENTRY_SUCCESS
    · have h1 : add_entries lst [(heap, sz)] = some (axidma_add_entry heap lst sz).2 := by
        simp [add_entries, hs]
      obtain ⟨hinv2, hpl, _⟩ := add_entries_slots [(heap, sz)] lst _ hT hinv h1
      exact ih _ (by rw [hpl]; exact hT) hinv2
    · rw [add_entry_fail_unchanged heap lst sz hs]
      exact ih lst hT hinv

theorem add_entry_success_markers (heap : Nat) (lst : sg_list) (sz : Nat)
    (h : (axidma_add_entry heap lst sz).1 = add_entry_code.ADD_ENTRY_SUCCESS) :
    ∃ grp, (axidma_add_entry heap lst sz).2.chain = lst.chain ++ grp ∧ frame_group grp := by
  obtain ⟨ind, oie, cur, rest, es, sg2, d2, hsz, _, _, hl, hres⟩ :=
    add_entry_success_staged heap lst sz h
  obtain ⟨e0, tail, hes, _, _, _, hall, _⟩ :=
    add_entry_loop_spec _ _ _ _ _ _ _ _ _ _ _ _ _ hsz hl
  simp only [List.nil_append] at hes
  subst hes
  obtain ⟨_, _, _, f4, _⟩ := set_first_SOF_fields (e0 :: tail)
  have hne : set_first_SOF (e0 :: tail) ≠ [] := by simp [set_first_SOF]
  have hno : ∀ e ∈ set_first_SOF (e0 :: tail), e.is_EOF = false := by
    intro e he
    have : e.is_EOF ∈ (set_first_SOF (e0 :: tail)).map (fun e => e.is_EOF) :=
      List.mem_map_of_mem _ he
    rw [f4] at this
    obtain ⟨x, hx, hxe⟩ := List.mem_map.1 this
    rw [← hxe]; exact (hall x hx).1
  obtain ⟨body, last, hb, hbody, hlast⟩ := set_last_EOF_split _ hne hno
  have hsof := set_last_EOF_SOF (set_first_SOF (e0 :: tail))
  cases hgrp : set_last_EOF (set_first_SOF (e0 :: tail)) with
  | nil => rw [hgrp] at hb; exact absurd hb (by simp)
  | cons first others =>
    rw [hgrp] at hb hsof
    simp only [set_first_SOF, List.map_cons, List.cons.injEq] at hsof
    obtain ⟨hfirst, hothers⟩ := hsof
    have hoth : ∀ e ∈ others, e.is_SOF = false := by
      intro e he
      have : e.is_SOF ∈ others.map (fun e => e.is_SOF) := List.mem_map_of_mem _ he
      rw [hothers] at this
      obtain ⟨x, hx, hxe⟩ := List.mem_map.1 this
      rw [← hxe]; exact (hall x (List.mem_cons_of_mem _ hx)).2.1
    refine ⟨first :: others, by rw [hres, hgrp], first, others, body, last, rfl, hb, hfirst,
      hoth, hlast, hbody⟩

theorem frame_group_count (g : List sg_entry) (h : frame_group g) :
    g.countP (fun e => e.is_EOF) = 1 ∧ g ≠ [] := by
  obtain ⟨first, others, body, last, h1, h2, _, _, hlast, hbody⟩ := h
  refine ⟨?_, by rw [h1]; simp⟩
  rw [h2, List.countP_append]
  have hb : body.countP (fun e => e.is_EOF) = 0 := by
    rw [List.countP_eq_zero]
    intro e he
    simp [hbody e he]
  rw [hb]
  simp [hlast]

theorem add_calls_groups :
    ∀ (calls : List (Nat × Nat)) (lst : sg_list),
      ∃ groups : List (List sg_entry),
        (add_calls lst calls).chain = lst.chain ++ groups.flatten ∧
        groups.length = add_calls_successes lst calls ∧ ∀ g ∈ groups, frame_group g := by
  intro calls
  induction calls with
  | nil => intro lst; exact ⟨[], by simp [add_calls], rfl, by simp⟩
  | cons call calls ih =>
    intro lst
    obtain ⟨heap, sz⟩ := call
    unfold add_calls add_calls_successes
    obtain ⟨groups, hch, hlen, hall⟩ := ih (axidma_add_entry heap lst sz).2
    by_cases hs : (axidma_add_entry heap lst sz).1 = add_entry_code.ADD_ENTRY_SUCCESS
    · obtain ⟨grp, hgrp, hfg⟩ := add_entry_success_markers heap lst sz hs
      refine ⟨grp :: groups, ?_, ?_, ?_⟩
      · rw [hch, hgrp]; simp
      · rw [if_pos hs, List.length_cons, hlen]; omega
      · intro g hg
        rcases List.mem_cons.1 hg with rfl | hg
        · exact hfg
        · exact hall g hg
    · refine ⟨groups, ?_, ?_, hall⟩
      · rw [hch, add_entry_fail_unchanged heap lst sz hs]
      · rw [if_neg hs, hlen]; omega

theorem groups_count :
    ∀ (groups : List (List sg_entry)), (∀ g ∈ groups, frame_group g) →
      groups.flatten.countP (fun e => e.is_EOF) = groups.length := by
  intro groups
  induction groups with
  | nil => intro _; rfl
  | cons g groups ih =>
    intro h
    rw [List.flatten_cons, List.countP_append, ih (fun x hx => h x (List.mem_cons_of_mem _ hx)),
      (frame_group_count g (h g (List.mem_cons_self _ _))).1, List.length_cons]
    omega

theorem s2mm_write_control_len (m : Mem) (P : physlist) (e n : sg_entry) :
    control_len (s2mm_write_sg_entry m P e n) e.sg_offset = e.len % 2 ^ 26 := by
  have hc := s2mm_write_control_word m P e n
  have hs : flag e.is_SOF < 2 := by unfold flag; split <;> omega
  have he : flag e.is_EOF < 2 := by unfold flag; split <;> omega
  unfold control_len load_bits
  rw [hc]
  generalize read32 m (e.sg_offset + 24) = old
  generalize flag e.is_SOF = s at hs ⊢
  generalize flag e.is_EOF = f at he ⊢
  omega

theorem add_entry_whole_span (g : sg_entry) (sg_buf data_buf heap a sa L : Nat)
    (hL : 0 < L) (hL2 : L < 2 ^ 32) (hsa : sa % 64 = 0) :
    axidma_add_entry (heap + 1)
        (axidma_list_new g sg_buf [{ addr := sa, len := 4096 }] data_buf
          [{ addr := a, len := L }]) L =
      (add_entry_code.ADD_ENTRY_SUCCESS,
        { sentinel := g,
          chain := [{ sg_offset := 0, data_offset := 0, buf_phys := a % 2 ^ 64, len := L,
                      is_SOF := true, is_EOF := true }],
          to_vist := cursor.null, sg_buf := sg_buf,
          sg_offset := 56,
          sg_plist := [{ addr := sa, len := 4096 }], data_buf := data_buf,
          data_offset := L,
          data_plist := [{ addr := a, len := L }] }) := by
  have hidx : get_entry_index [({ addr := a, len := L } : pinner_physlist_entry)] 0
      = some (0, 0) := by
    unfold get_entry_index get_entry_index_from
    rw [if_neg (by simp only; omega)]
  have hfind : find_contiguous_aligned_after [{ addr := sa, len := 4096 }] 0
      sizeof_sg_descriptor = 0 := by
    rw [sizeof_sg_descriptor_eq]; exact find_fresh_first sa hsa
  have hs := sizeof_sg_descriptor_eq
  unfold axidma_add_entry axidma_list_new
  rw [if_neg (by omega)]
  simp only [hidx, List.drop]
  rw [add_entry_loop_fit _ _ _ _ _ _ _ _ _ _ (by omega)
    (by rw [hfind]; unfold AXIDMA_NOT_FOUND; omega) (by simp only; omega)]
  simp only [hfind, List.nil_append, set_first_SOF, set_last_EOF]
  have hv : virt_to_phys [({ addr := a, len := L } : pinner_physlist_entry)] 0 = a % 2 ^ 64 := by
    unfold virt_to_phys
    rw [if_neg (by simp only; omega)]
    rfl
  have h1 : (0 + sizeof_sg_descriptor) % 2 ^ 32 = 56 := by omega
  have h2 : (0 + L) % 2 ^ 32 = L := by omega
  rw [hv, h1, h2]

theorem suitable_past (plist : physlist) (sz O : Nat) (h : plist_total plist ≤ O) :
    suitable plist sz O = false := by
  have h0 : get_entry_index plist O = none := (get_entry_index_from_none plist 0 O).2 h
  unfold suitable
  rw [h0]

theorem find_contiguous_past (plist : physlist) (s sz : Nat) (h : plist_total plist ≤ s) :
    find_contiguous_aligned_after plist s sz = AXIDMA_NOT_FOUND := by
  have h0 : get_entry_index plist s = none := (get_entry_index_from_none plist 0 s).2 h
  unfold find_contiguous_aligned_after
  rw [h0]

theorem lor_page_mask (a : Nat) : (a ||| (2 ^ 12 - 1)) - (2 ^ 12 - 1) = a - a % 2 ^ 12 := by
  have hr : a % 2 ^ 12 < 2 ^ 12 := Nat.mod_lt _ (by norm_num)
  have hdecomp : 2 ^ 12 * (a / 2 ^ 12) + a % 2 ^ 12 = a := Nat.div_add_mod a (2 ^ 12)
  have h1 : 2 ^ 12 * (a / 2 ^ 12) ||| a % 2 ^ 12 = a := by
    rw [← Nat.mul_add_lt_is_or hr]; exact hdecomp
  have h2 : a % 2 ^ 12 ||| (2 ^ 12 - 1) = 2 ^ 12 - 1 := by
    apply Nat.eq_of_testBit_eq
    intro i
    rw [Nat.testBit_or, Nat.testBit_two_pow_sub_one]
    by_cases hi : i < 12
    · simp [hi]
    · have : (a % 2 ^ 12).testBit i = false :=
        Nat.testBit_lt_two_pow (lt_of_lt_of_le hr (Nat.pow_le_pow_right (by norm_num) (by omega)))
      rw [this]
      simp [hi]
  have h3 : a ||| (2 ^ 12 - 1) = 2 ^ 12 * (a / 2 ^ 12) + (2 ^ 12 - 1) := by
    conv_lhs => rw [← h1]
    rw [Nat.lor_assoc, h2]
    exact (Nat.mul_add_lt_is_or (by norm_num) _).symm
  rw [h3]
  omega

theorem physlist_of_sglist_lens :
    ∀ (l : List (Nat × Nat)) (k : Nat) (page_phys : Nat → Nat),
      ((l.enumFrom k).map
        (fun p => ({ addr := (page_phys p.1 + p.2.2) % 2 ^ 64, len := p.2.1 } :
          pinner_physlist_entry))).map (fun e => e.len) = l.map Prod.fst := by
  intro l
  induction l with
  | nil => intro k page_phys; rfl
  | cons x l ih =>
    intro k page_phys
    simp only [List.enumFrom_cons, List.map_cons, List.cons.injEq, true_and]
    exact ih (k + 1) page_phys

theorem pinner_do_pin_lens (page_phys : Nat → Nat) (env : Option Nat) (usr_buf sz : Nat)
    (pl : physlist) (hsz2 : sz < 2 ^ 32)
    (h : pinner_do_pin page_phys env usr_buf sz = Except.ok pl) :
    1 ≤ (usr_buf % 4096 + sz + 4095) / 4096 ∧ (usr_buf % 4096 + sz + 4095) / 4096 ≤ 1024 ∧
      pl.map (fun e => e.len) =
        [if sz < 4096 - usr_buf % 4096 then sz else 4096 - usr_buf % 4096] ++
          List.replicate ((usr_buf % 4096 + sz + 4095) / 4096 - 2) 4096 ++
          (if (usr_buf % 4096 + sz + 4095) / 4096 > 1 then
            [sz - (4096 - usr_buf % 4096) - ((usr_buf % 4096 + sz + 4095) / 4096 - 2) * 4096]
          else []) := by
  have hfpo : usr_buf - ((usr_buf ||| (2 ^ 12 - 1)) - (2 ^ 12 - 1)) = usr_buf % 4096 := by
    rw [lor_page_mask]
    have := Nat.mod_le usr_buf (2 ^ 12)
    omega
  have hmod : usr_buf % 4096 < 4096 := Nat.mod_lt _ (by norm_num)
  unfold pinner_do_pin at h
  simp only [PAGE_SHIFT, PINNER_MAX_PAGES, hfpo] at h
  have e1 : (2 : Nat) ^ 12 = 4096 := by norm_num
  have e2 : (4096 : Nat) - 1 = 4095 := by norm_num
  rw [e1, e2] at h
  generalize hn : (usr_buf % 4096 + sz + 4095) / 4096 = n at h ⊢
  by_cases hbig : n > 1024
  · rw [if_pos hbig] at h; exact absurd h (by simp)
  rw [if_neg hbig] at h
  by_cases hzero : n ≤ 0
  · rw [if_pos hzero] at h; exact absurd h (by simp)
  rw [if_neg hzero] at h
  cases env with
  | some errno => exact absurd h (by simp)
  | none =>
    simp only [Except.ok.injEq] at h
    refine ⟨by omega, by omega, ?_⟩
    rw [← h]
    unfold List.enum
    rw [physlist_of_sglist_lens]
    unfold pinner_alloc_and_fill_sglist
    simp only [PAGE_SIZE, PAGE_SHIFT, e1]
    have hroom : (4096 + 2 ^ 64 - usr_buf % 4096) % 2 ^ 64 = 4096 - usr_buf % 4096 := by omega
    rw [hroom]
    simp only [List.map_append, List.map_cons, List.map_nil, List.map_replicate]
    have hfirst : (if sz < 4096 - usr_buf % 4096 then sz else (4096 - usr_buf % 4096) % 2 ^ 32)
        = if sz < 4096 - usr_buf % 4096 then sz else 4096 - usr_buf % 4096 := by
      split
      · rfl
      · omega
    rw [hfirst]
    by_cases h1 : n > 1
    · rw [if_pos h1, if_pos h1]
      have hlast : (sz + 2 * 2 ^ 64 - (4096 - usr_buf % 4096) - (n - 2) * 4096 % 2 ^ 64) % 2 ^ 64
          % 2 ^ 32 = sz - (4096 - usr_buf % 4096) - (n - 2) * 4096 := by omega
      rw [hlast]
      rfl
    · rw [if_neg h1, if_neg h1]
      rfl

theorem pinner_do_pin_spans (page_phys : Nat → Nat) (env : Option Nat) (usr_buf sz : Nat)
    (pl : physlist) (hsz : 1 ≤ sz) (hsz2 : sz < 2 ^ 32)
    (h : pinner_do_pin page_phys env usr_buf sz = Except.ok pl) :
    plist_total pl = sz ∧ (∀ e ∈ pl, 1 ≤ e.len ∧ e.len ≤ PAGE_SIZE) ∧
      pl.length = (usr_buf % PAGE_SIZE + sz + PAGE_SIZE - 1) / PAGE_SIZE ∧
      pl.length ≤ PINNER_MAX_PAGES := by
  obtain ⟨h1, h2, hl⟩ := pinner_do_pin_lens page_phys env usr_buf sz pl hsz2 h
  have hmod : usr_buf % 4096 < 4096 := Nat.mod_lt _ (by norm_num)
  have hP : PAGE_SIZE = 4096 := by decide
  have hM : PINNER_MAX_PAGES = 1024 := rfl
  have hlen : pl.length = (usr_buf % 4096 + sz + 4095) / 4096 := by
    have := congrArg List.length hl
    rw [List.length_map] at this
    rw [this]
    simp only [List.length_append, List.length_cons, List.length_nil, List.length_replicate]
    split <;> simp <;> omega
  rw [hP, hM]
  generalize hn : (usr_buf % 4096 + sz + 4095) / 4096 = n at h1 h2 hl hlen
  have hn2 : (usr_buf % 4096 + sz + 4096 - 1) / 4096 = n := by
    rw [← hn]
    congr 1
  refine ⟨?_, ?_, by rw [hlen, hn2], by omega⟩
  · unfold plist_total
    rw [hl]
    simp only [List.sum_append, List.sum_cons, List.sum_nil, List.sum_replicate, smul_eq_mul]
    by_cases hgt : n > 1
    · rw [if_pos hgt]
      simp only [List.sum_cons, List.sum_nil]
      split <;> omega
    · rw [if_neg hgt]
      simp only [List.sum_nil]
      split <;> omega
  · intro e he
    have hmem : e.len ∈ pl.map (fun e => e.len) := List.mem_map_of_mem _ he
    rw [hl] at hmem
    simp only [List.mem_append, List.mem_singleton, List.mem_replicate] at hmem
    rcases hmem with (hm | hm) | hm
    · rw [hm]; split <;> omega
    · omega
    · by_cases hgt : n > 1
      · rw [if_pos hgt] at hm
        simp only [List.mem_singleton] at hm
        omega
      · rw [if_neg hgt] at hm
        simp at hm

theorem pinner_do_pin_rejects (page_phys : Nat → Nat) (env : Option Nat) (usr_buf sz : Nat)
    (h : (usr_buf % PAGE_SIZE + sz + PAGE_SIZE - 1) / PAGE_SIZE > PINNER_MAX_PAGES) :
    pinner_do_pin page_phys env usr_buf sz = Except.error EINVAL := by
  have hfpo : usr_buf - ((usr_buf ||| (2 ^ 12 - 1)) - (2 ^ 12 - 1)) = usr_buf % 4096 := by
    rw [lor_page_mask]
    have := Nat.mod_le usr_buf (2 ^ 12)
    omega
  have hP : PAGE_SIZE = 4096 := by decide
  rw [hP] at h
  unfold pinner_do_pin
  simp only [PAGE_SHIFT, hfpo]
  have e1 : (2 : Nat) ^ 12 = 4096 := by norm_num
  have e2 : (4096 : Nat) - 1 = 4095 := by norm_num
  rw [e1, e2]
  have h2 : (usr_buf % 4096 + sz + 4095) / 4096 > PINNER_MAX_PAGES := by
    have e3 : usr_buf % 4096 + sz + 4096 - 1 = usr_buf % 4096 + sz + 4095 := by omega
    rw [e3] at h
    exact h
  rw [if_pos h2]

theorem fwd_congr (n n2 : Nat → Nat) :
    ∀ (xs : List Nat) (a b : Nat), (∀ c ∈ a :: xs, n2 c = n c) → fwd n a xs b → fwd n2 a xs b := by
  intro xs
  induction xs with
  | nil =>
    intro a b h hf
    simp only [fwd] at hf ⊢
    rw [h a (List.mem_cons_self _ _)]; exact hf
  | cons x xs ih =>
    intro a b h hf
    simp only [fwd] at hf ⊢
    refine ⟨by rw [h a (List.mem_cons_self _ _)]; exact hf.1, ?_⟩
    exact ih x b (fun c hc => h c (List.mem_cons_of_mem _ hc)) hf.2

theorem bwd_congr (p p2 : Nat → Nat) :
    ∀ (xs : List Nat) (a b : Nat), (∀ c ∈ xs ++ [b], p2 c = p c) → bwd p a xs b →
      bwd p2 a xs b := by
  intro xs
  induction xs with
  | nil =>
    intro a b h hf
    simp only [bwd] at hf ⊢
    rw [h b (by simp)]; exact hf
  | cons x xs ih =>
    intro a b h hf
    simp only [bwd] at hf ⊢
    refine ⟨by rw [h x (by simp)]; exact hf.1, ?_⟩
    exact ih x b (fun c hc => h c (by simp only [List.cons_append, List.mem_cons]; right; exact hc))
      hf.2

theorem fwd_append (n : Nat → Nat) :
    ∀ (xs : List Nat) (a y : Nat) (ys : List Nat) (b : Nat),
      fwd n a (xs ++ y :: ys) b ↔ fwd n a xs y ∧ fwd n y ys b := by
  intro xs
  induction xs with
  | nil => intro a y ys b; simp [fwd]
  | cons x xs ih =>
    intro a y ys b
    rw [List.cons_append]
    simp only [fwd]
    rw [ih, and_assoc]

theorem bwd_append (p : Nat → Nat) :
    ∀ (xs : List Nat) (a y : Nat) (ys : List Nat) (b : Nat),
      bwd p a (xs ++ y :: ys) b ↔ bwd p a xs y ∧ bwd p y ys b := by
  intro xs
  induction xs with
  | nil => intro a y ys b; simp [bwd]
  | cons x xs ih =>
    intro a y ys b
    rw [List.cons_append]
    simp only [bwd]
    rw [ih, and_assoc]

theorem fwd_first (n : Nat → Nat) (xs : List Nat) (a b : Nat) (h : fwd n a xs b) :
    n a = xs.headD b := by
  cases xs with
  | nil => exact h
  | cons x xs => exact h.1

theorem bwd_last (p : Nat → Nat) :
    ∀ (xs : List Nat) (a b : Nat), bwd p a xs b → p b = xs.getLastD a := by
  intro xs
  induction xs with
  | nil => intro a b h; exact h
  | cons x xs ih =>
    intro a b h
    rw [ih x b h.2]
    cases xs <;> rfl

theorem getLastD_mem (xs : List Nat) (a : Nat) : xs.getLastD a ∈ a :: xs := by
  induction xs generalizing a with
  | nil => simp
  | cons x xs ih =>
    have : (x :: xs).getLastD a = xs.getLastD x := by cases xs <;> rfl
    rw [this]
    exact List.mem_cons_of_mem _ (ih x)

theorem fwd_retarget (n n2 : Nat → Nat) :
    ∀ (xs : List Nat) (a b c : Nat), (a :: xs).Nodup →
      (∀ x ∈ a :: xs, x ≠ xs.getLastD a → n2 x = n x) → n2 (xs.getLastD a) = c →
      fwd n a xs b → fwd n2 a xs c := by
  intro xs
  induction xs with
  | nil => intro a b c _ _ hc _; exact hc
  | cons x xs ih =>
    intro a b c hnd hag hc hf
    have hl : (x :: xs).getLastD a = xs.getLastD x := by cases xs <;> rfl
    rw [hl] at hag hc
    have hmem := getLastD_mem xs x
    have hne : a ≠ xs.getLastD x := by
      intro h
      rw [← h] at hmem
      exact (List.nodup_cons.1 hnd).1 hmem
    simp only [fwd] at hf ⊢
    refine ⟨by rw [hag a (List.mem_cons_self _ _) hne]; exact hf.1, ?_⟩
    exact ih x b c (List.nodup_cons.1 hnd).2
      (fun y hy hy2 => hag y (List.mem_cons_of_mem _ hy) hy2) hc hf.2

theorem bwd_retarget (p p2 : Nat → Nat) :
    ∀ (xs : List Nat) (a b c : Nat), (∀ x ∈ xs, p2 x = p x) → p2 c = xs.getLastD a →
      bwd p a xs b → bwd p2 a xs c := by
  intro xs
  induction xs with
  | nil => intro a b c _ hc _; exact hc
  | cons x xs ih =>
    intro a b c hag hc hf
    have hl : (x :: xs).getLastD a = xs.getLastD x := by cases xs <;> rfl
    rw [hl] at hc
    simp only [bwd] at hf ⊢
    refine ⟨by rw [hag x (List.mem_cons_self _ _)]; exact hf.1, ?_⟩
    exact ih x b c (fun y hy => hag y (List.mem_cons_of_mem _ hy)) hc hf.2

theorem read_forward_fwd (H : node_heap) (head : Nat) :
    ∀ (xs : List Nat) (a fuel : Nat), fwd H.next a xs head → head ∉ xs → xs.length < fuel →
      read_forward H head fuel (H.next a) = some xs := by
  intro xs
  induction xs with
  | nil =>
    intro a fuel h _ hf
    obtain ⟨f, rfl⟩ : ∃ f, fuel = f + 1 := ⟨fuel - 1, by simp at hf; omega⟩
    simp only [fwd] at h
    unfold read_forward
    rw [if_pos h]
  | cons x xs ih =>
    intro a fuel h hn hf
    obtain ⟨f, rfl⟩ : ∃ f, fuel = f + 1 := ⟨fuel - 1, by simp at hf; omega⟩
    simp only [fwd] at h
    unfold read_forward
    rw [h.1, if_neg (by intro hx; exact hn (by rw [hx]; exact List.mem_cons_self _ _))]
    rw [ih x f h.2 (fun hm => hn (List.mem_cons_of_mem _ hm)) (by simp at hf; omega)]
    rfl

theorem bwd_snoc (p : Nat → Nat) (xs : List Nat) (a y b : Nat) :
    bwd p a (xs ++ [y]) b ↔ bwd p a xs y ∧ p b = y := by
  rw [bwd_append]
  simp [bwd]

theorem read_backward_bwd (H : node_heap) (head : Nat) :
    ∀ (xs : List Nat) (b fuel : Nat), bwd H.prev head xs b → head ∉ xs → xs.length < fuel →
      read_backward H head fuel (H.prev b) = some xs.reverse := by
  intro xs
  induction xs using List.reverseRecOn with
  | nil =>
    intro b fuel h _ hf
    obtain ⟨f, rfl⟩ : ∃ f, fuel = f + 1 := ⟨fuel - 1, by simp at hf; omega⟩
    simp only [bwd] at h
    unfold read_backward
    rw [if_pos h]
    rfl
  | append_singleton xs y ih =>
    intro b fuel h hn hf
    obtain ⟨f, rfl⟩ : ∃ f, fuel = f + 1 := ⟨fuel - 1, by simp at hf; omega⟩
    rw [bwd_snoc] at h
    unfold read_backward
    rw [h.2, if_neg (by intro hx; exact hn (by rw [hx]; simp))]
    rw [ih y f h.1 (fun hm => hn (by simp [hm])) (by simp at hf; omega)]
    simp

theorem add_before_links (H : node_heap) (head new : Nat) :
    (sg_entry_add_before H head new).next =
        (fun x => if x = new then head else if x = H.prev head then new else H.next x) ∧
      (sg_entry_add_before H head new).prev =
        (fun x => if x = head then new else if x = new then H.prev head else H.prev x) ∧
      (sg_entry_add_before H head new).payload = H.payload :=
  ⟨rfl, rfl, rfl⟩

theorem add_before_ring (H : node_heap) (s a : Nat) (ys : List Nat) (hr : ring H s ys)
    (ha : a ∉ s :: ys) : ring (sg_entry_add_before H s a) s (ys ++ [a]) := by
  obtain ⟨hf, hb, hnd⟩ := hr
  obtain ⟨hn, hp, _⟩ := add_before_links H s a
  have hnx : ∀ x, (sg_entry_add_before H s a).next x =
      if x = a then s else if x = H.prev s then a else H.next x := fun x => by rw [hn]
  have hpx : ∀ x, (sg_entry_add_before H s a).prev x =
      if x = s then a else if x = a then H.prev s else H.prev x := fun x => by rw [hp]
  have hold : H.prev s = ys.getLastD s := bwd_last _ _ _ _ hb
  have hlm := getLastD_mem ys s
  have hla : ys.getLastD s ≠ a := fun h => ha (h ▸ hlm)
  have has : a ≠ s := fun h => ha (h ▸ List.mem_cons_self _ _)
  refine ⟨?_, ?_, ?_⟩
  · rw [fwd_append]
    refine ⟨fwd_retarget H.next _ ys s s a hnd ?_ ?_ hf, ?_⟩
    · intro x hx hxl
      have hxa : x ≠ a := fun h => ha (h ▸ hx)
      rw [hnx, if_neg hxa, if_neg (by rw [hold]; exact hxl)]
    · rw [hnx, if_neg hla, if_pos hold.symm]
    · simp only [fwd]
      rw [hnx, if_pos rfl]
  · rw [bwd_snoc]
    refine ⟨bwd_retarget H.prev _ ys s s a ?_ ?_ hb, ?_⟩
    · intro x hx
      have hxs : x ≠ s := fun h => (List.nodup_cons.1 hnd).1 (h ▸ hx)
      have hxa : x ≠ a := fun h => ha (h ▸ List.mem_cons_of_mem _ hx)
      rw [hpx, if_neg hxs, if_neg hxa]
    · rw [hpx, if_neg has, if_pos rfl, hold]
    · rw [hpx, if_pos rfl]
  · rw [← List.cons_append]
    rw [List.nodup_append]
    refine ⟨hnd, by simp, ?_⟩
    intro x hx hy
    simp only [List.mem_singleton] at hy
    exact ha (hy ▸ hx)

theorem add_before_frame (H : node_heap) (s a : Nat) (ys : List Nat) (hr : ring H s ys)
    (b : Nat) (hb : b ∉ s :: ys) (hba : b ≠ a) :
    (sg_entry_add_before H s a).next b = H.next b ∧
      (sg_entry_add_before H s a).prev b = H.prev b := by
  obtain ⟨hn, hp, _⟩ := add_before_links H s a
  have hold : H.prev s = ys.getLastD s := bwd_last _ _ _ _ hr.2.1
  have hlm := getLastD_mem ys s
  have hbl : b ≠ H.prev s := by rw [hold]; exact fun h => hb (h ▸ hlm)
  have hbs : b ≠ s := fun h => hb (h ▸ List.mem_cons_self _ _)
  constructor
  · rw [hn]
    dsimp only
    rw [if_neg hba, if_neg hbl]
  · rw [hp]
    dsimp only
    rw [if_neg hbs, if_neg hba]

theorem ring_init (H : node_heap) (s : Nat) : ring (sg_entry_init H s) s [] := by
  refine ⟨?_, ?_, by simp⟩
  · simp [fwd, sg_entry_init, set_prev, set_next]
  · simp [bwd, sg_entry_init, set_prev, set_next]

theorem stage_records_ring :
    ∀ (staged : List (Nat × sg_entry)) (H : node_heap) (s : Nat) (ys : List Nat),
      ring H s ys → (staged.map Prod.fst).Nodup → (∀ a ∈ staged.map Prod.fst, a ∉ s :: ys) →
      ring (stage_records H s staged) s (ys ++ staged.map Prod.fst) ∧
        (ys ++ staged.map Prod.fst).map (stage_records H s staged).payload =
          ys.map H.payload ++ staged.map Prod.snd ∧
        ∀ b, b ∉ s :: ys → b ∉ staged.map Prod.fst →
          (stage_records H s staged).next b = H.next b ∧
          (stage_records H s staged).prev b = H.prev b ∧
          (stage_records H s staged).payload b = H.payload b := by
  intro staged
  induction staged with
  | nil =>
    intro H s ys hr _ _
    refine ⟨?_, by simp [stage_records], fun b _ _ => ⟨rfl, rfl, rfl⟩⟩
    rw [List.map_nil, List.append_nil]
    exact hr
  | cons p staged ih =>
    intro H s ys hr hnd hfresh
    obtain ⟨a, r⟩ := p
    simp only [List.map_cons, List.nodup_cons] at hnd
    have ha : a ∉ s :: ys := hfresh a (by simp)
    have hr1 : ring (stage_record H s a r) s (ys ++ [a]) :=
      add_before_ring (set_payload H a r) s a ys hr ha
    have hfresh1 : ∀ c ∈ staged.map Prod.fst, c ∉ s :: (ys ++ [a]) := by
      intro c hc hmem
      rw [← List.cons_append, List.mem_append, List.mem_singleton] at hmem
      rcases hmem with hmem | hmem
      · exact hfresh c (by simp only [List.map_cons]; exact List.mem_cons_of_mem _ hc) hmem
      · exact hnd.1 (hmem ▸ hc)
    obtain ⟨h1, h2, h3⟩ := ih (stage_record H s a r) s (ys ++ [a]) hr1 hnd.2 hfresh1
    have hpay1 : (stage_record H s a r).payload = (set_payload H a r).payload := rfl
    refine ⟨?_, ?_, ?_⟩
    · simp only [stage_records, List.map_cons]
      rw [show ys ++ a :: staged.map Prod.fst = (ys ++ [a]) ++ staged.map Prod.fst by simp]
      exact h1
    · simp only [stage_records, List.map_cons]
      rw [show ys ++ a :: staged.map Prod.fst = (ys ++ [a]) ++ staged.map Prod.fst by simp, h2]
      rw [hpay1, List.map_append, List.map_cons, List.map_nil]
      have hya : ys.map (set_payload H a r).payload = ys.map H.payload := by
        apply List.map_congr_left
        intro y hy
        have : y ≠ a := fun h => ha (h ▸ List.mem_cons_of_mem _ hy)
        simp [set_payload, this]
      rw [hya]
      simp [set_payload]
    · intro b hb1 hb2
      simp only [List.map_cons, List.mem_cons, not_or] at hb2
      have hb3 : b ∉ s :: (ys ++ [a]) := by
        intro hmem
        rw [← List.cons_append, List.mem_append, List.mem_singleton] at hmem
        rcases hmem with hmem | hmem
        · exact hb1 hmem
        · exact hb2.1 hmem
      obtain ⟨g1, g2, g3⟩ := h3 b hb3 hb2.2
      obtain ⟨f1, f2⟩ := add_before_frame (set_payload H a r) s a ys hr b hb1 hb2.1
      simp only [stage_records]
      refine ⟨by rw [g1]; exact f1, by rw [g2]; exact f2, ?_⟩
      rw [g3, hpay1]
      simp [set_payload, hb2.1]

theorem add_list_before_links (H : node_heap) (head s : Nat) (hs : s ≠ H.next s) :
    (∀ x, (sg_entry_add_list_before H head s).next x =
        if x = H.prev s then head else if x = H.prev head then H.next s else H.next x) ∧
      (∀ x, (sg_entry_add_list_before H head s).prev x =
        if x = head then H.prev s else if x = H.next s then H.prev head else H.prev x) ∧
      (sg_entry_add_list_before H head s).payload = H.payload := by
  have e1 : (set_next H (H.prev head) (H.next s)).next s = H.next s := by
    simp only [set_next]
    split <;> rfl
  have e2 : (set_prev (set_next H (H.prev head) (H.next s)) (H.next s) (H.prev head)).prev s
      = H.prev s := by
    simp only [set_prev, set_next]
    rw [if_neg hs]
  have e3 : (set_prev (set_prev (set_next H (H.prev head) (H.next s)) (H.next s) (H.prev head))
      head (H.prev s)).prev s = H.prev s := by
    simp only [set_prev, set_next]
    rw [if_neg hs]
    split <;> rfl
  unfold sg_entry_add_list_before
  dsimp only
  rw [e1, e2, e3]
  exact ⟨fun x => rfl, fun x => rfl, rfl⟩

theorem splice_ring (H : node_heap) (head s y0 : Nat) (xs ys : List Nat)
    (hlive : ring H head xs) (hst : ring H s (y0 :: ys))
    (hdisj : ∀ x ∈ head :: xs, ∀ y ∈ s :: y0 :: ys, x ≠ y) :
    ring (sg_entry_add_list_before H head s) head (xs ++ y0 :: ys) ∧
      (sg_entry_add_list_before H head s).payload = H.payload ∧
      (∀ a ∈ xs, (sg_entry_add_list_before H head s).prev a = H.prev a) ∧
      (∀ a ∈ head :: xs, a ≠ xs.getLastD head →
        (sg_entry_add_list_before H head s).next a = H.next a) ∧
      (sg_entry_add_list_before H head s).next (xs.getLastD head) = y0 := by
  obtain ⟨hf1, hb1, hn1⟩ := hlive
  obtain ⟨hf2, hb2, hn2⟩ := hst
  have hy0 : H.next s = y0 := hf2.1
  have hs : s ≠ H.next s := by
    rw [hy0]
    exact fun h => (List.nodup_cons.1 hn2).1 (h ▸ List.mem_cons_self _ _)
  obtain ⟨hnx, hpx, hpay⟩ := add_list_before_links H head s hs
  have hold : H.prev head = xs.getLastD head := bwd_last _ _ _ _ hb1
  have hyl : H.prev s = ys.getLastD y0 := by
    rw [bwd_last _ _ _ _ hb2]
    cases ys <;> rfl
  have holdm := getLastD_mem xs head
  have hylm : ys.getLastD y0 ∈ s :: y0 :: ys := List.mem_cons_of_mem _ (getLastD_mem ys y0)
  have hy0m : y0 ∈ s :: y0 :: ys := by simp
  have hn3 : (y0 :: ys).Nodup := (List.nodup_cons.1 hn2).2
  have hnext_old : ∀ a ∈ head :: xs, a ≠ xs.getLastD head →
      (sg_entry_add_list_before H head s).next a = H.next a := by
    intro a ha hal
    rw [hnx, if_neg (by rw [hyl]; exact hdisj a ha _ hylm), if_neg (by rw [hold]; exact hal)]
  have hnext_last : (sg_entry_add_list_before H head s).next (xs.getLastD head) = y0 := by
    rw [hnx, if_neg (by rw [hyl]; exact hdisj _ holdm _ hylm), if_pos hold.symm, hy0]
  have hprev_old : ∀ a ∈ xs, (sg_entry_add_list_before H head s).prev a = H.prev a := by
    intro a ha
    have h1 : a ≠ head := fun h => (List.nodup_cons.1 hn1).1 (h ▸ ha)
    rw [hpx, if_neg h1, if_neg (by rw [hy0]; exact hdisj a (List.mem_cons_of_mem _ ha) _ hy0m)]
  refine ⟨⟨?_, ?_, ?_⟩, hpay, hprev_old, hnext_old, hnext_last⟩
  · rw [fwd_append]
    refine ⟨fwd_retarget H.next _ xs head head y0 hn1 hnext_old hnext_last hf1, ?_⟩
    refine fwd_retarget H.next _ ys y0 s head hn3 ?_ ?_ hf2.2
    · intro x hx hxl
      rw [hnx, if_neg (by rw [hyl]; exact hxl),
        if_neg (by rw [hold]; exact (hdisj _ holdm x (List.mem_cons_of_mem _ hx)).symm)]
    · rw [hnx, if_pos hyl.symm]
  · rw [bwd_append]
    refine ⟨bwd_retarget H.prev _ xs head head y0 hprev_old ?_ hb1, ?_⟩
    · have h1 : y0 ≠ head := (hdisj head (List.mem_cons_self _ _) y0 hy0m).symm
      rw [hpx, if_neg h1, if_pos hy0.symm, hold]
    · refine bwd_retarget H.prev _ ys y0 s head ?_ ?_ hb2.2
      · intro x hx
        have h1 : x ≠ head :=
          (hdisj head (List.mem_cons_self _ _) x
            (List.mem_cons_of_mem _ (List.mem_cons_of_mem _ hx))).symm
        have h2 : x ≠ y0 := fun h => (List.nodup_cons.1 hn3).1 (h ▸ hx)
        rw [hpx, if_neg h1, if_neg (by rw [hy0]; exact h2)]
      · rw [hpx, if_pos rfl, hyl]
  · rw [← List.cons_append, List.nodup_append]
    refine ⟨hn1, hn3, ?_⟩
    intro x hx hy
    exact hdisj x hx x (List.mem_cons_of_mem _ hy) rfl

theorem map_set_last (P : Nat → sg_entry) :
    ∀ (l : List Nat) (y : Nat), (y :: l).Nodup →
      (y :: l).map (fun x => if x = l.getLastD y then { P (l.getLastD y) with is_EOF := true }
        else P x) = set_last_EOF ((y :: l).map P) := by
  intro l
  induction l with
  | nil => intro y _; simp [set_last_EOF]
  | cons y2 l ih =>
    intro y hnd
    have hl : (y2 :: l).getLastD y = l.getLastD y2 := by cases l <;> rfl
    have hne : y ≠ l.getLastD y2 := fun h =>
      (List.nodup_cons.1 hnd).1 (h ▸ getLastD_mem l y2)
    rw [hl, List.map_cons, if_neg hne, ih y2 (List.nodup_cons.1 hnd).2]
    rfl

theorem commit_staged_spec (H : node_heap) (head s y0 : Nat) (xs ys : List Nat)
    (hlive : ring H head xs) (hst : ring H s (y0 :: ys))
    (hdisj : ∀ x ∈ head :: xs, ∀ y ∈ s :: y0 :: ys, x ≠ y) :
    ring (commit_staged H head s) head (xs ++ y0 :: ys) ∧
      (xs ++ y0 :: ys).map (commit_staged H head s).payload =
        xs.map H.payload ++ set_last_EOF (set_first_SOF ((y0 :: ys).map H.payload)) ∧
      (∀ a ∈ xs, (commit_staged H head s).payload a = H.payload a ∧
        (commit_staged H head s).prev a = H.prev a) ∧
      (∀ a ∈ xs, a ≠ xs.getLastD head → (commit_staged H head s).next a = H.next a) ∧
      (commit_staged H head s).next (xs.getLastD head) = y0 := by
  have hy0 : H.next s = y0 := hst.1.1
  have hn3 : (y0 :: ys).Nodup := (List.nodup_cons.1 hst.2.2).2
  have hyl : H.prev s = ys.getLastD y0 := by
    rw [bwd_last _ _ _ _ hst.2.1]
    cases ys <;> rfl
  have hylm : ys.getLastD y0 ∈ s :: y0 :: ys := List.mem_cons_of_mem _ (getLastD_mem ys y0)
  have hy0m : y0 ∈ s :: y0 :: ys := by simp
  -- the heap after the two flag assignments
  have hH2 : ∃ H2 : node_heap, commit_staged H head s = sg_entry_add_list_before H2 head s ∧
      H2.next = H.next ∧ H2.prev = H.prev ∧
      H2.payload = fun x =>
        if x = ys.getLastD y0 then
          { (if ys.getLastD y0 = y0 then { H.payload y0 with is_SOF := true }
              else H.payload (ys.getLastD y0)) with is_EOF := true }
        else if x = y0 then { H.payload y0 with is_SOF := true } else H.payload x := by
    refine ⟨_, rfl, rfl, rfl, ?_⟩
    funext x
    simp only [set_payload, hy0, hyl]
  obtain ⟨H2, hc, h2n, h2p, h2pay⟩ := hH2
  have hlive2 : ring H2 head xs := by
    unfold ring; rw [h2n, h2p]; exact hlive
  have hst2 : ring H2 s (y0 :: ys) := by
    unfold ring; rw [h2n, h2p]; exact hst
  obtain ⟨hr, hpay, hprev, hnext, hlast⟩ := splice_ring H2 head s y0 xs ys hlive2 hst2 hdisj
  rw [hc]
  have hxs : ∀ a ∈ xs, H2.payload a = H.payload a := by
    intro a ha
    rw [h2pay]
    dsimp only
    rw [if_neg (hdisj a (List.mem_cons_of_mem _ ha) _ hylm),
      if_neg (hdisj a (List.mem_cons_of_mem _ ha) _ hy0m)]
  refine ⟨hr, ?_, ?_, ?_, hlast⟩
  · rw [hpay, List.map_append]
    congr 1
    · exact List.map_congr_left hxs
    · have h1 : (y0 :: ys).map (fun x => if x = y0 then { H.payload y0 with is_SOF := true }
          else H.payload x) = set_first_SOF ((y0 :: ys).map H.payload) := by
        simp only [List.map_cons, set_first_SOF, if_pos, List.cons.injEq, true_and]
        apply List.map_congr_left
        intro y hy
        have : y ≠ y0 := fun h => (List.nodup_cons.1 hn3).1 (h ▸ hy)
        rw [if_neg this]
      rw [← h1, ← map_set_last _ ys y0 hn3, h2pay]
  · intro a ha
    rw [hpay]
    exact ⟨hxs a ha, by rw [hprev a ha, h2p]⟩
  · intro a ha hal
    rw [hnext a (List.mem_cons_of_mem _ ha) hal, h2n]

theorem staged_records_spec (heap : Nat) (lst : sg_list) (sz : Nat)
    (h : (axidma_add_entry heap lst sz).1 = add_entry_code.ADD_ENTRY_SUCCESS) :
    staged_records heap lst sz ≠ [] ∧
      (∀ e ∈ staged_records heap lst sz, e.is_SOF = false ∧ e.is_EOF = false) ∧
      (axidma_add_entry heap lst sz).2.chain =
        lst.chain ++ set_last_EOF (set_first_SOF (staged_records heap lst sz)) := by
  obtain ⟨ind, oie, cur, rest, es, sg2, d2, hsz, hidx, hdrop, hl, hres⟩ :=
    add_entry_success_staged heap lst sz h
  obtain ⟨e0, tail, hes, _, _, _, hall, _⟩ :=
    add_entry_loop_spec _ _ _ _ _ _ _ _ _ _ _ _ _ hsz hl
  have hst : staged_records heap lst sz = es := by
    unfold staged_records
    rw [if_neg hsz, hidx]
    dsimp only
    rw [hdrop]
    dsimp only
    rw [hl]
  rw [hst, hres]
  simp only [List.nil_append] at hes
  refine ⟨by rw [hes]; simp, ?_, rfl⟩
  intro e he
  rw [hes] at he
  exact ⟨(hall e he).2.1, (hall e he).1⟩

theorem add_entry_nodes_spec (heap : Nat) (lst : sg_list) (sz : Nat) (H : node_heap)
    (head s : Nat) (xs fresh : List Nat)
    (hsucc : (axidma_add_entry heap lst sz).1 = add_entry_code.ADD_ENTRY_SUCCESS)
    (hring : ring H head xs) (hpay : xs.map H.payload = lst.chain)
    (hnd : (s :: fresh).Nodup) (hdisj : ∀ a ∈ s :: fresh, a ∉ head :: xs)
    (hlen : fresh.length = (staged_records heap lst sz).length) :
    ring (axidma_add_entry_nodes H head s fresh heap lst sz) head (xs ++ fresh) ∧
      (xs ++ fresh).map (axidma_add_entry_nodes H head s fresh heap lst sz).payload =
        (axidma_add_entry heap lst sz).2.chain ∧
      (∀ a ∈ xs, (axidma_add_entry_nodes H head s fresh heap lst sz).payload a = H.payload a ∧
        (axidma_add_entry_nodes H head s fresh heap lst sz).prev a = H.prev a) ∧
      (∀ a ∈ xs, a ≠ xs.getLastD head →
        (axidma_add_entry_nodes H head s fresh heap lst sz).next a = H.next a) ∧
      (axidma_add_entry_nodes H head s fresh heap lst sz).next (xs.getLastD head)
        = fresh.headD head := by
  obtain ⟨hne, _, hchain⟩ := staged_records_spec heap lst sz hsucc
  have hfst : (fresh.zip (staged_records heap lst sz)).map Prod.fst = fresh :=
    List.map_fst_zip _ _ (by omega)
  have hsnd : (fresh.zip (staged_records heap lst sz)).map Prod.snd
      = staged_records heap lst sz := List.map_snd_zip _ _ (by omega)
  have hs_out : s ∉ head :: xs := hdisj s (List.mem_cons_self _ _)
  have hfresh_out : ∀ a ∈ fresh, a ∉ head :: xs := fun a ha =>
    hdisj a (List.mem_cons_of_mem _ ha)
  -- the temporary list after the loop
  obtain ⟨hst, hstpay, hframe⟩ := stage_records_ring (fresh.zip (staged_records heap lst sz))
    (sg_entry_init H s) s [] (ring_init H s) (by rw [hfst]; exact (List.nodup_cons.1 hnd).2)
    (by
      rw [hfst]
      intro a ha hmem
      simp only [List.mem_singleton] at hmem
      exact (List.nodup_cons.1 hnd).1 (hmem ▸ ha))
  rw [hfst] at hst hstpay hframe
  rw [hsnd] at hstpay
  simp only [List.nil_append, List.map_nil] at hst hstpay
  -- the nodes of the list are not touched by it
  have hlive_frame : ∀ b ∈ head :: xs,
      (stage_records (sg_entry_init H s) s (fresh.zip (staged_records heap lst sz))).next b
          = H.next b ∧
        (stage_records (sg_entry_init H s) s (fresh.zip (staged_records heap lst sz))).prev b
          = H.prev b ∧
        (stage_records (sg_entry_init H s) s (fresh.zip (staged_records heap lst sz))).payload b
          = H.payload b := by
    intro b hb
    have hbs : b ≠ s := fun h => hs_out (h ▸ hb)
    obtain ⟨g1, g2, g3⟩ := hframe b (by simp [hbs]) (fun h => hfresh_out b h hb)
    refine ⟨by rw [g1]; simp [sg_entry_init, set_prev, set_next, hbs],
      by rw [g2]; simp [sg_entry_init, set_prev, set_next, hbs], by rw [g3]; rfl⟩
  have hlive : ring (stage_records (sg_entry_init H s) s
      (fresh.zip (staged_records heap lst sz))) head xs := by
    obtain ⟨hf, hb, hn⟩ := hring
    refine ⟨fwd_congr H.next _ xs head head (fun c hc => (hlive_frame c hc).1) hf,
      bwd_congr H.prev _ xs head head ?_ hb, hn⟩
    intro c hc
    refine (hlive_frame c ?_).2.1
    simp only [List.mem_append, List.mem_singleton] at hc
    rcases hc with hc | hc
    · exact List.mem_cons_of_mem _ hc
    · rw [hc]; exact List.mem_cons_self _ _
  obtain ⟨y0, ys, rfl⟩ : ∃ y0 ys, fresh = y0 :: ys := by
    cases hf : fresh with
    | nil => rw [hf] at hlen; exact absurd (List.length_eq_zero.1 hlen.symm) hne
    | cons y0 ys => exact ⟨y0, ys, rfl⟩
  have hdisj2 : ∀ x ∈ head :: xs, ∀ y ∈ s :: y0 :: ys, x ≠ y := by
    intro x hx y hy hxy
    exact hdisj y hy (hxy ▸ hx)
  obtain ⟨c1, c2, c3, c4, c5⟩ := commit_staged_spec _ head s y0 xs ys hlive hst hdisj2
  have hdef : axidma_add_entry_nodes H head s (y0 :: ys) heap lst sz =
      commit_staged (stage_records (sg_entry_init H s) s
        ((y0 :: ys).zip (staged_records heap lst sz))) head s := rfl
  rw [hdef]
  refine ⟨c1, ?_, ?_, ?_, c5⟩
  · rw [c2, hchain, ← hpay, hstpay]
    congr 1
    apply List.map_congr_left
    intro a ha
    exact (hlive_frame a (List.mem_cons_of_mem _ ha)).2.2
  · intro a ha
    obtain ⟨d1, d2⟩ := c3 a ha
    have hf := hlive_frame a (List.mem_cons_of_mem _ ha)
    exact ⟨by rw [d1]; exact hf.2.2, by rw [d2]; exact hf.2.1⟩
  · intro a ha hal
    rw [c4 a ha hal]
    exact (hlive_frame a (List.mem_cons_of_mem _ ha)).1

theorem fwd_last (n : Nat → Nat) :
    ∀ (xs : List Nat) (a b : Nat), fwd n a xs b → n (xs.getLastD a) = b := by
  intro xs
  induction xs with
  | nil => intro a b h; exact h
  | cons x xs ih =>
    intro a b h
    have hl : (x :: xs).getLastD a = xs.getLastD x := by cases xs <;> rfl
    rw [hl]
    exact ih x b h.2

theorem fwd_next_getD (n : Nat → Nat) :
    ∀ (xs : List Nat) (a b k : Nat), fwd n a xs b → k ≤ xs.length →
      n ((a :: xs).getD k a) = (xs ++ [b]).getD k b := by
  intro xs
  induction xs with
  | nil =>
    intro a b k h hk
    simp only [List.length_nil, Nat.le_zero] at hk
    subst hk
    exact h
  | cons x xs ih =>
    intro a b k h hk
    cases k with
    | zero => exact h.1
    | succ k =>
      simp only [List.length_cons] at hk
      have h1 := ih x b k h.2 (by omega)
      simp only [List.getD_cons_succ, List.cons_append] at h1 ⊢
      have h2 : (x :: xs).getD k a = (x :: xs).getD k x := by
        rw [List.getD_eq_getElem _ _ (by simp; omega), List.getD_eq_getElem _ _ (by simp; omega)]
      rw [h2]
      exact h1

theorem dequeue_walk_nodes_spec (H : node_heap) (m : Mem) (head : Nat) :
    ∀ (rest : List Nat) (e0 fuel len i : Nat) (code : buf_code),
      fwd H.next e0 rest head → H.prev head = rest.getLastD e0 → (e0 :: rest).Nodup →
      rest.length < fuel →
      dequeue_walk_nodes H m head fuel e0 len code =
        some ((dequeue_walk m (H.payload e0) (rest.map H.payload) i len code).1,
          (dequeue_walk m (H.payload e0) (rest.map H.payload) i len code).2.1,
          (e0 :: rest).getD
            ((dequeue_walk m (H.payload e0) (rest.map H.payload) i len code).2.2 - i) e0,
          (e0 :: rest).take
            ((dequeue_walk m (H.payload e0) (rest.map H.payload) i len code).2.2 - i + 1)) := by
  intro rest
  induction rest with
  | nil =>
    intro e0 fuel len i code _ hprev _ hfuel
    obtain ⟨f, rfl⟩ : ∃ f, fuel = f + 1 := ⟨fuel - 1, by simp at hfuel; omega⟩
    have hp : e0 = H.prev head := hprev.symm
    unfold dequeue_walk_nodes dequeue_walk
    dsimp only
    rw [if_pos hp]
    simp
  | cons x rest ih =>
    intro e0 fuel len i code hf hprev hnd hfuel
    obtain ⟨f, rfl⟩ : ∃ f, fuel = f + 1 := ⟨fuel - 1, by simp at hfuel; omega⟩
    have hl : (x :: rest).getLastD e0 = rest.getLastD x := by cases rest <;> rfl
    rw [hl] at hprev
    have hne : e0 ≠ H.prev head := by
      rw [hprev]
      exact fun h => (List.nodup_cons.1 hnd).1 (h ▸ getLastD_mem rest x)
    have hb := dequeue_walk_bounds m (rest.map H.payload) (H.payload x) (i + 1)
      ((len + status_len m (H.payload e0).sg_offset) % 2 ^ 32)
      (if status_complete m (H.payload e0).sg_offset = 0 ∨
          status_decode_err m (H.payload e0).sg_offset ≠ 0 ∨
          status_int_err m (H.payload e0).sg_offset ≠ 0 ∨
          status_slave_err m (H.payload e0).sg_offset ≠ 0
        then buf_code.TRANSFER_FAILED else code)
    have hih := ih x f ((len + status_len m (H.payload e0).sg_offset) % 2 ^ 32) (i + 1)
      (if status_complete m (H.payload e0).sg_offset = 0 ∨
          status_decode_err m (H.payload e0).sg_offset ≠ 0 ∨
          status_int_err m (H.payload e0).sg_offset ≠ 0 ∨
          status_slave_err m (H.payload e0).sg_offset ≠ 0
        then buf_code.TRANSFER_FAILED else code)
      hf.2 hprev (List.nodup_cons.1 hnd).2 (by simp at hfuel; omega)
    unfold dequeue_walk_nodes dequeue_walk
    simp only [List.map_cons]
    rw [if_neg hne]
    by_cases h0 : status_eof m (H.payload e0).sg_offset = 0
    · rw [if_pos h0, if_pos h0, hf.1, hih]
      simp only [Option.map_some', Option.some.injEq, Prod.mk.injEq, true_and]
      generalize (dequeue_walk m (H.payload x) (rest.map H.payload) (i + 1)
        ((len + status_len m (H.payload e0).sg_offset) % 2 ^ 32)
        (if status_complete m (H.payload e0).sg_offset = 0 ∨
            status_decode_err m (H.payload e0).sg_offset ≠ 0 ∨
            status_int_err m (H.payload e0).sg_offset ≠ 0 ∨
            status_slave_err m (H.payload e0).sg_offset ≠ 0
          then buf_code.TRANSFER_FAILED else code)).2.2 = j at hb ⊢
      obtain ⟨hb1, hb2, _⟩ := hb
      simp only [List.length_map] at hb2
      have e1 : j - i = (j - (i + 1)) + 1 := by omega
      rw [e1]
      constructor
      · rw [List.getD_cons_succ, List.getD_eq_getElem _ _ (by simp; omega),
          List.getD_eq_getElem _ _ (by simp; omega)]
      · rfl
    · rw [if_neg h0, if_neg h0]
      simp

theorem headD_drop_getD :
    ∀ (r : List Nat) (k d : Nat), k ≤ r.length → (r ++ [d]).getD k d = (r.drop k).headD d := by
  intro r
  induction r with
  | nil => intro k d hk; simp at hk; subst hk; rfl
  | cons x r ih =>
    intro k d hk
    cases k with
    | zero => rfl
    | succ k =>
      simp only [List.length_cons] at hk
      simpa using ih k d (by omega)

theorem dequeue_nodes_spec (H : node_heap) (m : Mem) (head : Nat) (lst : sg_list)
    (nodes : List Nat) (i e fuel : Nat)
    (hring : ring H head nodes) (hpay : nodes.map H.payload = lst.chain)
    (hi : nodes[i]? = some e) (hc : lst.to_vist = cursor.entry i)
    (hfuel : nodes.length - i ≤ fuel) :
    ∃ j, i ≤ j ∧ j < nodes.length ∧
      axidma_dequeue_nodes H m head lst.data_buf fuel e =
        some ((axidma_dequeue_s2mm_buf lst m).1, (nodes.drop (j + 1)).headD head,
          (nodes.drop i).take (j - i + 1)) ∧
      (axidma_dequeue_s2mm_buf lst m).2.to_vist =
        (if j + 1 < nodes.length then cursor.entry (j + 1) else cursor.sentinel) := by
  obtain ⟨hf, hb, hnd⟩ := hring
  have hilt : i < nodes.length := by
    by_contra hge
    rw [List.getElem?_eq_none (by omega)] at hi
    exact absurd hi (by simp)
  obtain ⟨r, hdrop⟩ : ∃ r, nodes.drop i = e :: r := by
    cases hd : nodes.drop i with
    | nil =>
      have := List.drop_eq_nil_iff.1 hd
      omega
    | cons a r =>
      have h0 := List.getElem?_drop (L := nodes) (i := i) (j := 0)
      rw [hd] at h0
      simp only [List.getElem?_cons_zero, Nat.add_zero] at h0
      rw [hi] at h0
      simp only [Option.some.injEq] at h0
      exact ⟨r, by rw [h0]⟩
  have hsplit : nodes = nodes.take i ++ e :: r := by
    rw [← hdrop, List.take_append_drop]
  have hlen_take : (nodes.take i).length = i := by
    rw [List.length_take]; omega
  have hrlen : r.length + 1 = nodes.length - i := by
    have := congrArg List.length hdrop
    simp only [List.length_drop, List.length_cons] at this
    omega
  rw [hsplit] at hf hb
  obtain ⟨hf1, hf2⟩ := (fwd_append H.next _ head e r head).1 hf
  obtain ⟨hb1, hb2⟩ := (bwd_append H.prev _ head e r head).1 hb
  have hpe : H.prev e = (nodes.take i).getLastD head := bwd_last _ _ _ _ hb1
  have hnp : H.next (H.prev e) = e := by rw [hpe]; exact fwd_last _ _ _ _ hf1
  have hph : H.prev head = r.getLastD e := bwd_last _ _ _ _ hb2
  have hnd2 : (e :: r).Nodup := by
    have h1 : nodes.Nodup := (List.nodup_cons.1 hnd).2
    rw [hsplit] at h1
    exact (List.nodup_append.1 h1).2.1
  have hchain : lst.chain.drop i = H.payload e :: r.map H.payload := by
    rw [← hpay, ← List.map_drop, hdrop]
    rfl
  have hwalk := dequeue_walk_nodes_spec H m head r e fuel 0 i buf_code.TRANSFER_SUCCESS hf2 hph
    hnd2 (by omega)
  have hbounds := dequeue_walk_bounds m (r.map H.payload) (H.payload e) i 0
    buf_code.TRANSFER_SUCCESS
  have hclen : lst.chain.length = nodes.length := by rw [← hpay, List.length_map]
  generalize hr : dequeue_walk m (H.payload e) (r.map H.payload) i 0 buf_code.TRANSFER_SUCCESS
    = res at hwalk hbounds
  obtain ⟨hb3, hb4, _⟩ := hbounds
  simp only [List.length_map] at hb4
  have hlist : axidma_dequeue_s2mm_buf lst m =
      ({ base := lst.data_buf + (H.payload e).data_offset, len := res.1, code := res.2.1 },
        { lst with
          to_vist := if res.2.2 + 1 < lst.chain.length then cursor.entry (res.2.2 + 1)
                     else cursor.sentinel }) := by
    unfold axidma_dequeue_s2mm_buf
    simp only [hc, hchain, hr]
  refine ⟨res.2.2, hb3, by omega, ?_, ?_⟩
  · unfold axidma_dequeue_nodes
    rw [hnp, hwalk, hlist, hdrop]
    simp only [Option.map_some', Option.some.injEq, Prod.mk.injEq, true_and, and_true]
    rw [fwd_next_getD H.next r e head (res.2.2 - i) hf2 (by omega),
      headD_drop_getD r (res.2.2 - i) head (by omega)]
    congr 1
    have e1 : res.2.2 + 1 = i + ((res.2.2 - i) + 1) := by omega
    rw [e1, ← List.drop_drop, hdrop]
    rfl
  · rw [hlist, hclen]

theorem pinned_shape_tail (e : pinner_physlist_entry) (rest : List pinner_physlist_entry)
    (h : pinned_shape (e :: rest) = true) : pinned_shape rest = true := by
  cases rest with
  | nil => rfl
  | cons f rest =>
    simp only [pinned_shape, Bool.and_eq_true] at h
    exact h.2

theorem pinned_shape_drop : ∀ (plist : List pinner_physlist_entry) (n : Nat),
    pinned_shape plist = true → pinned_shape (plist.drop n) = true := by
  intro plist
  induction plist with
  | nil => intro n _; simp [pinned_shape]
  | cons e rest ih =>
    intro n h
    cases n with
    | zero => simpa using h
    | succ n => simpa using ih n (pinned_shape_tail e rest h)

theorem get_entry_index_from_shift : ∀ (l : List pinner_physlist_entry) (i x : Nat),
    get_entry_index_from (i + 1) l x =
      (get_entry_index_from i l x).map (fun p => (p.1 + 1, p.2)) := by
  intro l
  induction l with
  | nil => intro i x; rfl
  | cons e rest ih =>
    intro i x
    unfold get_entry_index_from
    by_cases hge : x ≥ e.len
    · rw [if_pos hge, if_pos hge]; exact ih (i + 1) _
    · rw [if_neg hge, if_neg hge]; rfl

theorem suitable_cons (e : pinner_physlist_entry) (rest : List pinner_physlist_entry)
    (sz O : Nat) :
    suitable (e :: rest) sz O =
      if O ≥ e.len then suitable rest sz (O - e.len)
      else decide ((e.addr + O) % 64 = 0 ∧ O + sz ≤ e.len) := by
  unfold suitable get_entry_index
  by_cases hge : O ≥ e.len
  · rw [if_pos hge]
    have : get_entry_index_from 0 (e :: rest) O = get_entry_index_from (0 + 1) rest (O - e.len) := by
      conv_lhs => unfold get_entry_index_from
      rw [if_pos hge]
    rw [this, get_entry_index_from_shift]
    cases get_entry_index_from 0 rest (O - e.len) with
    | none => rfl
    | some p => obtain ⟨j, r⟩ := p; simp
  · rw [if_neg hge]
    have : get_entry_index_from 0 (e :: rest) O = some (0, O) := by
      unfold get_entry_index_from
      rw [if_neg hge]
    rw [this]
    simp

theorem suitable_append : ∀ (pre ents : List pinner_physlist_entry) (sz r : Nat),
    suitable (pre ++ ents) sz (plist_total pre + r) = suitable ents sz r := by
  intro pre
  induction pre with
  | nil => intro ents sz r; simp [plist_total]
  | cons p pre ih =>
    intro ents sz r
    rw [List.cons_append, suitable_cons]
    have hge : plist_total (p :: pre) + r ≥ p.len := by
      simp only [plist_total, List.map_cons, List.sum_cons]; omega
    rw [if_pos hge]
    have : plist_total (p :: pre) + r - p.len = plist_total pre + r := by
      simp only [plist_total, List.map_cons, List.sum_cons]; omega
    rw [this]
    exact ih ents sz r

theorem find_contiguous_loop_step (e : pinner_physlist_entry)
    (rest : List pinner_physlist_entry) (offset oie sz : Nat) :
    ∃ adj, adj < 64 ∧ (e.addr + (oie + adj)) % 64 = 0 ∧
      (∀ r, oie ≤ r → r < oie + adj → (e.addr + r) % 64 ≠ 0) ∧
      find_contiguous_loop (e :: rest) offset oie sz =
        if sz ≤ (e.len + 4294967296 - (oie + adj) % 4294967296) % 4294967296 then
          (offset + adj) % 4294967296
        else find_contiguous_loop rest
          (((offset + adj) % 4294967296 +
            (e.len + 4294967296 - (oie + adj) % 4294967296) % 4294967296) % 4294967296) 0 sz := by
  have e32 : (2 : Nat) ^ 32 = 4294967296 := by norm_num
  refine ⟨if (e.addr + oie) % 2 ^ 64 % 64 ≠ 0 then 64 - (e.addr + oie) % 2 ^ 64 % 64 else 0,
    ?_, ?_, ?_, ?_⟩
  · split <;> omega
  · split <;> omega
  · intro r h1 h2
    split at h2 <;> omega
  · conv_lhs => unfold find_contiguous_loop
    rw [e32]

theorem find_contiguous_loop_minimal (sz : Nat) :
    ∀ (ents : List pinner_physlist_entry) (offset oie : Nat),
      pinned_shape ents = true →
      (∀ e rest, ents = e :: rest → oie ≤ e.len) →
      oie ≤ offset →
      offset - oie + plist_total ents + 64 ≤ 2 ^ 32 →
      find_contiguous_loop ents offset oie sz ≠ AXIDMA_NOT_FOUND →
      offset ≤ find_contiguous_loop ents offset oie sz ∧
        (∀ r, oie ≤ r → r < oie + (find_contiguous_loop ents offset oie sz - offset) →
          suitable ents sz r = false) ∧
        (0 < sz → oie + (find_contiguous_loop ents offset oie sz - offset) < plist_total ents →
          suitable ents sz (oie + (find_contiguous_loop ents offset oie sz - offset)) = true) := by
  intro ents
  induction ents with
  | nil => intro offset oie _ _ _ _ h; exact absurd rfl h
  | cons e rest ih =>
    intro offset oie hsh hoie hle hT h
    have hl := hoie e rest rfl
    have hTe : plist_total (e :: rest) = e.len + plist_total rest := by
      simp [plist_total]
    rw [hTe] at hT ⊢
    have e32 : (2 : Nat) ^ 32 = 4294967296 := by norm_num
    rw [e32] at hT
    obtain ⟨adj, hadjlt, hal, hgap, hstep⟩ := find_contiguous_loop_step e rest offset oie sz
    have ho : (offset + adj) % 4294967296 = offset + adj := by omega
    have hi : (oie + adj) % 4294967296 = oie + adj := by omega
    rw [ho, hi] at hstep
    clear ho hi
    generalize find_contiguous_loop (e :: rest) offset oie sz = O at h hstep ⊢
    by_cases hover : oie + adj ≤ e.len
    · have hsl : (e.len + 4294967296 - (oie + adj)) % 4294967296 = e.len - (oie + adj) := by omega
      rw [hsl] at hstep
      clear hsl
      by_cases hfit : sz ≤ e.len - (oie + adj)
      · rw [if_pos hfit] at hstep
        subst hstep
        refine ⟨by omega, ?_, ?_⟩
        · intro r h1 h2
          rw [suitable_cons]
          have hr : ¬ r ≥ e.len := by omega
          rw [if_neg hr]
          have := hgap r h1 (by omega)
          simp [this]
        · intro hsz _
          rw [suitable_cons]
          have e1 : oie + (offset + adj - offset) = oie + adj := by omega
          rw [e1]
          have hr : ¬ oie + adj ≥ e.len := by omega
          rw [if_neg hr]
          simp only [hal, true_and, decide_eq_true_eq]
          omega
      · rw [if_neg hfit] at hstep
        have hnext : (offset + adj + (e.len - (oie + adj))) % 4294967296 = offset - oie + e.len := by
          omega
        rw [hnext] at hstep
        clear hnext
        rw [hstep] at h
        obtain ⟨g1, g2, g3⟩ := ih (offset - oie + e.len) 0 (pinned_shape_tail e rest hsh)
          (by intro f tl _; omega) (by omega) (by rw [e32]; omega) h
        rw [← hstep] at g1 g2 g3
        clear hstep h
        refine ⟨by omega, ?_, ?_⟩
        · intro r h1 h2
          rw [suitable_cons]
          by_cases hr : r ≥ e.len
          · rw [if_pos hr]
            exact g2 (r - e.len) (by omega) (by omega)
          · rw [if_neg hr]
            by_cases halr : (e.addr + r) % 64 = 0
            · have : ¬ r + sz ≤ e.len := by
                have : oie + adj ≤ r := by
                  by_contra hlt
                  exact hgap r h1 (by omega) halr
                omega
              simp [this]
            · simp [halr]
        · intro hsz hin
          rw [suitable_cons]
          have hr : oie + (O - offset) ≥ e.len := by omega
          rw [if_pos hr]
          have e1 : oie + (O - offset) - e.len = 0 + (O - (offset - oie + e.len)) := by omega
          rw [e1]
          exact g3 hsz (by omega)
    · -- the aligned position lies past the end of the span: it is the last span
      have hrest : rest = [] := by
        cases rest with
        | nil => rfl
        | cons f tl =>
          simp only [pinned_shape, Bool.and_eq_true, decide_eq_true_eq] at hsh
          obtain ⟨⟨h1, _⟩, _⟩ := hsh
          omega
      subst hrest
      by_cases hfit : sz ≤ (e.len + 4294967296 - (oie + adj)) % 4294967296
      · rw [if_pos hfit] at hstep
        subst hstep
        refine ⟨by omega, ?_, ?_⟩
        · intro r h1 h2
          rw [suitable_cons]
          by_cases hr : r ≥ e.len
          · rw [if_pos hr]; rfl
          · rw [if_neg hr]
            have := hgap r h1 (by omega)
            simp [this]
        · intro _ hin
          simp only [plist_total, List.map_nil, List.sum_nil] at hin
          omega
      · rw [if_neg hfit] at hstep
        rw [hstep] at h
        exact absurd rfl h

theorem pinned_shape_of_pages (page_phys : Nat → Nat) (hpage : ∀ i, page_phys i % 64 = 0) :
    ∀ (m k : Nat) (tailp : List (Nat × Nat)) (e : pinner_physlist_entry),
      tailp.length ≤ 1 → (∀ p ∈ tailp, p.2 = 0) →
      (0 < m + tailp.length → (e.addr + e.len) % 64 = 0) →
      pinned_shape (e :: ((List.replicate m (4096, 0) ++ tailp).enumFrom k).map
        (fun (p : Nat × Nat × Nat) => ({ addr := (page_phys p.1 + p.2.2) % 2 ^ 64, len := p.2.1 } :
          pinner_physlist_entry))) = true := by
  intro m
  induction m with
  | zero =>
    intro k tailp e hlen hoff he
    cases tailp with
    | nil => rfl
    | cons x tl =>
      cases tl with
      | nil =>
        have hx : x.2 = 0 := hoff x (by simp)
        have hk := hpage k
        have he2 := he (by simp)
        simp only [List.replicate, List.nil_append, List.enumFrom_cons, List.enumFrom_nil,
          List.map_cons, List.map_nil, pinned_shape, Bool.and_true, Bool.and_eq_true,
          decide_eq_true_eq, hx]
        omega
      | cons y tl2 => simp at hlen
  | succ m ih =>
    intro k tailp e hlen hoff he
    have hk := hpage k
    have he2 := he (by omega)
    rw [List.replicate_succ, List.cons_append, List.enumFrom_cons, List.map_cons]
    simp only [pinned_shape, Bool.and_eq_true, decide_eq_true_eq]
    refine ⟨⟨he2, by omega⟩, ?_⟩
    exact ih (k + 1) tailp _ hlen hoff (by intro _; simp only; omega)

theorem pinner_do_pin_shape (page_phys : Nat → Nat) (env : Option Nat) (usr_buf sz : Nat)
    (pl : physlist) (hpage : ∀ i, page_phys i % PAGE_SIZE = 0)
    (h : pinner_do_pin page_phys env usr_buf sz = Except.ok pl) :
    pinned_shape pl = true := by
  have hP : PAGE_SIZE = 4096 := by decide
  have hpage64 : ∀ i, page_phys i % 64 = 0 := by
    intro i
    have := hpage i
    rw [hP] at this
    omega
  have hfpo : usr_buf - ((usr_buf ||| (2 ^ 12 - 1)) - (2 ^ 12 - 1)) = usr_buf % 4096 := by
    rw [lor_page_mask]
    have := Nat.mod_le usr_buf (2 ^ 12)
    omega
  have hmod : usr_buf % 4096 < 4096 := Nat.mod_lt _ (by norm_num)
  unfold pinner_do_pin at h
  simp only [PAGE_SHIFT, PINNER_MAX_PAGES, hfpo] at h
  have e1 : (2 : Nat) ^ 12 = 4096 := by norm_num
  have e2 : (4096 : Nat) - 1 = 4095 := by norm_num
  rw [e1, e2] at h
  generalize hn : (usr_buf % 4096 + sz + 4095) / 4096 = n at h
  by_cases hbig : n > 1024
  · rw [if_pos hbig] at h; exact absurd h (by simp)
  rw [if_neg hbig] at h
  by_cases hzero : n ≤ 0
  · rw [if_pos hzero] at h; exact absurd h (by simp)
  rw [if_neg hzero] at h
  cases env with
  | some errno => exact absurd h (by simp)
  | none =>
    simp only [Except.ok.injEq] at h
    rw [← h]
    unfold List.enum pinner_alloc_and_fill_sglist
    simp only [PAGE_SIZE, PAGE_SHIFT, e1]
    have hroom : (4096 + 2 ^ 64 - usr_buf % 4096) % 2 ^ 64 = 4096 - usr_buf % 4096 := by omega
    rw [hroom]
    rw [List.append_assoc, List.singleton_append, List.enumFrom_cons, List.map_cons]
    refine pinned_shape_of_pages page_phys hpage64 (n - 2) (0 + 1) _ _ ?_ ?_ ?_
    · split <;> simp
    · intro p hp
      split at hp
      · simp only [List.mem_singleton] at hp; rw [hp]
      · simp at hp
    · intro hpos
      have hn1 : n > 1 := by
        by_contra hle
        rw [if_neg hle] at hpos
        simp only [List.length_nil] at hpos
        omega
      have hge : ¬ sz < 4096 - usr_buf % 4096 := by
        intro hlt
        have : (usr_buf % 4096 + sz + 4095) / 4096 ≤ 1 := by omega
        omega
      have h0 := hpage64 0
      simp only
      rw [if_neg hge]
      omega

theorem pinner_do_pin_search_domain (page_phys : Nat → Nat) (env : Option Nat)
    (usr_buf sz : Nat) (pl : physlist) (hsz : 1 ≤ sz) (hsz2 : sz < 2 ^ 32)
    (hpage : ∀ i, page_phys i % PAGE_SIZE = 0)
    (h : pinner_do_pin page_phys env usr_buf sz = Except.ok pl) :
    pinned_shape pl = true ∧ plist_total pl + 64 ≤ 2 ^ 32 := by
  refine ⟨pinner_do_pin_shape page_phys env usr_buf sz pl hpage h, ?_⟩
  obtain ⟨ht, _, hl, hm⟩ := pinner_do_pin_spans page_phys env usr_buf sz pl hsz hsz2 h
  have hP : PAGE_SIZE = 4096 := by decide
  have hM : PINNER_MAX_PAGES = 1024 := rfl
  rw [hl, hP, hM] at hm
  rw [ht]
  omega

/-! ## Atomicity of `axidma_add_entry` -/

/-- C1. Whenever `axidma_add_entry` returns a code other than
`ADD_ENTRY_SUCCESS`, the list after the call is the list before it: chain,
descriptor cursor, data cursor and traversal cursor are all unchanged. -/
theorem add_entry_atomic (heap : Nat) (lst : sg_list) (sz : Nat)
    (h : (axidma_add_entry heap lst sz).1 ≠ add_entry_code.ADD_ENTRY_SUCCESS) :
    (axidma_add_entry heap lst sz).2 = lst := by
  unfold axidma_add_entry at h ⊢
  by_cases hsz : sz = 0
  · simp [hsz]
  · cases hg : get_entry_index lst.data_plist lst.data_offset with
    | none => simp [hsz, hg]
    | some p =>
      obtain ⟨ind, oie⟩ := p
      cases hd : lst.data_plist.drop ind with
      | nil => simp [hsz, hg, hd]
      | cons cur rest =>
        cases hl : add_entry_loop lst.sg_plist lst.data_plist rest cur heap oie sz
            lst.sg_offset lst.data_offset [] with
        | error c => simp [hsz, hg, hd, hl]
        | staged es s d => simp [hsz, hg, hd, hl] at h

/-- Witness for C1: a 1601-byte request on the fresh 1600-byte arena stages one
record, runs out of data spans and returns `ADD_ENTRY_BUF_OOM`. -/
theorem add_entry_atomic_witness :
    (axidma_add_entry 4 lst_fresh 1601).1 = add_entry_code.ADD_ENTRY_BUF_OOM ∧
      (axidma_add_entry 4 lst_fresh 1601).2 = lst_fresh :=
  ⟨by decide, add_entry_atomic 4 lst_fresh 1601 (by decide)⟩

/-! ## The aligned-span search on spans that end off a 64-byte boundary -/

/-- C2. Failing inputs: on the 4140-byte physlist, the search for 56 bytes from
offset 4136 returns 4144, which lies in no span at all; on the three short
spans, the search from 0 returns 48, and the bytes 48 and 103 of the returned
unit lie in different spans. -/
theorem find_contiguous_crosses_span :
    find_contiguous_aligned_after plist_4140 4136 56 = 4144 ∧
      get_entry_index plist_4140 4144 = none ∧
      find_contiguous_aligned_after plist_short 0 56 = 48 ∧
      get_entry_index plist_short 48 = some (1, 8) ∧
      get_entry_index plist_short (48 + 56 - 1) = some (2, 33) := by
  decide

/-! ## The physical alignment of the offset found -/

/-- Outside the shape of a pinned buffer the search does not keep its
alignment: on the three short spans, the first of which ends off a 64-byte
boundary, the search for 56 bytes from offset 0 returns 48, whose physical
address 0x2008 is not a multiple of 64. -/
theorem unshaped_search_misaligned :
    pinned_shape plist_short = false ∧
      find_contiguous_aligned_after plist_short 0 56 = 48 ∧
      find_contiguous_aligned_after plist_short 0 56 ≠ AXIDMA_NOT_FOUND ∧
      virt_to_phys plist_short 48 = 0x2008 ∧
      virt_to_phys plist_short 48 % 64 = 8 := by
  decide

/-- C4, as the code has it. For a fresh list and successful calls
`axidma_add_entry(sz_1 .. sz_N)` (each size an `unsigned`), followed by
`axidma_write_sg_list`, if every record built is shorter than `2 ^ 26` bytes
and the hardware reports success on every descriptor, then `N + 1` calls of
`axidma_dequeue_s2mm_buf` return the `N` buffers in the order they were added,
the i-th with code `TRANSFER_SUCCESS`, length `sz_i` and base
`data_buf + (sz_1 + ... + sz_(i-1)) mod 2 ^ 32`, and then `END_OF_LIST`. -/
theorem chain_round_trip (g : sg_entry) (sg_buf data_buf : Nat) (sg_plist data_plist : physlist)
    (calls : List (Nat × Nat)) (lst : sg_list) (c : axidma_ctx) (m0 m : Mem)
    (hadd : add_entries (axidma_list_new g sg_buf sg_plist data_buf data_plist) calls = some lst)
    (hsz : ∀ p ∈ calls, p.2 < 2 ^ 32)
    (hlen : ∀ e ∈ lst.chain, e.len < 2 ^ 26)
    (hhw : hw_reports_success m lst.chain) :
    (axidma_write_sg_list (some c) (some lst) m0).2.1.map
        (fun l1 => (dequeue_n m (calls.length + 1) l1).1) =
      some (expected_bufs data_buf 0 (calls.map Prod.snd) ++
        [{ base := 0, len := 0, code := buf_code.END_OF_LIST }]) := by
  obtain ⟨new, hl, hnew⟩ := add_entries_groups calls _ lst 0 rfl hadd
  simp only [axidma_list_new, List.nil_append] at hl
  have hchain : lst.chain = new := by rw [hl]
  have hbuf : lst.data_buf = data_buf := by rw [hl]
  have hcur : lst.to_vist = cursor.null := by rw [hl]
  have hszs : ∀ sz ∈ calls.map Prod.snd, sz < 2 ^ 32 := by
    intro sz hs
    obtain ⟨p, hp, rfl⟩ := List.mem_map.1 hs
    exact hsz p hp
  cases calls with
  | nil =>
    simp only [List.map_nil, chain_groups] at hnew
    have hnil : lst.chain = [] := by rw [hchain, hnew]
    simp [axidma_write_sg_list, hnil, dequeue_n, axidma_dequeue_s2mm_buf, hcur, expected_bufs]
  | cons call calls =>
    have hne : lst.chain ≠ [] := by
      rw [hchain]
      obtain ⟨grp, rest, rfl, ⟨body, last, rfl, _⟩, _⟩ := hnew
      simp
    rw [write_sg_list_cursor c lst m0 hne]
    simp only [Option.map_some', Option.some.injEq]
    have h := dequeue_n_groups m ((call :: calls).map Prod.snd) 0 [] lst.chain
      { lst with to_vist := cursor.entry 0 } rfl (hchain ▸ hnew)
      (by rw [if_neg hne]; rfl) hhw hlen hszs
    simp only [List.length_map] at h
    rw [h, hbuf]

/-- Witness for C4 as amended: requests of 1200 and 400 bytes on the fresh list
of the example scenario. -/
theorem chain_round_trip_witness :
    (axidma_write_sg_list (some { lst := false }) (some lst_two) mem_zero).2.1.map
        (fun l1 => (dequeue_n mem_two ([(4, 1200), (4, 400)].length + 1) l1).1) =
      some (expected_bufs 0x7e0000 0 ([(4, 1200), (4, 400)].map Prod.snd) ++
        [{ base := 0, len := 0, code := buf_code.END_OF_LIST }]) :=
  chain_round_trip zero_entry 0x7f0000 0x7e0000 [{ addr := 0x20000, len := 4096 }] plist_data_1600
    [(4, 1200), (4, 400)] lst_two { lst := false } mem_zero mem_two
    (by decide) (by decide) (by decide) (by decide)

/-- C4, counterexample. On a data arena of two spans of 4 GiB - 1 bytes the
requests 4294967295, 2 and 1 all succeed and the hardware reports success on
every descriptor, yet the first buffer comes back with length 67108863, not
4294967295, and the third with base `data_buf + 1`, not
`data_buf + 4294967297`. -/
theorem chain_round_trip_counterexample :
    add_entries lst_huge_fresh [(1, 4294967295), (1, 2), (1, 1)] = some lst_huge ∧
      hw_reports_success mem_huge lst_huge.chain ∧
      (axidma_write_sg_list (some { lst := false }) (some lst_huge) mem_zero).2.1.map
          (fun l1 => (dequeue_n mem_huge 4 l1).1) =
        some [{ base := 0x10000000 + 0, len := 67108863, code := buf_code.TRANSFER_SUCCESS },
              { base := 0x10000000 + 4294967295, len := 2, code := buf_code.TRANSFER_SUCCESS },
              { base := 0x10000000 + 1, len := 1, code := buf_code.TRANSFER_SUCCESS },
              { base := 0, len := 0, code := buf_code.END_OF_LIST }] ∧
      (67108863 : Nat) ≠ 4294967295 ∧
      0x10000000 + 1 ≠ 0x10000000 + (4294967295 + 2) := by
  decide

/-! ## Resetting the traversal -/

/-- C5. For a list with a non-empty chain, materialized by
`axidma_write_sg_list`, and any fixed content `m` of the descriptor memory:
a drain (given more calls than there are records) ends with `END_OF_LIST`
and leaves the cursor NULL; after `axidma_reset_lst_traversal` a second drain
yields exactly what the first one did.  The reset puts the cursor on the first
record whatever its former value `cur` and changes no other field. -/
theorem reset_replays_drain (c : axidma_ctx) (lst : sg_list) (m0 m : Mem) (fuel : Nat)
    (hne : lst.chain ≠ []) (hfuel : lst.chain.length < fuel) :
    (axidma_write_sg_list (some c) (some lst) m0).2.1 =
        some { lst with to_vist := cursor.entry 0 } ∧
      (drain m fuel { lst with to_vist := cursor.entry 0 }).map Prod.snd =
        some { lst with to_vist := cursor.null } ∧
      drain m fuel (axidma_reset_lst_traversal { lst with to_vist := cursor.null }) =
        drain m fuel { lst with to_vist := cursor.entry 0 } ∧
      ∀ cur : cursor, axidma_reset_lst_traversal { lst with to_vist := cur } =
        { lst with to_vist := cursor.entry 0 } := by
  have hpos : 0 < lst.chain.length := List.length_pos.2 hne
  obtain ⟨rs, hrs⟩ := drain_terminates m fuel { lst with to_vist := cursor.entry 0 } 0
    hpos rfl (by simp only; omega)
  have hreset : ∀ cur : cursor, axidma_reset_lst_traversal { lst with to_vist := cur } =
      { lst with to_vist := cursor.entry 0 } := fun cur => reset_nonempty _ hne
  refine ⟨write_sg_list_cursor c lst m0 hne, ?_, ?_, hreset⟩
  · rw [hrs]; rfl
  · rw [hreset]

/-- Witness for C5: the two-record list of the example scenario, drained with
three calls on zeroed descriptor memory. -/
theorem reset_replays_drain_witness :
    (axidma_write_sg_list (some { lst := false }) (some lst_1600) mem_zero).2.1 =
        some { lst_1600 with to_vist := cursor.entry 0 } ∧
      (drain mem_zero 3 { lst_1600 with to_vist := cursor.entry 0 }).map Prod.snd =
        some { lst_1600 with to_vist := cursor.null } ∧
      drain mem_zero 3 (axidma_reset_lst_traversal { lst_1600 with to_vist := cursor.null }) =
        drain mem_zero 3 { lst_1600 with to_vist := cursor.entry 0 } ∧
      ∀ cur : cursor, axidma_reset_lst_traversal { lst_1600 with to_vist := cur } =
        { lst_1600 with to_vist := cursor.entry 0 } :=
  reset_replays_drain { lst := false } lst_1600 mem_zero mem_zero 3 (by decide) (by decide)

/-! ## The end of the data arena -/

/-- C6. When the data cursor lies in the last span of the data physlist, with
`r = cur.len - offset_in_entry` bytes left in it (and `r + 1` a value of type
`unsigned`), the descriptor arena has room for one descriptor and `malloc`
can serve one record, then `r > 0`, `axidma_add_entry(r)` returns
`ADD_ENTRY_SUCCESS` and appends exactly one record, of length `r`, and
`axidma_add_entry(r + 1)` returns `ADD_ENTRY_BUF_OOM` and leaves the list as
it was. -/
theorem add_entry_boundary (heap : Nat) (lst : sg_list) (ind oie : Nat)
    (cur : pinner_physlist_entry)
    (hidx : get_entry_index lst.data_plist lst.data_offset = some (ind, oie))
    (hlast : lst.data_plist.drop ind = [cur])
    (hroom : find_contiguous_aligned_after lst.sg_plist lst.sg_offset sizeof_sg_descriptor ≠
      AXIDMA_NOT_FOUND)
    (hheap : 0 < heap)
    (hr : cur.len - oie + 1 < 2 ^ 32) :
    0 < cur.len - oie ∧
      axidma_add_entry heap lst (cur.len - oie) =
        (add_entry_code.ADD_ENTRY_SUCCESS,
          { lst with
            chain := lst.chain ++
              [{ sg_offset :=
                   find_contiguous_aligned_after lst.sg_plist lst.sg_offset sizeof_sg_descriptor,
                 data_offset := lst.data_offset,
                 buf_phys := virt_to_phys lst.data_plist lst.data_offset,
                 len := cur.len - oie, is_SOF := true, is_EOF := true }],
            sg_offset :=
              (find_contiguous_aligned_after lst.sg_plist lst.sg_offset sizeof_sg_descriptor
                + sizeof_sg_descriptor) % 2 ^ 32,
            data_offset := (lst.data_offset + (cur.len - oie)) % 2 ^ 32 }) ∧
      axidma_add_entry heap lst (cur.len - oie + 1) =
        (add_entry_code.ADD_ENTRY_BUF_OOM, lst) := by
  obtain ⟨cur2, rest2, hd, hlt, _⟩ := get_entry_index_spec _ _ _ _ hidx
  rw [hlast] at hd
  simp only [List.cons.injEq] at hd
  obtain ⟨rfl, _⟩ := hd
  obtain ⟨h, rfl⟩ : ∃ h, heap = h + 1 := ⟨heap - 1, by omega⟩
  have hspace : (cur.len + 2 ^ 32 - oie) % 2 ^ 32 = cur.len - oie := by omega
  refine ⟨by omega, ?_, ?_⟩
  · unfold axidma_add_entry
    rw [if_neg (by omega), hidx]
    simp only [hlast]
    rw [add_entry_loop_fit _ _ _ _ _ _ _ _ _ _ (by omega) hroom (by omega)]
    rfl
  · unfold axidma_add_entry
    rw [if_neg (by omega), hidx]
    simp only [hlast]
    rw [add_entry_loop_last_over _ _ _ _ _ _ _ _ _ (by omega) hroom (by omega)]

/-- Witness for C6: 400 bytes are left in the last span of `lst_tail`; a
request for 400 succeeds and a request for 401 returns `ADD_ENTRY_BUF_OOM`. -/
theorem add_entry_boundary_witness :
    0 < 600 - 200 ∧
      (axidma_add_entry 1 lst_tail (600 - 200)).1 = add_entry_code.ADD_ENTRY_SUCCESS ∧
      (axidma_add_entry 1 lst_tail (600 - 200)).2.chain.length = lst_tail.chain.length + 1 ∧
      axidma_add_entry 1 lst_tail (600 - 200 + 1) = (add_entry_code.ADD_ENTRY_BUF_OOM, lst_tail) :=
  have h := add_entry_boundary 1 lst_tail 1 200 { addr := 0x90000, len := 600 }
    (by decide) (by decide) (by decide) (by decide) (by decide)
  ⟨h.1, congrArg Prod.fst h.2.1, by rw [h.2.1]; simp, h.2.2⟩

/-! ## The example scenario of the specification -/

/-- C7. On a fresh list whose data physlist has spans of 1000 and 600 bytes and
whose descriptor physlist is one 64-byte-aligned span of 4096 bytes,
`axidma_add_entry(1600)` returns `ADD_ENTRY_SUCCESS`, appends exactly two
records (data offset 0, length 1000, SOF only; data offset 1000, length 600,
EOF only) and leaves the data cursor at 1600; a following `axidma_add_entry(1)`
returns `ADD_ENTRY_BUF_OOM`. -/
theorem example_scenario_data (g : sg_entry) (sg_buf data_buf heap heap2 a0 a1 sa : Nat)
    (hheap : 2 ≤ heap) (hsa : sa % 64 = 0) :
    (axidma_add_entry heap
        (axidma_list_new g sg_buf [{ addr := sa, len := 4096 }] data_buf
          [{ addr := a0, len := 1000 }, { addr := a1, len := 600 }]) 1600).1 =
        add_entry_code.ADD_ENTRY_SUCCESS ∧
      (axidma_add_entry heap
        (axidma_list_new g sg_buf [{ addr := sa, len := 4096 }] data_buf
          [{ addr := a0, len := 1000 }, { addr := a1, len := 600 }]) 1600).2.chain.map
          (fun e => (e.data_offset, e.len, e.is_SOF, e.is_EOF)) =
        [(0, 1000, true, false), (1000, 600, false, true)] ∧
      (axidma_add_entry heap
        (axidma_list_new g sg_buf [{ addr := sa, len := 4096 }] data_buf
          [{ addr := a0, len := 1000 }, { addr := a1, len := 600 }]) 1600).2.data_offset = 1600 ∧
      (axidma_add_entry heap2
        (axidma_add_entry heap
          (axidma_list_new g sg_buf [{ addr := sa, len := 4096 }] data_buf
            [{ addr := a0, len := 1000 }, { addr := a1, len := 600 }]) 1600).2 1).1 =
        add_entry_code.ADD_ENTRY_BUF_OOM := by
  rw [scenario_add g sg_buf data_buf heap a0 a1 sa hheap hsa]
  refine ⟨rfl, rfl, rfl, ?_⟩
  have hidx : get_entry_index [({ addr := a0, len := 1000 } : pinner_physlist_entry),
      { addr := a1, len := 600 }] 1600 = none := by
    simp [get_entry_index, get_entry_index_from]
  exact congrArg Prod.fst (add_entry_no_span heap2 _ 1 (by decide) hidx)

/-- Witness for C7: the scenario with the descriptor span at 0x20000. -/
theorem example_scenario_data_witness :
    (axidma_add_entry 2 lst_fresh 1600).1 = add_entry_code.ADD_ENTRY_SUCCESS ∧
      (axidma_add_entry 2 lst_fresh 1600).2.chain.map
          (fun e => (e.data_offset, e.len, e.is_SOF, e.is_EOF)) =
        [(0, 1000, true, false), (1000, 600, false, true)] ∧
      (axidma_add_entry 2 lst_fresh 1600).2.data_offset = 1600 ∧
      (axidma_add_entry 0 (axidma_add_entry 2 lst_fresh 1600).2 1).1 =
        add_entry_code.ADD_ENTRY_BUF_OOM :=
  example_scenario_data zero_entry 0x7f0000 0x7e0000 2 0 0x40000 0x90000 0x20000 (by decide)
    (by decide)

/-- C8, as the code has it. In the example scenario the two records are placed
at descriptor offsets 0 and 64 and the descriptor cursor ends at
64 + sizeof(sg_descriptor) = 120: the cursor advances by the width of the
record, which is 56 bytes, and only the search rounds it up to the next
64-byte boundary, so that a further descriptor would go to offset 128. -/
theorem example_scenario_descriptors (g : sg_entry) (sg_buf data_buf heap a0 a1 sa : Nat)
    (hheap : 2 ≤ heap) (hsa : sa % 64 = 0) :
    (axidma_add_entry heap
        (axidma_list_new g sg_buf [{ addr := sa, len := 4096 }] data_buf
          [{ addr := a0, len := 1000 }, { addr := a1, len := 600 }]) 1600).2.chain.map
          (fun e => e.sg_offset) = [0, 64] ∧
      (axidma_add_entry heap
        (axidma_list_new g sg_buf [{ addr := sa, len := 4096 }] data_buf
          [{ addr := a0, len := 1000 }, { addr := a1, len := 600 }]) 1600).2.sg_offset =
        64 + sizeof_sg_descriptor ∧
      sizeof_sg_descriptor = 56 ∧
      find_contiguous_aligned_after [{ addr := sa, len := 4096 }] (64 + sizeof_sg_descriptor)
        sizeof_sg_descriptor = 128 := by
  rw [scenario_add g sg_buf data_buf heap a0 a1 sa hheap hsa]
  exact ⟨rfl, rfl, rfl, find_fresh_third sa hsa⟩

/-- Witness for C8 as amended: the scenario with the descriptor span at
0x20000. -/
theorem example_scenario_descriptors_witness :
    (axidma_add_entry 2 lst_fresh 1600).2.chain.map (fun e => e.sg_offset) = [0, 64] ∧
      (axidma_add_entry 2 lst_fresh 1600).2.sg_offset = 64 + sizeof_sg_descriptor ∧
      sizeof_sg_descriptor = 56 ∧
      find_contiguous_aligned_after [{ addr := 0x20000, len := 4096 }]
        (64 + sizeof_sg_descriptor) sizeof_sg_descriptor = 128 :=
  example_scenario_descriptors zero_entry 0x7f0000 0x7e0000 2 0x40000 0x90000 0x20000
    (by decide) (by decide)

/-- C8, counterexample. In the example scenario the call succeeds and leaves
the descriptor cursor at 64 + sizeof(sg_descriptor), which is 120 and not
128. -/
theorem example_scenario_cursor_not_128 :
    (axidma_add_entry 2 lst_fresh 1600).1 = add_entry_code.ADD_ENTRY_SUCCESS ∧
      (axidma_add_entry 2 lst_fresh 1600).2.sg_offset = 64 + sizeof_sg_descriptor ∧
      (axidma_add_entry 2 lst_fresh 1600).2.sg_offset = 120 ∧
      (axidma_add_entry 2 lst_fresh 1600).2.sg_offset ≠ 128 := by
  decide

/-! ## Writing the chain to the descriptor memory -/

/-- C9. Failing input: a list of two records, at descriptor offsets 48 and 112
of a buffer whose first span starts at physical address 0x10010.  The first
descriptor gets the address of the second slot, 0x10080, as its next
descriptor.  The last descriptor gets `virt_to_phys(sg_plist, sentinel.sg_offset)`,
the sentinel being the node after the last record: 0x10010 when the
uninitialised field holds 0 and 0x23078 when it holds 4200, not the address
0x10040 of the first record's slot. -/
theorem write_sg_list_last_link :
    (lst_link zero_entry).chain.map (fun e => e.sg_offset) = [48, 112] ∧
      virt_to_phys plist_5000 48 = 0x10040 ∧
      virt_to_phys plist_5000 112 = 0x10080 ∧
      next_desc_lsb (mem_link zero_entry) 48 + 2 ^ 32 * next_desc_msb (mem_link zero_entry) 48 =
        0x10080 ∧
      next_desc_lsb (mem_link zero_entry) 112 + 2 ^ 32 * next_desc_msb (mem_link zero_entry) 112 =
        0x10010 ∧
      next_desc_lsb (mem_link stale_entry) 112 + 2 ^ 32 * next_desc_msb (mem_link stale_entry) 112 =
        0x23078 := by
  decide

/-- C10, as the code has it. For a list built from a fresh one by successful
`axidma_add_entry` calls, over a descriptor arena of at most 2^32 - 120 bytes
(so that the `unsigned` descriptor cursor never wraps), every record of which
has its slot inside the descriptor buffer (`sg_offset + sizeof(sg_descriptor)`
is at most the total length of the descriptor physlist, so that no store of
`axidma_write_sg_list` falls outside the buffer), after
`axidma_write_sg_list` the slot of every record of the chain holds that
record's own values: buffer address, control sof and eof, control length equal
to the record length modulo 2^26, and all status sub-fields zero; the slots
are pairwise disjoint, so no write touches the slot of another record; and no
byte past the end of the descriptor buffer is changed. -/
theorem write_sg_list_materializes (g : sg_entry) (sg_buf data_buf : Nat)
    (sg_plist data_plist : physlist) (calls : List (Nat × Nat)) (lst : sg_list)
    (c : axidma_ctx) (m0 : Mem)
    (hadd : add_entries (axidma_list_new g sg_buf sg_plist data_buf data_plist) calls = some lst)
    (hT : plist_total sg_plist + 120 ≤ 2 ^ 32)
    (hin : ∀ r ∈ lst.chain, r.sg_offset + sizeof_sg_descriptor ≤ plist_total sg_plist) :
    (∀ r ∈ lst.chain, slot_holds (axidma_write_sg_list (some c) (some lst) m0).2.2 r) ∧
      lst.chain.Pairwise (fun a b => a.sg_offset + sizeof_sg_descriptor ≤ b.sg_offset) ∧
      ∀ x, plist_total sg_plist ≤ x →
        (axidma_write_sg_list (some c) (some lst) m0).2.2.byte x = m0.byte x := by
  obtain ⟨⟨hp, hall⟩, _, _⟩ := add_entries_slots calls
    (axidma_list_new g sg_buf sg_plist data_buf data_plist) lst hT
    ⟨by simp [axidma_list_new], by simp [axidma_list_new]⟩ hadd
  refine ⟨?_, List.pairwise_map.1 hp, ?_⟩
  · intro r hr
    have hw : (axidma_write_sg_list (some c) (some lst) m0).2.2 =
        write_sg_entries lst.sg_plist lst.sentinel lst.chain m0 := by
      unfold axidma_write_sg_list
      cases hch : lst.chain with
      | nil => rw [hch] at hr; simp at hr
      | cons e rest => simp [hch]
    rw [hw]
    exact write_sg_entries_holds _ _ _ m0 hp (fun q hq => (hall q hq).2) r hr
  · intro x hx
    by_cases hne : lst.chain = []
    · simp [axidma_write_sg_list, hne]
    · rw [write_sg_list_mem c lst m0 hne]
      apply write_sg_entries_byte_other
      intro r hr
      have h1 := hin r hr
      have hs := sizeof_sg_descriptor_eq
      omega

/-- Witness for C10 as amended: the three-record list built by requests of
1200 and 400 bytes, whose slots at 0, 64 and 128 lie inside the one-page
descriptor buffer. -/
theorem write_sg_list_materializes_witness :
    lst_two.chain.map (fun e => e.sg_offset) = [0, 64, 128] ∧
      (∀ r ∈ lst_two.chain,
        slot_holds (axidma_write_sg_list (some { lst := false }) (some lst_two) mem_zero).2.2 r) ∧
      lst_two.chain.Pairwise (fun a b => a.sg_offset + sizeof_sg_descriptor ≤ b.sg_offset) ∧
      ∀ x, plist_total [{ addr := 0x20000, len := 4096 }] ≤ x →
        (axidma_write_sg_list (some { lst := false }) (some lst_two) mem_zero).2.2.byte x =
          mem_zero.byte x :=
  ⟨by decide,
    write_sg_list_materializes zero_entry 0x7f0000 0x7e0000 [{ addr := 0x20000, len := 4096 }]
      plist_data_1600 [(4, 1200), (4, 400)] lst_two { lst := false } mem_zero
      (by decide) (by decide) (by decide)⟩

/-- C10, counterexample. One successful request of 64 MiB over a single data
span builds a record of length 67108864; after `axidma_write_sg_list` the
control length in its slot is 0, not the record's length.  And over a
descriptor arena of one span of 4 GiB - 1 bytes, `2 ^ 26 + 1` successful
requests of one byte leave the last record at descriptor offset 0, where the
first record lies (the `unsigned` cursor has wrapped); after
`axidma_write_sg_list` that slot does not hold the values of the first
record. -/
theorem write_sg_list_counterexample :
    add_entries lst_64m_fresh [(1, 67108864)] = some lst_64m ∧
      lst_64m.chain.map (fun e => (e.sg_offset, e.len)) = [(0, 67108864)] ∧
      control_len
        (axidma_write_sg_list (some { lst := false }) (some lst_64m) mem_zero).2.2 0 = 0 ∧
      (0 : Nat) ≠ 67108864 ∧
      add_entries lst_wrap_fresh (List.replicate 67108864 (1, 1) ++ [(1, 1)]) =
        some lst_wrapped ∧
      wrap_record 0 ∈ lst_wrapped.chain ∧
      ¬ slot_holds
        (axidma_write_sg_list (some { lst := false }) (some lst_wrapped) mem_zero).2.2
        (wrap_record 0) :=
  ⟨by decide, by decide, by decide, by decide, wrap_reach,
    (wrap_overwrites { lst := false } mem_zero).1, (wrap_overwrites { lst := false } mem_zero).2⟩

/-! ## Where a dequeued group ends -/

/-- C11, counterexample. On the three-record chain of `lst_two`, whose
construction-time end-of-frame flags are `[false, true, true]`, with the
cursor on the first record and a descriptor memory whose status words are all
zero, the walk does not stop at the second record (the first with `is_EOF`
set) but goes on to the third and last one, and the cursor is left on the
sentinel instead of on the third record. -/
theorem dequeue_group_end_counterexample :
    lst_two.chain.map (fun e => e.is_EOF) = [false, true, true] ∧
      group_end (fun e => e.is_EOF) lst_two.chain 0 = 1 ∧
      (axidma_dequeue_s2mm_buf { lst_two with to_vist := cursor.entry 0 } mem_zero).2.to_vist
        = cursor.sentinel ∧
      (axidma_dequeue_s2mm_buf { lst_two with to_vist := cursor.entry 0 } mem_zero).2.to_vist
        ≠ cursor.entry (group_end (fun e => e.is_EOF) lst_two.chain 0 + 1) := by
  decide

/-- C11, as the code has it. With the cursor on the record at position `i` of
the chain, the group walked by `axidma_dequeue_s2mm_buf` ends at the first record at or
after it whose descriptor in memory has `status.eof` set (the bit the hardware
writes back), or at the last record of the chain if there is none; the
construction-time flag `is_EOF` is not consulted.  The cursor is advanced to
the record that follows the last member of the group, or to the sentinel when
that member is the last record. -/
theorem dequeue_group_end (lst : sg_list) (m : Mem) (i : Nat)
    (hc : lst.to_vist = cursor.entry i) (hi : i < lst.chain.length) :
    ∃ e rest, lst.chain.drop i = e :: rest ∧
      (dequeue_walk m e rest i 0 buf_code.TRANSFER_SUCCESS).2.2 =
        group_end (fun e => decide (status_eof m e.sg_offset ≠ 0)) lst.chain i ∧
      group_end (fun e => decide (status_eof m e.sg_offset ≠ 0)) lst.chain i < lst.chain.length ∧
      (axidma_dequeue_s2mm_buf lst m).2 =
        { lst with
          to_vist :=
            if group_end (fun e => decide (status_eof m e.sg_offset ≠ 0)) lst.chain i + 1
                < lst.chain.length
            then cursor.entry
              (group_end (fun e => decide (status_eof m e.sg_offset ≠ 0)) lst.chain i + 1)
            else cursor.sentinel } := by
  obtain ⟨e, rest, hd⟩ : ∃ e rest, lst.chain.drop i = e :: rest := by
    cases hdr : lst.chain.drop i with
    | nil => simp at hdr; omega
    | cons e rest => exact ⟨e, rest, rfl⟩
  have hlen : rest.length + 1 = lst.chain.length - i := by
    have := congrArg List.length hd
    simpa using this.symm
  have hw := dequeue_walk_end m rest e i 0 buf_code.TRANSFER_SUCCESS
  have hg : group_end (fun e => decide (status_eof m e.sg_offset ≠ 0)) lst.chain i =
      (dequeue_walk m e rest i 0 buf_code.TRANSFER_SUCCESS).2.2 := by
    rw [hw]; unfold group_end; rw [hd]; simp
  refine ⟨e, rest, hd, hg.symm, ?_, ?_⟩
  · rw [hg, hw]; omega
  · rw [hg]
    unfold axidma_dequeue_s2mm_buf
    simp only [hc, hd]

/-- Witness for C11 as amended: `lst_two` after the hardware has
written its status words, cursor on the first record. -/
theorem dequeue_group_end_witness :
    ∃ e rest, ({ lst_two with to_vist := cursor.entry 0 } : sg_list).chain.drop 0 = e :: rest ∧
      (dequeue_walk mem_two e rest 0 0 buf_code.TRANSFER_SUCCESS).2.2 =
        group_end (fun e => decide (status_eof mem_two e.sg_offset ≠ 0))
          ({ lst_two with to_vist := cursor.entry 0 } : sg_list).chain 0 ∧
      group_end (fun e => decide (status_eof mem_two e.sg_offset ≠ 0))
          ({ lst_two with to_vist := cursor.entry 0 } : sg_list).chain 0
        < ({ lst_two with to_vist := cursor.entry 0 } : sg_list).chain.length ∧
      (axidma_dequeue_s2mm_buf { lst_two with to_vist := cursor.entry 0 } mem_two).2 =
        { ({ lst_two with to_vist := cursor.entry 0 } : sg_list) with
          to_vist :=
            if group_end (fun e => decide (status_eof mem_two e.sg_offset ≠ 0))
                ({ lst_two with to_vist := cursor.entry 0 } : sg_list).chain 0 + 1
                < ({ lst_two with to_vist := cursor.entry 0 } : sg_list).chain.length
            then cursor.entry
              (group_end (fun e => decide (status_eof mem_two e.sg_offset ≠ 0))
                ({ lst_two with to_vist := cursor.entry 0 } : sg_list).chain 0 + 1)
            else cursor.sentinel } :=
  dequeue_group_end { lst_two with to_vist := cursor.entry 0 } mem_two 0 rfl (by decide)

/-! ## What a dequeue at a record returns -/

/-- C12, counterexample. The length `ret.len` is an `unsigned` and the sum is
taken modulo `2 ^ 32`.  On the chain of 65 one-byte buffers,
with a descriptor memory in which every status word reads complete, no end of
frame, `status.len = 2 ^ 26 - 1`, the dequeue at the first record walks all 65
records, whose status lengths sum to 4362076095, and returns the length
67108799. -/
theorem dequeue_result_counterexample :
    add_entries lst_wrap_fresh (List.replicate 65 (1, 1)) = some (lst_wrap_state 65) ∧
      walked_group mem_full_len (lst_wrap_state 65).chain 0 = (lst_wrap_state 65).chain ∧
      ((walked_group mem_full_len (lst_wrap_state 65).chain 0).map
        (fun r => status_len mem_full_len r.sg_offset)).sum = 4362076095 ∧
      (axidma_dequeue_s2mm_buf { lst_wrap_state 65 with to_vist := cursor.entry 0 }
        mem_full_len).1.len = 67108799 := by
  refine ⟨?_, ?_, ?_, ?_⟩
  · have h := wrap_state_reach 65 0 (by norm_num)
    simpa [lst_wrap_state] using h
  · decide
  · decide
  · decide

/-- C12, as the code has it. With the cursor on the record `e` at position `i`,
`axidma_dequeue_s2mm_buf` returns `base = data_buf + e.data_offset`, `len`
equal to the sum of the `status.len` fields of the descriptors of the group it
walked, reduced modulo `2 ^ 32` (so equal to the sum itself when the group has
at most 64 descriptors), and a code that is `TRANSFER_FAILED` if and only if
some descriptor of that group has `status.complete = 0` or one of
`decode_err`, `int_err`, `slave_err` set, and `TRANSFER_SUCCESS` otherwise. -/
theorem dequeue_result (lst : sg_list) (m : Mem) (i : Nat) (e : sg_entry)
    (rest : List sg_entry) (hc : lst.to_vist = cursor.entry i)
    (hd : lst.chain.drop i = e :: rest) :
    (axidma_dequeue_s2mm_buf lst m).1.base = lst.data_buf + e.data_offset ∧
      (axidma_dequeue_s2mm_buf lst m).1.len =
        ((walked_group m lst.chain i).map (fun r => status_len m r.sg_offset)).sum % 2 ^ 32 ∧
      ((walked_group m lst.chain i).length ≤ 64 →
        (axidma_dequeue_s2mm_buf lst m).1.len =
          ((walked_group m lst.chain i).map (fun r => status_len m r.sg_offset)).sum) ∧
      ((axidma_dequeue_s2mm_buf lst m).1.code = buf_code.TRANSFER_FAILED ↔
        ∃ r ∈ walked_group m lst.chain i,
          status_complete m r.sg_offset = 0 ∨ status_decode_err m r.sg_offset ≠ 0 ∨
            status_int_err m r.sg_offset ≠ 0 ∨ status_slave_err m r.sg_offset ≠ 0) ∧
      ((axidma_dequeue_s2mm_buf lst m).1.code ≠ buf_code.TRANSFER_FAILED →
        (axidma_dequeue_s2mm_buf lst m).1.code = buf_code.TRANSFER_SUCCESS) := by
  obtain ⟨h1, h2⟩ := dequeue_walk_result m rest e i 0 buf_code.TRANSFER_SUCCESS
  have hg : walked_group m lst.chain i =
      (e :: rest).take
        (min ((e :: rest).findIdx (fun e => decide (status_eof m e.sg_offset ≠ 0)))
          rest.length + 1) := by
    unfold walked_group group_end
    rw [hd]
    congr 1
    simp only [List.length_cons, Nat.add_sub_cancel]
    omega
  have hr : axidma_dequeue_s2mm_buf lst m =
      ({ base := lst.data_buf + e.data_offset,
         len := (dequeue_walk m e rest i 0 buf_code.TRANSFER_SUCCESS).1,
         code := (dequeue_walk m e rest i 0 buf_code.TRANSFER_SUCCESS).2.1 },
       { lst with
         to_vist :=
           if (dequeue_walk m e rest i 0 buf_code.TRANSFER_SUCCESS).2.2 + 1 < lst.chain.length
           then cursor.entry ((dequeue_walk m e rest i 0 buf_code.TRANSFER_SUCCESS).2.2 + 1)
           else cursor.sentinel }) := by
    unfold axidma_dequeue_s2mm_buf
    simp only [hc, hd]
  rw [hr, hg]
  dsimp only
  rw [h1, h2]
  refine ⟨rfl, by rw [Nat.zero_add], ?_, ?_, ?_⟩
  · intro hlen
    rw [Nat.zero_add]
    apply Nat.mod_eq_of_lt
    have hs := status_len_sum_le m ((e :: rest).take
      (min ((e :: rest).findIdx (fun e => decide (status_eof m e.sg_offset ≠ 0)))
        rest.length + 1))
    omega
  · constructor
    · intro h
      by_cases ha : ((e :: rest).take
          (min ((e :: rest).findIdx (fun e => decide (status_eof m e.sg_offset ≠ 0)))
            rest.length + 1)).any (status_failed m) = true
      · obtain ⟨r, hr1, hr2⟩ := List.any_eq_true.mp ha
        refine ⟨r, hr1, ?_⟩
        simpa [status_failed] using hr2
      · rw [if_neg ha] at h
        exact absurd h (by decide)
    · rintro ⟨r, hr1, hr2⟩
      have ha : ((e :: rest).take
          (min ((e :: rest).findIdx (fun e => decide (status_eof m e.sg_offset ≠ 0)))
            rest.length + 1)).any (status_failed m) = true := by
        apply List.any_eq_true.mpr
        refine ⟨r, hr1, ?_⟩
        simpa [status_failed] using hr2
      rw [if_pos ha]
  · intro h
    by_cases ha : ((e :: rest).take
        (min ((e :: rest).findIdx (fun e => decide (status_eof m e.sg_offset ≠ 0)))
          rest.length + 1)).any (status_failed m) = true
    · rw [if_pos ha] at h
      exact absurd rfl h
    · rw [if_neg ha]

/-- Witness for C12 as amended: `lst_two` after a successful run of the
hardware, cursor on the first record. -/
theorem dequeue_result_witness :
    (axidma_dequeue_s2mm_buf { lst_two with to_vist := cursor.entry 0 } mem_two).1.base =
        lst_two.data_buf + 0 ∧
      (axidma_dequeue_s2mm_buf { lst_two with to_vist := cursor.entry 0 } mem_two).1.len =
        ((walked_group mem_two lst_two.chain 0).map
          (fun r => status_len mem_two r.sg_offset)).sum % 2 ^ 32 ∧
      ((walked_group mem_two lst_two.chain 0).length ≤ 64 →
        (axidma_dequeue_s2mm_buf { lst_two with to_vist := cursor.entry 0 } mem_two).1.len =
          ((walked_group mem_two lst_two.chain 0).map
            (fun r => status_len mem_two r.sg_offset)).sum) ∧
      ((axidma_dequeue_s2mm_buf { lst_two with to_vist := cursor.entry 0 } mem_two).1.code
          = buf_code.TRANSFER_FAILED ↔
        ∃ r ∈ walked_group mem_two lst_two.chain 0,
          status_complete mem_two r.sg_offset = 0 ∨ status_decode_err mem_two r.sg_offset ≠ 0 ∨
            status_int_err mem_two r.sg_offset ≠ 0 ∨ status_slave_err mem_two r.sg_offset ≠ 0) ∧
      ((axidma_dequeue_s2mm_buf { lst_two with to_vist := cursor.entry 0 } mem_two).1.code
          ≠ buf_code.TRANSFER_FAILED →
        (axidma_dequeue_s2mm_buf { lst_two with to_vist := cursor.entry 0 } mem_two).1.code
          = buf_code.TRANSFER_SUCCESS) :=
  dequeue_result { lst_two with to_vist := cursor.entry 0 } mem_two 0
    { sg_offset := 0, data_offset := 0, buf_phys := 0x40000, len := 1000, is_SOF := true,
      is_EOF := false }
    (lst_two.chain.drop 1) rfl (by decide)

/-! ## The end-of-list states of the traversal -/

/-- C13. On a list whose cursor is NULL, `axidma_dequeue_s2mm_buf` returns
`{NULL, 0, END_OF_LIST}` and leaves the list as it was, and so do any number
`n` of further calls; on a list whose cursor is the sentinel it returns
`{NULL, 0, END_OF_LIST}` and sets the cursor to NULL, the rest of the list
unchanged.  In both cases the result is the same for any two descriptor
memories `m` and `m2`: it does not depend on what the memory holds. -/
theorem dequeue_end_of_list (lst : sg_list) (m m2 : Mem) (n : Nat) :
    axidma_dequeue_s2mm_buf { lst with to_vist := cursor.null } m =
        ({ base := 0, len := 0, code := buf_code.END_OF_LIST },
          { lst with to_vist := cursor.null }) ∧
      dequeue_n m n { lst with to_vist := cursor.null } =
        (List.replicate n { base := 0, len := 0, code := buf_code.END_OF_LIST },
          { lst with to_vist := cursor.null }) ∧
      axidma_dequeue_s2mm_buf { lst with to_vist := cursor.sentinel } m =
        ({ base := 0, len := 0, code := buf_code.END_OF_LIST },
          { lst with to_vist := cursor.null }) ∧
      axidma_dequeue_s2mm_buf { lst with to_vist := cursor.null } m =
        axidma_dequeue_s2mm_buf { lst with to_vist := cursor.null } m2 ∧
      axidma_dequeue_s2mm_buf { lst with to_vist := cursor.sentinel } m =
        axidma_dequeue_s2mm_buf { lst with to_vist := cursor.sentinel } m2 :=
  ⟨rfl, dequeue_n_null m lst n, rfl, rfl, rfl⟩

/-- C14, counterexample. The function `axidma_list_new` itself leaves the
cursor NULL (line 126), and `axidma_add_entry` does not touch it.  After
`axidma_list_new` and one successful 1600-byte request the cursor is NULL
although no dequeue has been made at all, and a dequeue in that state returns
`END_OF_LIST`. -/
theorem empty_state_counterexample :
    (traced_run { lst := lst_fresh, positioned := false, consumed := false }
        [list_op.add 2 1600]).lst.to_vist = cursor.null ∧
      (traced_run { lst := lst_fresh, positioned := false, consumed := false }
        [list_op.add 2 1600]).consumed = false ∧
      (traced_run { lst := lst_fresh, positioned := false, consumed := false }
        [list_op.add 2 1600]).lst.chain.length = 2 ∧
      (axidma_dequeue_s2mm_buf
        (traced_run { lst := lst_fresh, positioned := false, consumed := false }
          [list_op.add 2 1600]).lst mem_zero).1.code = buf_code.END_OF_LIST := by
  decide

/-- C14, as the code has it. In every list state reached from
`axidma_list_new` by a sequence of calls of `axidma_add_entry`, `axidma_write_sg_list`,
`axidma_dequeue_s2mm_buf` and `axidma_reset_lst_traversal`, the cursor is NULL
only if no call has positioned it yet (no `axidma_write_sg_list` with a
context on a chain with a record, and no reset), or a dequeue has found the
cursor on the sentinel and returned `END_OF_LIST`. -/
theorem empty_state_reachability (garbage : sg_entry) (sg_buf : Nat) (sg_plist : physlist)
    (data_buf : Nat) (data_plist : physlist) (ops : List list_op) :
    (traced_run
        { lst := axidma_list_new garbage sg_buf sg_plist data_buf data_plist,
          positioned := false, consumed := false } ops).lst.to_vist = cursor.null →
      (traced_run
        { lst := axidma_list_new garbage sg_buf sg_plist data_buf data_plist,
          positioned := false, consumed := false } ops).positioned = false ∨
      (traced_run
        { lst := axidma_list_new garbage sg_buf sg_plist data_buf data_plist,
          positioned := false, consumed := false } ops).consumed = true :=
  traced_run_inv ops _ (fun _ => Or.inl rfl)

/-- Witness for C14 as amended: requests of 1200 and 400 bytes, the
list written to memory, then four dequeues on the memory the hardware left;
the fourth finds the cursor NULL, after the third found it on the sentinel. -/
theorem empty_state_reachability_witness :
    (traced_run
        { lst := axidma_list_new zero_entry 0x7f0000 [{ addr := 0x20000, len := 4096 }] 0x7e0000
            plist_data_1600,
          positioned := false, consumed := false }
        [list_op.add 4 1200, list_op.add 4 400, list_op.write (some { lst := false }) mem_zero,
          list_op.dequeue mem_two, list_op.dequeue mem_two, list_op.dequeue mem_two,
          list_op.dequeue mem_two]).lst.to_vist = cursor.null ∧
      ((traced_run
        { lst := axidma_list_new zero_entry 0x7f0000 [{ addr := 0x20000, len := 4096 }] 0x7e0000
            plist_data_1600,
          positioned := false, consumed := false }
        [list_op.add 4 1200, list_op.add 4 400, list_op.write (some { lst := false }) mem_zero,
          list_op.dequeue mem_two, list_op.dequeue mem_two, list_op.dequeue mem_two,
          list_op.dequeue mem_two]).positioned = false ∨
      (traced_run
        { lst := axidma_list_new zero_entry 0x7f0000 [{ addr := 0x20000, len := 4096 }] 0x7e0000
            plist_data_1600,
          positioned := false, consumed := false }
        [list_op.add 4 1200, list_op.add 4 400, list_op.write (some { lst := false }) mem_zero,
          list_op.dequeue mem_two, list_op.dequeue mem_two, list_op.dequeue mem_two,
          list_op.dequeue mem_two]).consumed = true) :=
  ⟨by decide,
    empty_state_reachability zero_entry 0x7f0000 [{ addr := 0x20000, len := 4096 }] 0x7e0000
      plist_data_1600
      [list_op.add 4 1200, list_op.add 4 400, list_op.write (some { lst := false }) mem_zero,
        list_op.dequeue mem_two, list_op.dequeue mem_two, list_op.dequeue mem_two,
        list_op.dequeue mem_two] (by decide)⟩

/-! ## Starting the transfer -/

/-- C15. `axidma_s2mm_transfer` called with a NULL context, with a context
whose `lst` is NULL, or (whatever the context) on a chain with no record that
has `is_EOF` set, makes no register write, does not go on to wait, and leaves
the list as it was; and `axidma_write_sg_list` on a chain with no record
returns the context (so `ctx->lst`), the list (so the cursor) and the
descriptor memory as they were. -/
theorem invalid_use_changes_nothing (ctx : Option axidma_ctx) (lst : sg_list)
    (wait_irq enable_timeout : Bool) (m : Mem) :
    ((axidma_s2mm_transfer none lst wait_irq enable_timeout).writes = [] ∧
        (axidma_s2mm_transfer none lst wait_irq enable_timeout).waited = false ∧
        (axidma_s2mm_transfer none lst wait_irq enable_timeout).lst = lst) ∧
      ((axidma_s2mm_transfer (some { lst := false }) lst wait_irq enable_timeout).writes = [] ∧
        (axidma_s2mm_transfer (some { lst := false }) lst wait_irq enable_timeout).waited
          = false ∧
        (axidma_s2mm_transfer (some { lst := false }) lst wait_irq enable_timeout).lst = lst) ∧
      ((∀ e ∈ lst.chain, e.is_EOF = false) →
        (axidma_s2mm_transfer ctx lst wait_irq enable_timeout).writes = [] ∧
        (axidma_s2mm_transfer ctx lst wait_irq enable_timeout).waited = false ∧
        (axidma_s2mm_transfer ctx lst wait_irq enable_timeout).lst = lst) ∧
      (lst.chain = [] →
        axidma_write_sg_list ctx (some lst) m = (ctx, some lst, m)) := by
  refine ⟨⟨rfl, rfl, rfl⟩, ⟨rfl, rfl, rfl⟩, ?_, ?_⟩
  · intro h
    have h0 : count_EOF 0 lst.chain = 0 := by
      rw [count_EOF_eq, Nat.zero_add, List.countP_eq_zero]
      intro e he
      simp [h e he]
    unfold axidma_s2mm_transfer
    cases ctx with
    | none => exact ⟨rfl, rfl, rfl⟩
    | some c =>
      dsimp only
      by_cases hc : c.lst = false
      · rw [if_pos hc]; exact ⟨rfl, rfl, rfl⟩
      · rw [if_neg hc, if_pos h0]; exact ⟨rfl, rfl, rfl⟩
  · intro h
    unfold axidma_write_sg_list
    cases ctx with
    | none => rfl
    | some c => simp only [h]

/-- Witness for C15: a materialized context and the fresh list, which
has no record at all. -/
theorem invalid_use_changes_nothing_witness :
    ((axidma_s2mm_transfer (some { lst := true }) lst_fresh true false).writes = [] ∧
        (axidma_s2mm_transfer (some { lst := true }) lst_fresh true false).waited = false ∧
        (axidma_s2mm_transfer (some { lst := true }) lst_fresh true false).lst = lst_fresh) ∧
      axidma_write_sg_list (some { lst := true }) (some lst_fresh) mem_zero =
        (some { lst := true }, some lst_fresh, mem_zero) :=
  ⟨(invalid_use_changes_nothing (some { lst := true }) lst_fresh true false mem_zero).2.2.1
      (by decide),
    (invalid_use_changes_nothing (some { lst := true }) lst_fresh true false mem_zero).2.2.2 rfl⟩

set_option maxRecDepth 100000 in
/-- C16, counterexample. The count is masked with `0xFF` before it is shifted into the register (line 454).  The chain of 256 one-byte buffers,
written to memory, has 256 records with the end-of-frame flag, and the value
stored to `S2MM_DMACR` is `0x7001`, whose bits 16..23 are 0. -/
theorem transfer_count_counterexample :
    add_entries lst_wrap_fresh (List.replicate 256 (1, 1)) = some (lst_wrap_state 256) ∧
      (axidma_write_sg_list (some { lst := false }) (some (lst_wrap_state 256)) mem_zero).1 =
        some { lst := true } ∧
      (lst_wrap_state 256).chain.countP (fun e => e.is_EOF) = 256 ∧
      (axidma_s2mm_transfer (some { lst := true }) (lst_wrap_state 256) false false).writes =
        [(axidma_reg.S2MM_curdesc_lsb, 0), (axidma_reg.S2MM_curdesc_msb, 1),
         (axidma_reg.S2MM_DMACR, 0x7001),
         (axidma_reg.S2MM_taildesc_lsb, 16320), (axidma_reg.S2MM_taildesc_msb, 1)] ∧
      0x7001 / 2 ^ 16 % 256 = 0 := by
  refine ⟨?_, ?_, ?_, ?_, ?_⟩
  · exact wrap_state_reach 256 0 (by norm_num)
  · decide
  · decide
  · decide
  · decide

/-- C16, as the code has it. For a context whose `lst` is set (the chain has
been written to memory) and a chain with `c >= 1` records that have the end-of-frame flag,
`axidma_s2mm_transfer` stores to `S2MM_DMACR` exactly once, and bits 16..23 of
the value stored equal `c` modulo 256. -/
theorem transfer_count (lst : sg_list) (wait_irq enable_timeout : Bool)
    (h : 1 ≤ lst.chain.countP (fun e => e.is_EOF)) :
    ∃ v, (axidma_s2mm_transfer (some { lst := true }) lst wait_irq enable_timeout).writes.filter
          (fun w => decide (w.1 = axidma_reg.S2MM_DMACR)) = [(axidma_reg.S2MM_DMACR, v)] ∧
      v / 2 ^ 16 % 256 = lst.chain.countP (fun e => e.is_EOF) % 256 := by
  refine ⟨dmacr_value enable_timeout (lst.chain.countP (fun e => e.is_EOF)), ?_,
    dmacr_value_field _ _⟩
  rw [transfer_started { lst := true } lst wait_irq enable_timeout rfl (by omega)]
  rfl

/-- Witness for C16 as amended: the three-record chain of `lst_two`,
two of whose records have the end-of-frame flag. -/
theorem transfer_count_witness :
    ∃ v, (axidma_s2mm_transfer (some { lst := true }) lst_two false false).writes.filter
          (fun w => decide (w.1 = axidma_reg.S2MM_DMACR)) = [(axidma_reg.S2MM_DMACR, v)] ∧
      v / 2 ^ 16 % 256 = lst_two.chain.countP (fun e => e.is_EOF) % 256 :=
  transfer_count lst_two false false (by decide)

/-- C17. For a list built from `axidma_list_new` by successful
`axidma_add_entry` calls, with first record `first` and last record `last`,
and written to memory by `axidma_write_sg_list`, `axidma_s2mm_transfer` makes
exactly five register stores, in this order: `S2MM_curdesc_lsb`,
`S2MM_curdesc_msb`, `S2MM_DMACR`, `S2MM_taildesc_lsb`, `S2MM_taildesc_msb`.
The two current-descriptor words are 32-bit values that recombine to
`virt_to_phys(sg_plist, first.sg_offset)`, the two tail-descriptor words
recombine to `virt_to_phys(sg_plist, last.sg_offset)`, and the tail-descriptor
stores are the last ones. -/
theorem transfer_descriptor_pointers (garbage : sg_entry) (sg_buf : Nat) (sg_plist : physlist)
    (data_buf : Nat) (data_plist : physlist) (calls : List (Nat × Nat)) (lst : sg_list)
    (c : axidma_ctx) (m : Mem) (wait_irq enable_timeout : Bool) (first last : sg_entry)
    (hreach : add_entries (axidma_list_new garbage sg_buf sg_plist data_buf data_plist) calls
      = some lst)
    (hfirst : lst.chain.head? = some first) (hlast : lst.chain.getLast? = some last) :
    ∃ cur_lsb cur_msb dmacr tail_lsb tail_msb,
      (axidma_s2mm_transfer (axidma_write_sg_list (some c) (some lst) m).1
          ((axidma_write_sg_list (some c) (some lst) m).2.1.getD lst)
          wait_irq enable_timeout).writes =
        [(axidma_reg.S2MM_curdesc_lsb, cur_lsb), (axidma_reg.S2MM_curdesc_msb, cur_msb),
         (axidma_reg.S2MM_DMACR, dmacr),
         (axidma_reg.S2MM_taildesc_lsb, tail_lsb), (axidma_reg.S2MM_taildesc_msb, tail_msb)] ∧
      cur_lsb < 2 ^ 32 ∧ cur_msb < 2 ^ 32 ∧
      cur_lsb + 2 ^ 32 * cur_msb = virt_to_phys lst.sg_plist first.sg_offset ∧
      tail_lsb < 2 ^ 32 ∧ tail_msb < 2 ^ 32 ∧
      tail_lsb + 2 ^ 32 * tail_msb = virt_to_phys lst.sg_plist last.sg_offset := by
  have hEOF : last.is_EOF = true :=
    add_entries_last_EOF calls _ lst (by intro e he; simp [axidma_list_new] at he) hreach last
      hlast
  have hmem : last ∈ lst.chain := List.mem_of_getLast?_eq_some hlast
  have hcnt : lst.chain.countP (fun e => e.is_EOF) ≠ 0 := by
    intro h0
    rw [List.countP_eq_zero] at h0
    exact h0 last hmem hEOF
  obtain ⟨rest, hch⟩ : ∃ rest, lst.chain = first :: rest := by
    cases hc : lst.chain with
    | nil => rw [hc] at hfirst; simp at hfirst
    | cons a rest =>
      rw [hc] at hfirst
      simp only [List.head?_cons, Option.some.injEq] at hfirst
      exact ⟨rest, by rw [hfirst]⟩
  have hw : axidma_write_sg_list (some c) (some lst) m =
      (some { c with lst := true }, some { lst with to_vist := cursor.entry 0 },
        write_sg_entries lst.sg_plist lst.sentinel lst.chain m) := by
    unfold axidma_write_sg_list
    simp only [hch]
  rw [hw]
  simp only [Option.getD_some]
  rw [transfer_started { c with lst := true } { lst with to_vist := cursor.entry 0 } wait_irq
    enable_timeout rfl hcnt]
  have hhead : (lst.chain.headD lst.sentinel) = first := by rw [hch]; rfl
  have hl : (lst.chain.getLastD lst.sentinel) = last := by
    rw [List.getLastD_eq_getLast?, hlast]; rfl
  simp only [hhead, hl]
  have h1 := virt_to_phys_lt lst.sg_plist first.sg_offset
  have h2 := virt_to_phys_lt lst.sg_plist last.sg_offset
  exact ⟨_, _, _, _, _, rfl, by omega, by omega, by omega, by omega, by omega, by omega⟩

/-- Witness for C17: the chain built by requests of 1200 and 400
bytes on the fresh list. -/
theorem transfer_descriptor_pointers_witness :
    ∃ cur_lsb cur_msb dmacr tail_lsb tail_msb,
      (axidma_s2mm_transfer (axidma_write_sg_list (some { lst := false }) (some lst_two) mem_zero).1
          ((axidma_write_sg_list (some { lst := false }) (some lst_two) mem_zero).2.1.getD lst_two)
          true false).writes =
        [(axidma_reg.S2MM_curdesc_lsb, cur_lsb), (axidma_reg.S2MM_curdesc_msb, cur_msb),
         (axidma_reg.S2MM_DMACR, dmacr),
         (axidma_reg.S2MM_taildesc_lsb, tail_lsb), (axidma_reg.S2MM_taildesc_msb, tail_msb)] ∧
      cur_lsb < 2 ^ 32 ∧ cur_msb < 2 ^ 32 ∧
      cur_lsb + 2 ^ 32 * cur_msb = virt_to_phys lst_two.sg_plist 0 ∧
      tail_lsb < 2 ^ 32 ∧ tail_msb < 2 ^ 32 ∧
      tail_lsb + 2 ^ 32 * tail_msb = virt_to_phys lst_two.sg_plist 128 :=
  transfer_descriptor_pointers zero_entry 0x7f0000 [{ addr := 0x20000, len := 4096 }] 0x7e0000
    plist_data_1600 [(4, 1200), (4, 400)] lst_two { lst := false } mem_zero true false
    { sg_offset := 0, data_offset := 0, buf_phys := 0x40000, len := 1000, is_SOF := true,
      is_EOF := false }
    { sg_offset := 128, data_offset := 1200, buf_phys := 0x90000 + 200, len := 400,
      is_SOF := true, is_EOF := true }
    (by decide) (by decide) (by decide)

/-! ## The records of one successful request -/

/-- C18, counterexample. The decomposition breaks when the request runs past
offset `2 ^ 32` of the data arena: the data cursor is an `unsigned`.  Over a data arena of
three non-empty spans of 4 GiB - 1, 5 and 10 bytes, after a successful
request of 4294967295 bytes the cursor stands at 4294967295, the start of the
second span.  A request of 8 bytes succeeds and overlaps the second span (5
bytes) and the third (3 bytes, physical address 0x300000000); the second
record built has `data_offset` 4 and `buf_phys` 0x100000004, which lies in
the first span. -/
theorem add_entry_span_counterexample :
    (axidma_add_entry 1 lst_straddle_fresh 4294967295).1 = add_entry_code.ADD_ENTRY_SUCCESS ∧
      lst_straddle.data_offset = 4294967295 ∧
      (∀ s ∈ lst_straddle.data_plist, 0 < s.len) ∧
      (axidma_add_entry 2 lst_straddle 8).1 = add_entry_code.ADD_ENTRY_SUCCESS ∧
      ((axidma_add_entry 2 lst_straddle 8).2.chain.drop lst_straddle.chain.length).map
          (fun e => (e.data_offset, e.len, e.buf_phys)) =
        [(4294967295, 5, 0x200000000), (4, 3, 0x100000004)] ∧
      span_overlaps lst_straddle.data_plist 0 4294967295 8 =
        [(4294967295, 5, 0x200000000), (4294967300, 3, 0x300000000)] := by
  decide

/-- C18, as the code has it. For every list whose data physlist has only
non-empty spans (each with a length that fits an `unsigned` and lying inside the 64-bit
address space), with data cursor `c`, when `axidma_add_entry(sz)` returns
`ADD_ENTRY_SUCCESS` and `c + sz` does not exceed `2 ^ 32`, the appended
records are, in order, exactly one record per data span that the byte range
`[c, c + sz)` overlaps: `data_offset` is the start of the overlap, `len` its
size and `buf_phys` the span's physical address plus the offset within the
span.  Every record has a positive length, lies inside `[c, c + sz)` and
wholly inside one span of the physlist. -/
theorem add_entry_span_decomposition (heap : Nat) (lst : sg_list) (sz : Nat)
    (hspans : ∀ s ∈ lst.data_plist, 0 < s.len ∧ s.len < 2 ^ 32 ∧ s.addr + s.len ≤ 2 ^ 64)
    (hrange : lst.data_offset + sz ≤ 2 ^ 32)
    (h : (axidma_add_entry heap lst sz).1 = add_entry_code.ADD_ENTRY_SUCCESS) :
    ∃ grp, (axidma_add_entry heap lst sz).2.chain = lst.chain ++ grp ∧
      grp.map (fun e => (e.data_offset, e.len, e.buf_phys)) =
        span_overlaps lst.data_plist 0 lst.data_offset sz ∧
      ∀ e ∈ grp, ∃ pre s post, lst.data_plist = pre ++ s :: post ∧
        plist_total pre ≤ e.data_offset ∧ e.data_offset + e.len ≤ plist_total pre + s.len ∧
        lst.data_offset ≤ e.data_offset ∧ e.data_offset + e.len ≤ lst.data_offset + sz ∧
        0 < e.len ∧ e.buf_phys = s.addr + (e.data_offset - plist_total pre) := by
  obtain ⟨ind, oie, cur, rest, es, sg2, d2, hsz, hidx, hdrop, hl, hres⟩ :=
    add_entry_success_staged heap lst sz h
  obtain ⟨cur2, rest2, hdrop2, hoie, hoff⟩ :=
    get_entry_index_spec lst.data_plist lst.data_offset ind oie hidx
  rw [hdrop] at hdrop2
  simp only [List.cons.injEq] at hdrop2
  obtain ⟨rfl, rfl⟩ := hdrop2
  have hsplit : lst.data_plist = lst.data_plist.take ind ++ cur :: rest := by
    rw [← hdrop, List.take_append_drop]
  obtain ⟨new, hes, hnew⟩ :=
    add_entry_loop_overlaps lst.sg_plist lst.data_plist hspans rest cur (lst.data_plist.take ind)
      heap oie sz lst.sg_offset lst.data_offset [] es sg2 d2 hsplit hoie hoff hrange hsz hl
  simp only [List.nil_append] at hes
  subst hes
  have hmap : (set_last_EOF (set_first_SOF es)).map (fun e => (e.data_offset, e.len, e.buf_phys))
      = span_overlaps lst.data_plist 0 lst.data_offset sz := by
    rw [set_last_EOF_triple, set_first_SOF_triple, hnew]
    have hb := span_overlaps_before (lst.data_plist.take ind) (cur :: rest) 0 lst.data_offset sz
      (by omega)
    rw [← hsplit, Nat.zero_add] at hb
    exact hb.symm
  refine ⟨set_last_EOF (set_first_SOF es), by rw [hres], hmap, ?_⟩
  intro e he
  have hx : (e.data_offset, e.len, e.buf_phys) ∈
      span_overlaps lst.data_plist 0 lst.data_offset sz := by
    rw [← hmap]
    exact List.mem_map_of_mem (fun e => (e.data_offset, e.len, e.buf_phys)) he
  obtain ⟨pre, s, post, hl2, h1, h2, h3, h4, h5, h6⟩ := span_overlaps_mem _ _ _ _ _ hx
  simp only [Nat.zero_add] at h1 h2 h6
  exact ⟨pre, s, post, hl2, h1, h2, h3, h4, h5, h6⟩

/-- Witness for C18 as amended: the 1600-byte request of the example on
the fresh list, whose data arena has spans of 1000 and 600 bytes. -/
theorem add_entry_span_decomposition_witness :
    ∃ grp, (axidma_add_entry 2 lst_fresh 1600).2.chain = lst_fresh.chain ++ grp ∧
      grp.map (fun e => (e.data_offset, e.len, e.buf_phys)) =
        span_overlaps lst_fresh.data_plist 0 lst_fresh.data_offset 1600 ∧
      ∀ e ∈ grp, ∃ pre s post, lst_fresh.data_plist = pre ++ s :: post ∧
        plist_total pre ≤ e.data_offset ∧ e.data_offset + e.len ≤ plist_total pre + s.len ∧
        lst_fresh.data_offset ≤ e.data_offset ∧
        e.data_offset + e.len ≤ lst_fresh.data_offset + 1600 ∧
        0 < e.len ∧ e.buf_phys = s.addr + (e.data_offset - plist_total pre) :=
  add_entry_span_decomposition 2 lst_fresh 1600 (by decide) (by decide) (by decide)

/-- C19, counterexample. Both cursors are `unsigned` and advance modulo
`2 ^ 32`.  Data cursor: over a data arena of three spans of
4 GiB - 1, 5 and 10 bytes, after a request of 4294967295 bytes the cursor
stands at 4294967295, and a successful request of 8 bytes leaves it at 7.
Descriptor cursor: over a descriptor arena of two spans of 4 GiB - 32 bytes
and one page, after `2 ^ 26 - 1` successful one-byte requests the next one
succeeds, puts its record at descriptor offset 4294967264 and leaves the
descriptor cursor at 24. -/
theorem add_entry_cursor_counterexample :
    (lst_straddle.data_offset = 4294967295 ∧
      (axidma_add_entry 2 lst_straddle 8).1 = add_entry_code.ADD_ENTRY_SUCCESS ∧
      (axidma_add_entry 2 lst_straddle 8).2.data_offset = 7) ∧
    (add_entries lst_edge_fresh (List.replicate 67108863 (1, 1)) =
        some (lst_edge_state 67108863) ∧
      (axidma_add_entry 1 (lst_edge_state 67108863) 1).1 = add_entry_code.ADD_ENTRY_SUCCESS ∧
      ((axidma_add_entry 1 (lst_edge_state 67108863) 1).2.chain.map
        (fun e => e.sg_offset)).getLast? = some 4294967264 ∧
      (axidma_add_entry 1 (lst_edge_state 67108863) 1).2.sg_offset = 24) := by
  refine ⟨by decide, ?_, ?_, ?_, ?_⟩
  · exact edge_state_reach 67108863 0 (by norm_num)
  · rw [edge_last_step 67108863 rfl]
  · rw [edge_last_step 67108863 rfl]
    simp
  · rw [edge_last_step 67108863 rfl]

/-- C19, as the code has it. When `axidma_add_entry(sz)` returns
`ADD_ENTRY_SUCCESS` the chain is the old chain followed by new records `body ++ [last]` whose lengths
sum to exactly `sz`; the data cursor is the old one plus `sz` modulo `2 ^ 32`
(so exactly the old one plus `sz` when that is below `2 ^ 32`); and the
descriptor cursor is `last.sg_offset + sizeof(sg_descriptor)` modulo `2 ^ 32`
(so exactly that sum when the descriptor physlist describes at most
`2 ^ 32 - 120` bytes). -/
theorem add_entry_cursor_commit (heap : Nat) (lst : sg_list) (sz : Nat)
    (h : (axidma_add_entry heap lst sz).1 = add_entry_code.ADD_ENTRY_SUCCESS) :
    ∃ body last,
      (axidma_add_entry heap lst sz).2.chain = lst.chain ++ (body ++ [last]) ∧
      ((body ++ [last]).map (fun e => e.len)).sum = sz ∧
      (axidma_add_entry heap lst sz).2.data_offset = (lst.data_offset + sz) % 2 ^ 32 ∧
      (lst.data_offset + sz < 2 ^ 32 →
        (axidma_add_entry heap lst sz).2.data_offset = lst.data_offset + sz) ∧
      (axidma_add_entry heap lst sz).2.sg_offset =
        (last.sg_offset + sizeof_sg_descriptor) % 2 ^ 32 ∧
      (plist_total lst.sg_plist + 120 ≤ 2 ^ 32 →
        (axidma_add_entry heap lst sz).2.sg_offset = last.sg_offset + sizeof_sg_descriptor) := by
  obtain ⟨grp, sg2, hres, ⟨body, last, hgrp, _, _, hsum, _⟩, hslots, _⟩ :=
    add_entry_success_spec heap lst sz h
  have hlast : (grp.map (fun e => e.sg_offset)).getLast? = some last.sg_offset := by
    rw [hgrp]; simp
  have hsg := slots_from_last _ _ _ _ _ hslots hlast
  have hmem : last.sg_offset ∈ grp.map (fun e => e.sg_offset) := by
    rw [hgrp]; simp
  refine ⟨body, last, ?_, ?_, ?_, ?_, ?_, ?_⟩
  · rw [hres, hgrp]
  · rw [← hgrp]; exact hsum
  · rw [hres]
  · intro hlt
    rw [hres]
    exact Nat.mod_eq_of_lt hlt
  · rw [hres]; exact hsg
  · intro hT
    rw [hres]
    have hb := (slots_sorted _ hT _ _ _ hslots).2.1 _ hmem
    have hs := sizeof_sg_descriptor_eq
    have hT2 := (slots_sorted _ hT _ _ _ hslots).2.2
    simp only
    rw [hsg]
    apply Nat.mod_eq_of_lt
    -- the slot lies below the new cursor, which is below 2 ^ 32
    have hlt : (last.sg_offset + sizeof_sg_descriptor) % 2 ^ 32 < 2 ^ 32 :=
      Nat.mod_lt _ (by norm_num)
    rw [hsg] at hb
    omega

/-- Witness for C19 as amended: the 1600-byte request of the example on
the fresh list. -/
theorem add_entry_cursor_commit_witness :
    ∃ body last,
      (axidma_add_entry 2 lst_fresh 1600).2.chain = lst_fresh.chain ++ (body ++ [last]) ∧
      ((body ++ [last]).map (fun e => e.len)).sum = 1600 ∧
      (axidma_add_entry 2 lst_fresh 1600).2.data_offset = (lst_fresh.data_offset + 1600) % 2 ^ 32 ∧
      (lst_fresh.data_offset + 1600 < 2 ^ 32 →
        (axidma_add_entry 2 lst_fresh 1600).2.data_offset = lst_fresh.data_offset + 1600) ∧
      (axidma_add_entry 2 lst_fresh 1600).2.sg_offset =
        (last.sg_offset + sizeof_sg_descriptor) % 2 ^ 32 ∧
      (plist_total lst_fresh.sg_plist + 120 ≤ 2 ^ 32 →
        (axidma_add_entry 2 lst_fresh 1600).2.sg_offset = last.sg_offset + sizeof_sg_descriptor) :=
  add_entry_cursor_commit 2 lst_fresh 1600 (by decide)

/-- C20. When `axidma_add_entry` returns `ADD_ENTRY_SUCCESS` the chain is the
old chain followed by a non-empty group of new records `first :: others`; the
start-of-frame flag is set on `first` and on none of `others`; the group is
also `body ++ [last]` with the end-of-frame flag set on `last` and on no
record of `body`; and when the group is a single record that record carries
both flags. -/
theorem add_entry_frame_markers (heap : Nat) (lst : sg_list) (sz : Nat)
    (h : (axidma_add_entry heap lst sz).1 = add_entry_code.ADD_ENTRY_SUCCESS) :
    ∃ first others body last,
      (axidma_add_entry heap lst sz).2.chain = lst.chain ++ first :: others ∧
      first :: others = body ++ [last] ∧
      first.is_SOF = true ∧ (∀ e ∈ others, e.is_SOF = false) ∧
      last.is_EOF = true ∧ (∀ e ∈ body, e.is_EOF = false) ∧
      (others = [] → first.is_SOF = true ∧ first.is_EOF = true) := by
  obtain ⟨ind, oie, cur, rest, es, sg2, d2, hsz, _, _, hl, hres⟩ :=
    add_entry_success_staged heap lst sz h
  obtain ⟨e0, tail, hes, _, _, _, hall, _⟩ :=
    add_entry_loop_spec _ _ _ _ _ _ _ _ _ _ _ _ _ hsz hl
  simp only [List.nil_append] at hes
  subst hes
  obtain ⟨_, _, _, f4, _⟩ := set_first_SOF_fields (e0 :: tail)
  have hne : set_first_SOF (e0 :: tail) ≠ [] := by simp [set_first_SOF]
  have hno : ∀ e ∈ set_first_SOF (e0 :: tail), e.is_EOF = false := by
    intro e he
    have : e.is_EOF ∈ (set_first_SOF (e0 :: tail)).map (fun e => e.is_EOF) :=
      List.mem_map_of_mem _ he
    rw [f4] at this
    obtain ⟨x, hx, hxe⟩ := List.mem_map.1 this
    rw [← hxe]; exact (hall x hx).1
  obtain ⟨body, last, hb, hbody, hlast⟩ := set_last_EOF_split _ hne hno
  have hsof := set_last_EOF_SOF (set_first_SOF (e0 :: tail))
  cases hgrp : set_last_EOF (set_first_SOF (e0 :: tail)) with
  | nil => rw [hgrp] at hb; exact absurd hb (by simp)
  | cons first others =>
    rw [hgrp] at hb hsof
    simp only [set_first_SOF, List.map_cons, List.cons.injEq] at hsof
    obtain ⟨hfirst, hothers⟩ := hsof
    have hoth : ∀ e ∈ others, e.is_SOF = false := by
      intro e he
      have : e.is_SOF ∈ others.map (fun e => e.is_SOF) := List.mem_map_of_mem _ he
      rw [hothers] at this
      obtain ⟨x, hx, hxe⟩ := List.mem_map.1 this
      rw [← hxe]; exact (hall x (List.mem_cons_of_mem _ hx)).2.1
    refine ⟨first, others, body, last, ?_, hb, hfirst, hoth, hlast, hbody, ?_⟩
    · rw [hres, hgrp]
    · intro ho
      subst ho
      cases body with
      | nil =>
        simp only [List.nil_append, List.cons.injEq, and_true] at hb
        rw [hb]; exact ⟨hb ▸ hfirst, hlast⟩
      | cons b body =>
        have := congrArg List.length hb
        simp at this

/-- Witness for C20: the 1600-byte request of the example on the
fresh list, which builds two records. -/
theorem add_entry_frame_markers_witness :
    ∃ first others body last,
      (axidma_add_entry 2 lst_fresh 1600).2.chain = lst_fresh.chain ++ first :: others ∧
      first :: others = body ++ [last] ∧
      first.is_SOF = true ∧ (∀ e ∈ others, e.is_SOF = false) ∧
      last.is_EOF = true ∧ (∀ e ∈ body, e.is_EOF = false) ∧
      (others = [] → first.is_SOF = true ∧ first.is_EOF = true) :=
  add_entry_frame_markers 2 lst_fresh 1600 (by decide)

/-! ## The splice of the staged records into the chain -/

/-- C21, counterexample. One field of a previously existing record does
change: `sg_entry_add_list_before` assigns `oldtail->next` (line 100). After
the 1200-byte request the chain has the nodes 2000 and 2100, and the `next`
link of the node at 2100 is the sentinel at 1000; after the successful
400-byte request the `next` link of that node is 3000, the new node. -/
theorem add_entry_splice_counterexample :
    (axidma_add_entry 4 lst_tail 400).1 = add_entry_code.ADD_ENTRY_SUCCESS ∧
      ring heap_tail 1000 [2000, 2100] ∧
      [2000, 2100].map heap_tail.payload = lst_tail.chain ∧
      heap_tail.next 2100 = 1000 ∧
      heap_two.next 2100 = 3000 := by
  decide

/-- C21, as the code has it. Let the nodes `xs` form, with the sentinel
`head`, the well-formed chain of the list, their payloads being the records of
`lst`, and let `axidma_add_entry` return `ADD_ENTRY_SUCCESS`, the temporary
sentinel being at `s` and `malloc` returning the addresses `fresh` (new and
pairwise distinct) for the staged records.  Afterwards: reading forward from
the sentinel gives the old nodes followed by the new ones in the order of
creation, and reading backward gives the exact reverse; the chain is again
well formed; the payloads along it are the chain of the list after the call,
which is the old chain followed by the staged records with the flags set;
every payload field and the `prev` link of every old node are unchanged, and
so is the `next` link of every old node but the last, whose `next` link went
from the sentinel to the first new node. -/
theorem add_entry_splice (heap : Nat) (lst : sg_list) (sz : Nat) (H H2 : node_heap)
    (head s : Nat) (xs fresh : List Nat)
    (hsucc : (axidma_add_entry heap lst sz).1 = add_entry_code.ADD_ENTRY_SUCCESS)
    (hring : ring H head xs) (hpay : xs.map H.payload = lst.chain)
    (hnd : (s :: fresh).Nodup) (hdisj : ∀ a ∈ s :: fresh, a ∉ head :: xs)
    (hlen : fresh.length = (staged_records heap lst sz).length)
    (hH2 : H2 = axidma_add_entry_nodes H head s fresh heap lst sz) :
    read_forward H2 head (xs.length + fresh.length + 1) (H2.next head) = some (xs ++ fresh) ∧
      read_backward H2 head (xs.length + fresh.length + 1) (H2.prev head)
        = some (xs ++ fresh).reverse ∧
      ring H2 head (xs ++ fresh) ∧
      (xs ++ fresh).map H2.payload = (axidma_add_entry heap lst sz).2.chain ∧
      (axidma_add_entry heap lst sz).2.chain =
        lst.chain ++ set_last_EOF (set_first_SOF (staged_records heap lst sz)) ∧
      (∀ a ∈ xs, H2.payload a = H.payload a ∧ H2.prev a = H.prev a) ∧
      (∀ a ∈ xs, a ≠ xs.getLastD head → H2.next a = H.next a) ∧
      (xs ≠ [] → H.next (xs.getLastD head) = head ∧
        H2.next (xs.getLastD head) = fresh.headD head ∧ fresh.headD head ≠ head) := by
  obtain ⟨h1, h2, h3, h4, h5⟩ :=
    add_entry_nodes_spec heap lst sz H head s xs fresh hsucc hring hpay hnd hdisj hlen
  obtain ⟨hne, _, hchain⟩ := staged_records_spec heap lst sz hsucc
  rw [← hH2] at h1 h2 h3 h4 h5
  obtain ⟨hf, hb, hn⟩ := h1
  have hhead : head ∉ xs ++ fresh := (List.nodup_cons.1 hn).1
  refine ⟨?_, ?_, ⟨hf, hb, hn⟩, h2, hchain, h3, h4, ?_⟩
  · exact read_forward_fwd H2 head (xs ++ fresh) head _ hf hhead (by simp)
  · exact read_backward_bwd H2 head (xs ++ fresh) head _ hb hhead (by simp)
  · intro hx
    have hlast : H.next (xs.getLastD head) = head := by
      obtain ⟨l, a, rfl⟩ : ∃ l a, xs = l ++ [a] := by
        rcases List.eq_nil_or_concat xs with h | ⟨l, a, h⟩
        · exact absurd h hx
        · exact ⟨l, a, by rw [h]; simp⟩
      have := (fwd_append H.next l head a [] head).1 hring.1
      simpa [fwd] using this.2
    refine ⟨hlast, h5, ?_⟩
    cases hfr : fresh with
    | nil => rw [hfr] at hlen; exact absurd (List.length_eq_zero.1 hlen.symm) hne
    | cons y0 ys =>
      intro h
      simp only [List.headD_cons] at h
      exact hdisj y0 (by rw [hfr]; simp) (h ▸ List.mem_cons_self _ _)

/-- Witness for C21 as amended: the 400-byte request on the list left by the
1200-byte request, whose two nodes lie at 2000 and 2100; the new node lies at
3000. -/
theorem add_entry_splice_witness :
    read_forward heap_two 1000 ([2000, 2100].length + [3000].length + 1) (heap_two.next 1000)
        = some ([2000, 2100] ++ [3000]) ∧
      read_backward heap_two 1000 ([2000, 2100].length + [3000].length + 1)
        (heap_two.prev 1000) = some ([2000, 2100] ++ [3000]).reverse ∧
      ring heap_two 1000 ([2000, 2100] ++ [3000]) ∧
      ([2000, 2100] ++ [3000]).map heap_two.payload = (axidma_add_entry 4 lst_tail 400).2.chain ∧
      (axidma_add_entry 4 lst_tail 400).2.chain =
        lst_tail.chain ++ set_last_EOF (set_first_SOF (staged_records 4 lst_tail 400)) ∧
      (∀ a ∈ [2000, 2100], heap_two.payload a = heap_tail.payload a ∧
        heap_two.prev a = heap_tail.prev a) ∧
      (∀ a ∈ [2000, 2100], a ≠ [2000, 2100].getLastD 1000 → heap_two.next a = heap_tail.next a) ∧
      ([2000, 2100] ≠ [] → heap_tail.next ([2000, 2100].getLastD 1000) = 1000 ∧
        heap_two.next ([2000, 2100].getLastD 1000) = [3000].headD 1000 ∧
        [3000].headD 1000 ≠ 1000) :=
  add_entry_splice 4 lst_tail 400 heap_tail heap_two 1000 900 [2000, 2100] [3000]
    (by decide) (by decide) (by decide) (by decide) (by decide) (by decide) rfl

/-! ## The cursors and the aligned-span search -/

/-- C22. Failing input: on a fresh list whose descriptor arena is a 172-byte
buffer starting 112 bytes before a page boundary, three one-byte requests all
return `ADD_ENTRY_SUCCESS`; the third record is placed at descriptor offset
176, past the end of the arena, and the descriptor cursor is left at 232,
more than the 172 bytes of the descriptor physlist. -/
theorem cursor_exceeds_arena :
    plist_total plist_sg_172 = 172 ∧
      add_calls_successes lst_172_fresh [(1, 1), (1, 1), (1, 1)] = 3 ∧
      (add_calls lst_172_fresh [(1, 1), (1, 1), (1, 1)]).chain.map (fun e => e.sg_offset)
        = [48, 112, 176] ∧
      (add_calls lst_172_fresh [(1, 1), (1, 1), (1, 1)]).sg_offset = 232 ∧
      find_contiguous_aligned_after plist_sg_172 168 sizeof_sg_descriptor = 176 := by
  decide

/-- C23, counterexample. On one span of 4 GiB - 1 bytes at the physical
address 4 GiB, the search for 56 bytes from offset 4294967288 returns 0: the
next aligned position is 8 bytes on, at offset 2^32, and the `unsigned`
offset wraps.  The returned offset is not `AXIDMA_NOT_FOUND` and lies below
the start offset. -/
theorem find_contiguous_wraps :
    pinned_shape plist_sg_4g = true ∧
      plist_total plist_sg_4g = 4294967295 ∧
      find_contiguous_aligned_after plist_sg_4g 4294967288 56 = 0 ∧
      find_contiguous_aligned_after plist_sg_4g 4294967288 56 ≠ AXIDMA_NOT_FOUND ∧
      ¬ 4294967288 ≤ find_contiguous_aligned_after plist_sg_4g 4294967288 56 := by
  decide

/-- Outside the shape of a pinned buffer the search can pass over a place: on
a 40-byte span at address 0x10 followed by a page at 0x2000, the search for
56 bytes from offset 0 returns 48, although offset 40, the start of the page,
resolves to the aligned address 0x2000 and has 4096 bytes left in its span. -/
theorem unshaped_search_skips :
    pinned_shape plist_40_page = false ∧
      find_contiguous_aligned_after plist_40_page 0 56 = 48 ∧
      suitable plist_40_page 56 40 = true ∧
      virt_to_phys plist_40_page 40 = 0x2000 ∧
      suitable plist_40_page 56 48 = false ∧
      virt_to_phys plist_40_page 48 = 0x2008 := by
  decide

/-- C23, as the code has it. For every physlist of the shape of a pinned buffer
(every span but the last ends on a 64-byte boundary of physical address and
every span but the first starts on one) of at most 2^32 - 64 bytes in total,
every start offset `s` and every size `sz`: whenever
`find_contiguous_aligned_after` returns an offset `O` other than
`AXIDMA_NOT_FOUND`, `O` is at least `s` and no offset from `s` up to `O`
(excluded) is a place for `sz` bytes, that is, resolves to a 64-byte-aligned
physical address with `sz` bytes left in its span; and for `sz > 0` a returned
offset inside the buffer is itself such a place, hence the smallest one at or
after `s`. -/
theorem find_contiguous_minimal (plist : physlist) (s sz : Nat)
    (hshape : pinned_shape plist = true) (hT : plist_total plist + 64 ≤ 2 ^ 32)
    (h : find_contiguous_aligned_after plist s sz ≠ AXIDMA_NOT_FOUND) :
    s ≤ find_contiguous_aligned_after plist s sz ∧
      (∀ O, s ≤ O → O < find_contiguous_aligned_after plist s sz →
        suitable plist sz O = false) ∧
      (0 < sz → find_contiguous_aligned_after plist s sz < plist_total plist →
        suitable plist sz (find_contiguous_aligned_after plist s sz) = true) := by
  unfold find_contiguous_aligned_after at h ⊢
  cases hg : get_entry_index plist s with
  | none => rw [hg] at h; exact absurd rfl h
  | some p =>
    obtain ⟨ind, oie⟩ := p
    rw [hg] at h
    simp only at h ⊢
    obtain ⟨cur, tl, hd, hr, hoff⟩ := get_entry_index_spec plist s ind oie hg
    have htd := plist_total_take_drop plist ind
    have hsplit : plist = plist.take ind ++ plist.drop ind := (List.take_append_drop ind plist).symm
    obtain ⟨g1, g2, g3⟩ := find_contiguous_loop_minimal sz (plist.drop ind) s oie
      (pinned_shape_drop _ ind hshape)
      (by intro e rest he; rw [hd] at he; cases he; omega) (by omega) (by omega) h
    generalize find_contiguous_loop (plist.drop ind) s oie sz = O at g1 g2 g3 ⊢
    refine ⟨g1, ?_, ?_⟩
    · intro O2 h1 h2
      have key := suitable_append (plist.take ind) (plist.drop ind) sz
        (O2 - plist_total (plist.take ind))
      rw [← hsplit] at key
      have e1 : plist_total (plist.take ind) + (O2 - plist_total (plist.take ind)) = O2 := by omega
      rw [e1] at key
      rw [key]
      exact g2 _ (by omega) (by omega)
    · intro hsz hin
      have key := suitable_append (plist.take ind) (plist.drop ind) sz (oie + (O - s))
      rw [← hsplit] at key
      have e1 : plist_total (plist.take ind) + (oie + (O - s)) = O := by omega
      rw [e1] at key
      rw [key]
      exact g3 hsz (by omega)

/-- Witness for C23 as amended: on the 4140-byte buffer the search for 56 bytes
from offset 4040 passes the 40 bytes left in the first span and returns 4080,
the start of the second span, which is a place for 56 bytes. -/
theorem find_contiguous_minimal_witness :
    find_contiguous_aligned_after plist_4140 4040 56 = 4080 ∧
      (4040 ≤ find_contiguous_aligned_after plist_4140 4040 56 ∧
        (∀ O, 4040 ≤ O → O < find_contiguous_aligned_after plist_4140 4040 56 →
          suitable plist_4140 56 O = false) ∧
        (0 < 56 → find_contiguous_aligned_after plist_4140 4040 56 < plist_total plist_4140 →
          suitable plist_4140 56 (find_contiguous_aligned_after plist_4140 4040 56) = true)) :=
  ⟨by decide, find_contiguous_minimal plist_4140 4040 56 (by decide) (by decide) (by decide)⟩

/-- C24. Failing input: on the 172-byte physlist the search for 56 bytes from
offset 168 returns 176 and not `AXIDMA_NOT_FOUND`, although no offset from
168 on is a place for 56 bytes (four bytes remain in the last span). -/
theorem find_contiguous_not_exhausted :
    find_contiguous_aligned_after plist_sg_172 168 56 = 176 ∧
      176 ≠ AXIDMA_NOT_FOUND ∧
      ∀ O, suitable plist_sg_172 56 (168 + O) = false := by
  refine ⟨by decide, by decide, ?_⟩
  intro O
  by_cases h : O < 4
  · interval_cases O <;> decide
  · exact suitable_past _ _ _ (by
      have : plist_total plist_sg_172 = 172 := by decide
      omega)

/-! ## Resolving an offset to a span -/

/-- C25. For every physlist and offset: when `get_entry_index` returns the
index `i` with in-entry offset `r`, the entry `i` exists, the lengths of the
entries before it plus `r` give the offset, `r` is below the length of entry
`i`, and `virt_to_phys` returns the address of entry `i` plus `r` (computed
in 64 bits, so exactly that sum for a span that lies inside the 64-bit address
space); `get_entry_index` returns -1 (no output written) if and only if the
offset is at or beyond the sum of all entry lengths, and `virt_to_phys` then
returns 0. -/
theorem span_resolution (plist : physlist) (offset : Nat) :
    (∀ i r, get_entry_index plist offset = some (i, r) →
      ∃ e, plist[i]? = some e ∧ plist_total (plist.take i) + r = offset ∧ r < e.len ∧
        virt_to_phys plist offset = (e.addr + r) % 2 ^ 64 ∧
        (e.addr + e.len ≤ 2 ^ 64 → virt_to_phys plist offset = e.addr + r)) ∧
    (get_entry_index plist offset = none ↔ plist_total plist ≤ offset) ∧
    (get_entry_index plist offset = none → virt_to_phys plist offset = 0) := by
  refine ⟨?_, ?_, ?_⟩
  · intro i r h
    obtain ⟨cur, rest, hd, hr, hoff⟩ := get_entry_index_spec plist offset i r h
    have hsplit : plist = plist.take i ++ cur :: rest := by
      rw [← hd, List.take_append_drop]
    have hget : plist[i]? = some cur := by
      have := List.getElem?_drop (L := plist) (i := i) (j := 0)
      rw [hd] at this
      simpa using this.symm
    have hv : virt_to_phys plist offset = (cur.addr + r) % 2 ^ 64 := by
      have key := virt_to_phys_at (plist.take i) cur rest r hr
      rw [← hsplit] at key
      rw [hoff]
      exact key
    refine ⟨cur, hget, hoff.symm, hr, hv, ?_⟩
    intro hin
    rw [hv]
    exact Nat.mod_eq_of_lt (by omega)
  · exact get_entry_index_from_none plist 0 offset
  · intro h
    exact virt_to_phys_past plist offset ((get_entry_index_from_none plist 0 offset).1 h)

/-- Witness for C25: offset 1200 of the 1600-byte data arena lies 200 bytes
into its second span, and offset 1600 lies in no span. -/
theorem span_resolution_witness :
    (∃ e, plist_data_1600[1]? = some e ∧ plist_total (plist_data_1600.take 1) + 200 = 1200 ∧
        200 < e.len ∧ virt_to_phys plist_data_1600 1200 = (e.addr + 200) % 2 ^ 64 ∧
        (e.addr + e.len ≤ 2 ^ 64 → virt_to_phys plist_data_1600 1200 = e.addr + 200)) ∧
      virt_to_phys plist_data_1600 1600 = 0 :=
  ⟨(span_resolution plist_data_1600 1200).1 1 200 (by decide),
    (span_resolution plist_data_1600 1600).2.2 (by decide)⟩

/-! ## The physlist produced by pinning -/

/-- C26. Failing input: a request to pin 0 bytes at the user address 0x10010,
which is not page-aligned, is accepted (`num_pages` is 1) and yields a
physlist of one span of length 0, while the same request at the page-aligned
address 0x10000 is refused with `EINVAL` ("invalid pinning size"). -/
theorem pinner_zero_size_accepted :
    pinner_do_pin (fun i => 0x40000000 + 4096 * i) none 0x10010 0 =
        Except.ok [{ addr := 0x40000010, len := 0 }] ∧
      pinner_do_pin (fun i => 0x40000000 + 4096 * i) none 0x10000 0 = Except.error EINVAL :=
  ⟨rfl, rfl⟩

/-! ## Invariants of the chain under `axidma_add_entry` -/

/-- C27, counterexample. The descriptor cursor is an `unsigned`: over a
descriptor span of 4 GiB - 1 bytes, `2 ^ 26 + 1` successful one-byte requests
leave a chain whose second record lies at descriptor offset 64 and whose last
record lies at offset 0 again, with the descriptor cursor at 56. The offsets
are not increasing along the chain, and the slot of the second record ends
above the cursor. -/
theorem descriptor_slots_counterexample :
    add_calls lst_wrap_fresh (List.replicate 67108864 (1, 1) ++ [(1, 1)]) = lst_wrapped ∧
      (∃ l r, lst_wrapped.chain = l ++ [r] ∧ wrap_record 1 ∈ l ∧
        (wrap_record 1).sg_offset = 64 ∧ r.sg_offset = 0) ∧
      ¬ lst_wrapped.chain.Pairwise (fun a b => a.sg_offset < b.sg_offset) ∧
      lst_wrapped.sg_offset = 56 ∧
      ¬ (∀ r ∈ lst_wrapped.chain, r.sg_offset + sizeof_sg_descriptor ≤ lst_wrapped.sg_offset) := by
  have hch : lst_wrapped.chain = (List.range 67108864).map wrap_record ++
      [{ sg_offset := 0, data_offset := 67108864, buf_phys := 0x200000000 + 67108864, len := 1,
         is_SOF := true, is_EOF := true }] := rfl
  have hmem : wrap_record 1 ∈ (List.range 67108864).map wrap_record :=
    List.mem_map.2 ⟨1, List.mem_range.2 (by norm_num), rfl⟩
  refine ⟨add_calls_of_add_entries _ _ _ wrap_reach, ⟨_, _, hch, hmem, rfl, rfl⟩, ?_, rfl, ?_⟩
  · intro hp
    rw [hch, List.pairwise_append] at hp
    have := hp.2.2 (wrap_record 1) hmem _ (List.mem_singleton.2 rfl)
    simp [wrap_record] at this
  · intro hall
    have := hall (wrap_record 1) (by rw [hch]; exact List.mem_append_left _ hmem)
    have h56 : lst_wrapped.sg_offset = 56 := rfl
    have hs := sizeof_sg_descriptor_eq
    rw [h56] at this
    simp only [wrap_record] at this
    omega

/-- C27, as the code has it. In every list state reached from
`axidma_list_new` by `axidma_add_entry` calls (successful or not), over a
descriptor physlist of at most `2 ^ 32 - 120` bytes, the `sg_offset` values of
the records are strictly increasing in chain order, any record's offset
exceeds that of every earlier record by at least `sizeof(sg_descriptor)`, and
every record's `sg_offset` plus `sizeof(sg_descriptor)` is at most the
descriptor cursor of the list. -/
theorem descriptor_slots_disjoint (g : sg_entry) (sg_buf : Nat) (sg_plist : physlist)
    (data_buf : Nat) (data_plist : physlist) (calls : List (Nat × Nat))
    (hT : plist_total sg_plist + 120 ≤ 2 ^ 32) :
    (add_calls (axidma_list_new g sg_buf sg_plist data_buf data_plist) calls).chain.Pairwise
        (fun a b => a.sg_offset < b.sg_offset) ∧
      (add_calls (axidma_list_new g sg_buf sg_plist data_buf data_plist) calls).chain.Pairwise
        (fun a b => a.sg_offset + sizeof_sg_descriptor ≤ b.sg_offset) ∧
      ∀ r ∈ (add_calls (axidma_list_new g sg_buf sg_plist data_buf data_plist) calls).chain,
        r.sg_offset + sizeof_sg_descriptor ≤
          (add_calls (axidma_list_new g sg_buf sg_plist data_buf data_plist) calls).sg_offset := by
  obtain ⟨hp, hall⟩ := add_calls_slots calls
    (axidma_list_new g sg_buf sg_plist data_buf data_plist) hT
    ⟨by simp [axidma_list_new], by simp [axidma_list_new]⟩
  have hp2 := List.pairwise_map.1 hp
  have hs := sizeof_sg_descriptor_eq
  refine ⟨hp2.imp (fun h => by omega), hp2, fun r hr => (hall r hr).1⟩

/-- Witness for C27 as amended: requests of 1200, 2000 (refused: the data arena
has 1600 bytes) and 400 bytes on the fresh list. -/
theorem descriptor_slots_disjoint_witness :
    (add_calls lst_fresh [(4, 1200), (4, 2000), (4, 400)]).chain.Pairwise
        (fun a b => a.sg_offset < b.sg_offset) ∧
      (add_calls lst_fresh [(4, 1200), (4, 2000), (4, 400)]).chain.Pairwise
        (fun a b => a.sg_offset + sizeof_sg_descriptor ≤ b.sg_offset) ∧
      ∀ r ∈ (add_calls lst_fresh [(4, 1200), (4, 2000), (4, 400)]).chain,
        r.sg_offset + sizeof_sg_descriptor ≤
          (add_calls lst_fresh [(4, 1200), (4, 2000), (4, 400)]).sg_offset :=
  descriptor_slots_disjoint zero_entry 0x7f0000 [{ addr := 0x20000, len := 4096 }] 0x7e0000
    plist_data_1600 [(4, 1200), (4, 2000), (4, 400)] (by decide)

/-- C28. In every list state reached from `axidma_list_new` by
`axidma_add_entry` calls (successful or not), the chain is the concatenation
of groups, one per call that returned `ADD_ENTRY_SUCCESS`, each with the
start-of-frame flag on its first record only and the end-of-frame flag on its
last record only; the number of end-of-frame records equals the number of
successful calls; a chain with a record has at least one end-of-frame record;
and when the chain has a record, so that `axidma_write_sg_list` accepts the
list and sets `ctx->lst`, `axidma_s2mm_transfer` does not take the "no
entries" branch: it makes its five register stores. -/
theorem chain_frame_invariant (g : sg_entry) (sg_buf : Nat) (sg_plist : physlist)
    (data_buf : Nat) (data_plist : physlist) (calls : List (Nat × Nat)) (c : axidma_ctx)
    (m : Mem) (wait_irq enable_timeout : Bool) :
    (∃ groups : List (List sg_entry),
      (add_calls (axidma_list_new g sg_buf sg_plist data_buf data_plist) calls).chain
        = groups.flatten ∧
      groups.length =
        add_calls_successes (axidma_list_new g sg_buf sg_plist data_buf data_plist) calls ∧
      ∀ grp ∈ groups, frame_group grp) ∧
    (add_calls (axidma_list_new g sg_buf sg_plist data_buf data_plist) calls).chain.countP
        (fun e => e.is_EOF) =
      add_calls_successes (axidma_list_new g sg_buf sg_plist data_buf data_plist) calls ∧
    ((add_calls (axidma_list_new g sg_buf sg_plist data_buf data_plist) calls).chain ≠ [] →
      1 ≤ (add_calls (axidma_list_new g sg_buf sg_plist data_buf data_plist) calls).chain.countP
        (fun e => e.is_EOF)) ∧
    ((add_calls (axidma_list_new g sg_buf sg_plist data_buf data_plist) calls).chain ≠ [] →
      (axidma_write_sg_list (some c)
        (some (add_calls (axidma_list_new g sg_buf sg_plist data_buf data_plist) calls)) m).1
        = some { lst := true } ∧
      (axidma_s2mm_transfer
        (axidma_write_sg_list (some c)
          (some (add_calls (axidma_list_new g sg_buf sg_plist data_buf data_plist) calls)) m).1
        ((axidma_write_sg_list (some c)
          (some (add_calls (axidma_list_new g sg_buf sg_plist data_buf data_plist) calls))
          m).2.1.getD
            (add_calls (axidma_list_new g sg_buf sg_plist data_buf data_plist) calls))
        wait_irq enable_timeout).writes.length = 5) := by
  obtain ⟨groups, hch, hlen, hall⟩ :=
    add_calls_groups calls (axidma_list_new g sg_buf sg_plist data_buf data_plist)
  have hch2 : (add_calls (axidma_list_new g sg_buf sg_plist data_buf data_plist) calls).chain
      = groups.flatten := by
    rw [hch]; simp [axidma_list_new]
  have hcount : (add_calls (axidma_list_new g sg_buf sg_plist data_buf data_plist)
      calls).chain.countP (fun e => e.is_EOF) =
      add_calls_successes (axidma_list_new g sg_buf sg_plist data_buf data_plist) calls := by
    rw [hch2, groups_count groups hall, hlen]
  have hne : (add_calls (axidma_list_new g sg_buf sg_plist data_buf data_plist) calls).chain
      ≠ [] →
      1 ≤ (add_calls (axidma_list_new g sg_buf sg_plist data_buf data_plist) calls).chain.countP
        (fun e => e.is_EOF) := by
    intro h
    rw [hcount, ← hlen]
    cases groups with
    | nil => rw [hch2] at h; exact absurd rfl h
    | cons a l => simp
  refine ⟨⟨groups, hch2, hlen, hall⟩, hcount, hne, ?_⟩
  generalize add_calls (axidma_list_new g sg_buf sg_plist data_buf data_plist) calls = lst
    at hne ⊢
  intro hw
  cases hc : lst.chain with
  | nil => exact absurd hc hw
  | cons e rest =>
    have hw2 : axidma_write_sg_list (some c) (some lst) m =
        (some { c with lst := true }, some { lst with to_vist := cursor.entry 0 },
          write_sg_entries lst.sg_plist lst.sentinel lst.chain m) := by
      unfold axidma_write_sg_list
      simp only [hc]
    rw [hw2]
    refine ⟨rfl, ?_⟩
    simp only [Option.getD_some]
    rw [transfer_started { c with lst := true } { lst with to_vist := cursor.entry 0 } wait_irq
      enable_timeout rfl (by have := hne (by rw [hc]; simp); simp only; omega)]
    rfl

/-- Witness for C28: requests of 1200, 2000 (refused) and 400 bytes on the
fresh list leave a chain with a record, which `axidma_write_sg_list` accepts. -/
theorem chain_frame_invariant_witness :
    1 ≤ (add_calls (axidma_list_new zero_entry 0x7f0000 [{ addr := 0x20000, len := 4096 }]
        0x7e0000 plist_data_1600) [(4, 1200), (4, 2000), (4, 400)]).chain.countP
        (fun e => e.is_EOF) ∧
      (axidma_s2mm_transfer
        (axidma_write_sg_list (some { lst := false })
          (some (add_calls (axidma_list_new zero_entry 0x7f0000
            [{ addr := 0x20000, len := 4096 }] 0x7e0000 plist_data_1600)
            [(4, 1200), (4, 2000), (4, 400)])) mem_zero).1
        ((axidma_write_sg_list (some { lst := false })
          (some (add_calls (axidma_list_new zero_entry 0x7f0000
            [{ addr := 0x20000, len := 4096 }] 0x7e0000 plist_data_1600)
            [(4, 1200), (4, 2000), (4, 400)])) mem_zero).2.1.getD
            (add_calls (axidma_list_new zero_entry 0x7f0000
              [{ addr := 0x20000, len := 4096 }] 0x7e0000 plist_data_1600)
              [(4, 1200), (4, 2000), (4, 400)]))
        true false).writes.length = 5 :=
  ⟨(chain_frame_invariant zero_entry 0x7f0000 [{ addr := 0x20000, len := 4096 }] 0x7e0000
      plist_data_1600 [(4, 1200), (4, 2000), (4, 400)] { lst := false } mem_zero true
      false).2.2.1 (by decide),
    ((chain_frame_invariant zero_entry 0x7f0000 [{ addr := 0x20000, len := 4096 }] 0x7e0000
      plist_data_1600 [(4, 1200), (4, 2000), (4, 400)] { lst := false } mem_zero true
      false).2.2.2 (by decide)).2⟩

/-! ## Termination of the traversal -/

/-- C29. Let the nodes `nodes` form, with the sentinel `head`, a well-formed
chain whose payloads are the records of `lst`, and let the cursor be on the
node `e`, number `i` of the chain.  For every content of the descriptor memory
the loop of `axidma_dequeue_s2mm_buf` ends within `nodes.length - i`
iterations: it visits at least one and at most that many nodes, all nodes of
the chain and never the sentinel, returns the buffer the list-level function
returns, and leaves the cursor on the sentinel or on a node of the chain.  A
drain started on the first record reaches `END_OF_LIST` within
`nodes.length + 1` calls. -/
theorem traversal_terminates (H : node_heap) (m : Mem) (head : Nat) (lst : sg_list)
    (nodes : List Nat) (i e fuel : Nat)
    (hring : ring H head nodes) (hpay : nodes.map H.payload = lst.chain)
    (hi : nodes[i]? = some e) (hc : lst.to_vist = cursor.entry i)
    (hfuel : nodes.length - i ≤ fuel) :
    ∃ buf next visited,
      axidma_dequeue_nodes H m head lst.data_buf fuel e = some (buf, next, visited) ∧
      1 ≤ visited.length ∧ visited.length ≤ nodes.length - i ∧
      head ∉ visited ∧ (∀ v ∈ visited, v ∈ nodes) ∧
      (next = head ∨ next ∈ nodes) ∧
      buf = (axidma_dequeue_s2mm_buf lst m).1 ∧
      ∃ rs, drain m (nodes.length + 1) { lst with to_vist := cursor.entry 0 } =
        some (rs, { lst with to_vist := cursor.null }) := by
  obtain ⟨j, hij, hj, hres, _⟩ := dequeue_nodes_spec H m head lst nodes i e fuel hring hpay hi hc
    hfuel
  have hhead : head ∉ nodes := (List.nodup_cons.1 hring.2.2).1
  have hsub : ∀ v ∈ (nodes.drop i).take (j - i + 1), v ∈ nodes := fun v hv =>
    List.mem_of_mem_drop (List.mem_of_mem_take hv)
  have hclen : lst.chain.length = nodes.length := by rw [← hpay, List.length_map]
  refine ⟨_, _, _, hres, ?_, ?_, fun h => hhead (hsub head h), hsub, ?_, rfl, ?_⟩
  · rw [List.length_take, List.length_drop]; omega
  · rw [List.length_take, List.length_drop]; omega
  · cases hd : nodes.drop (j + 1) with
    | nil => left; rfl
    | cons a l =>
      right
      exact List.mem_of_mem_drop (by rw [hd]; exact List.mem_cons_self _ _)
  · exact drain_terminates m (nodes.length + 1) { lst with to_vist := cursor.entry 0 } 0
      (by simp only; omega) rfl (by simp only; omega)

/-- Witness for C29: the three nodes of `lst_two`, the cursor on the first,
and a descriptor memory in which `status.eof` is never set. -/
theorem traversal_terminates_witness :
    ∃ buf next visited,
      axidma_dequeue_nodes heap_two mem_zero 1000
          ({ lst_two with to_vist := cursor.entry 0 } : sg_list).data_buf 3 2000
        = some (buf, next, visited) ∧
      1 ≤ visited.length ∧ visited.length ≤ [2000, 2100, 3000].length - 0 ∧
      1000 ∉ visited ∧ (∀ v ∈ visited, v ∈ [2000, 2100, 3000]) ∧
      (next = 1000 ∨ next ∈ [2000, 2100, 3000]) ∧
      buf = (axidma_dequeue_s2mm_buf { lst_two with to_vist := cursor.entry 0 } mem_zero).1 ∧
      ∃ rs, drain mem_zero ([2000, 2100, 3000].length + 1)
          { ({ lst_two with to_vist := cursor.entry 0 } : sg_list) with
            to_vist := cursor.entry 0 } =
        some (rs, { ({ lst_two with to_vist := cursor.entry 0 } : sg_list) with
          to_vist := cursor.null }) :=
  traversal_terminates heap_two mem_zero 1000 { lst_two with to_vist := cursor.entry 0 }
    [2000, 2100, 3000] 0 2000 3 (by decide) (by decide) (by decide) rfl (by decide)

/-! ## The width of the programmed length -/

/-- C30. The control length that `s2mm_write_sg_entry` leaves in the descriptor
of a record is the record's length modulo `2 ^ 26`, whatever the memory held
before; it equals the record's length exactly when that length is below
`2 ^ 26`. `axidma_add_entry` bounds a record only by its data span: for every
length `L` of the `unsigned` range, a request of `L` bytes on a fresh list
whose data arena is one span of `L` bytes succeeds and builds one record of
length `L`. And for every list built by successful requests over a descriptor
arena of at most `2 ^ 32 - 120` bytes, every record of which has its slot
inside the descriptor buffer, after `axidma_write_sg_list` every record's
descriptor holds the record's length modulo `2 ^ 26`. -/
theorem programmed_length_width (m : Mem) (P : physlist) (e next : sg_entry) (g : sg_entry)
    (sg_buf data_buf heap a sa L : Nat) (sg_plist data_plist : physlist)
    (calls : List (Nat × Nat)) (lst : sg_list) (c : axidma_ctx) :
    control_len (s2mm_write_sg_entry m P e next) e.sg_offset = e.len % 2 ^ 26 ∧
      (control_len (s2mm_write_sg_entry m P e next) e.sg_offset = e.len ↔ e.len < 2 ^ 26) ∧
      (0 < L → L < 2 ^ 32 → sa % 64 = 0 →
        (axidma_add_entry (heap + 1)
          (axidma_list_new g sg_buf [{ addr := sa, len := 4096 }] data_buf
            [{ addr := a, len := L }]) L).1 = add_entry_code.ADD_ENTRY_SUCCESS ∧
        (axidma_add_entry (heap + 1)
          (axidma_list_new g sg_buf [{ addr := sa, len := 4096 }] data_buf
            [{ addr := a, len := L }]) L).2.chain.map (fun r => r.len) = [L]) ∧
      (add_entries (axidma_list_new g sg_buf sg_plist data_buf data_plist) calls = some lst →
        plist_total sg_plist + 120 ≤ 2 ^ 32 →
        (∀ r ∈ lst.chain, r.sg_offset + sizeof_sg_descriptor ≤ plist_total sg_plist) →
        ∀ r ∈ lst.chain,
          control_len (axidma_write_sg_list (some c) (some lst) m).2.2 r.sg_offset
            = r.len % 2 ^ 26) := by
  have h1 := s2mm_write_control_len m P e next
  refine ⟨h1, ?_, ?_, ?_⟩
  · rw [h1]
    constructor
    · intro h
      have := Nat.mod_lt e.len (show 0 < 2 ^ 26 by norm_num)
      omega
    · intro h
      exact Nat.mod_eq_of_lt h
  · intro hL hL2 hsa
    rw [add_entry_whole_span g sg_buf data_buf heap a sa L hL hL2 hsa]
    exact ⟨rfl, rfl⟩
  · intro hadd hT _ r hr
    obtain ⟨⟨hp, hall⟩, _, _⟩ := add_entries_slots calls
      (axidma_list_new g sg_buf sg_plist data_buf data_plist) lst hT
      ⟨by simp [axidma_list_new], by simp [axidma_list_new]⟩ hadd
    have hne : lst.chain ≠ [] := by
      intro h0; rw [h0] at hr; simp at hr
    rw [write_sg_list_mem c lst m hne]
    exact (write_sg_entries_holds _ _ _ m hp (fun q hq => (hall q hq).2) r hr).2.2.2.1

/-- Witness for C30: one request of 64 MiB over a data span of 64 MiB, whose
record has length `2 ^ 26`, and the three-record list built by requests of
1200 and 400 bytes, whose slots lie inside the one-page descriptor buffer. -/
theorem programmed_length_width_witness :
    ((axidma_add_entry (0 + 1)
          (axidma_list_new zero_entry 0x7f0000 [{ addr := 0x20000, len := 4096 }] 0x10000000
            [{ addr := 0x40000000, len := 67108864 }]) 67108864).1
          = add_entry_code.ADD_ENTRY_SUCCESS ∧
        (axidma_add_entry (0 + 1)
          (axidma_list_new zero_entry 0x7f0000 [{ addr := 0x20000, len := 4096 }] 0x10000000
            [{ addr := 0x40000000, len := 67108864 }]) 67108864).2.chain.map (fun r => r.len)
          = [67108864]) ∧
      ∀ r ∈ lst_two.chain,
        control_len (axidma_write_sg_list (some { lst := false }) (some lst_two) mem_zero).2.2
          r.sg_offset = r.len % 2 ^ 26 :=
  ⟨(programmed_length_width mem_zero [] zero_entry zero_entry zero_entry 0x7f0000 0x10000000 0
      0x40000000 0x20000 67108864 [{ addr := 0x20000, len := 4096 }] plist_data_1600
      [(4, 1200), (4, 400)] lst_two { lst := false }).2.2.1
      (by decide) (by decide) (by decide),
    (programmed_length_width mem_zero [] zero_entry zero_entry zero_entry 0x7f0000 0x7e0000 0
      0x40000000 0x20000 67108864 [{ addr := 0x20000, len := 4096 }] plist_data_1600
      [(4, 1200), (4, 400)] lst_two { lst := false }).2.2.2
      (by decide) (by decide) (by decide)⟩

end Axidma
